import Mathlib

/- Verification of the layered index engine: shallow embedding of the
   B-tree top component, the in-memory arena-backed linked node list, the
   PGM (learned) node layer, the B-tree base layer, and the persistent
   store handle discipline, together with proofs of the specified
   properties. Keys, addresses and opaque payloads are modelled as `Nat`;
   PGM model arithmetic is exact rational arithmetic. -/

namespace Limousine

/-! ## Top component (`classical/btree_top.rs`)

The inner `BTreeMap<K, A>` is represented by its association list in
strictly increasing key order, which is exactly the iteration order the
Rust code relies on via `range`. -/

/-- Embedding of `BTreeTopComponent`: the ordered map from split keys to
child addresses of the layer below. -/
structure BTreeTopComponent where
  inner : List (Nat × Nat)
deriving DecidableEq, Repr

/-- Sortedness invariant of the backing `BTreeMap`: strictly increasing keys. -/
def MapSorted (m : List (Nat × Nat)) : Prop :=
  List.Pairwise (fun p q : Nat × Nat => p.1 < q.1) m

instance (m : List (Nat × Nat)) : Decidable (MapSorted m) := by
  unfold MapSorted; infer_instance

/-- `BTreeTopComponent::search`: `inner.range(..=key).next_back()` is the last
entry whose key is ≤ the search key; the `unwrap_or` argument
`inner.range(..).next().unwrap()` is evaluated eagerly and unwraps the first
entry of the map, panicking when the map is empty (modelled as `none`). -/
def BTreeTopComponent.search (m : BTreeTopComponent) (key : Nat) : Option Nat :=
  match m.inner.head? with
  | none => none
  | some fst => some (((m.inner.filter (fun p => p.1 ≤ key)).getLast?.getD fst).2)

/-- The `PropagateInsert` propagation value consumed by the top component:
`Single(key, address, parent)` requests insertion of one routing entry,
`Replace` is the rebuild request. (Only the variant shapes matched by
`BTreeTopComponent::insert` are relevant; `Replace`'s fields are ignored by
the `{ .. }` pattern there.) -/
inductive PropagateInsert where
  | Single (key : Nat) (address : Nat) (parent : Unit)
  | Replace
deriving DecidableEq

/-- Sorted insert-or-overwrite into an association list with strictly
increasing keys: the model of `BTreeMap::insert`. -/
def mapInsert : List (Nat × Nat) → Nat → Nat → List (Nat × Nat)
  | [], k, v => [(k, v)]
  | (a, w) :: t, k, v =>
    if k < a then (k, v) :: (a, w) :: t
    else if k = a then (k, v) :: t
    else (a, w) :: mapInsert t k v

/-- Key lookup in an association list (the model of `BTreeMap::get`). -/
def mapFind : List (Nat × Nat) → Nat → Option Nat
  | [], _ => none
  | (a, w) :: t, k => if a = k then some w else mapFind t k

/-- `BTreeTopComponent::insert`: the `Single` variant inserts the
`(key, address)` entry into the map and sets the base node's parent to `()`;
the `Replace` variant hits `unimplemented!()`, i.e. panics (modelled as
`none`). The base layer is abstracted to its parent-pointer assignment,
which is all this function touches. -/
def BTreeTopComponent.insert (m : BTreeTopComponent) (base : Nat → Option Unit) :
    PropagateInsert → Option (BTreeTopComponent × (Nat → Option Unit))
  | .Single key address _ =>
      some (⟨mapInsert m.inner key address⟩, Function.update base address (some ()))
  | .Replace => none

/-! Helper lemmas about sorted association lists. -/

theorem mem_fst_le_getLast {m : List (Nat × Nat)}
    (hs : MapSorted m) (hne : m ≠ []) :
    ∀ r ∈ m, r.1 ≤ (m.getLast hne).1 := by
  induction m with
  | nil => simp at hne
  | cons a t ih =>
    intro r hr
    rcases List.mem_cons.mp hr with h | h
    · cases t with
      | nil => simp [h, List.getLast]
      | cons b t' =>
        have hab : a.1 < b.1 := (List.pairwise_cons.mp hs).1 b (by simp)
        have := ih (List.pairwise_cons.mp hs).2 (by simp) b (by simp)
        rw [List.getLast_cons (by simp)]
        subst h
        exact le_trans (le_of_lt hab) this
    · cases t with
      | nil => simp at h
      | cons b t' =>
        rw [List.getLast_cons (by simp)]
        exact ih (List.pairwise_cons.mp hs).2 (by simp) r h

theorem getLast_mem_of_ne {m : List (Nat × Nat)} (hne : m ≠ []) :
    m.getLast hne ∈ m := List.getLast_mem hne

/-- C7: on a non-empty, sorted top component, `search(k)` returns the child
address stored under the largest map key ≤ k, and falls back to the child
address of the first (smallest-key) entry when every map key exceeds k. -/
theorem c7_top_search_glb (m : List (Nat × Nat)) (k : Nat)
    (hs : MapSorted m) (hne : m ≠ []) :
    ((∀ p ∈ m, k < p.1) →
      BTreeTopComponent.search ⟨m⟩ k = some (m.head hne).2) ∧
    (∀ p ∈ m, p.1 ≤ k →
      ∃ q ∈ m, q.1 ≤ k ∧ (∀ r ∈ m, r.1 ≤ k → r.1 ≤ q.1) ∧
        BTreeTopComponent.search ⟨m⟩ k = some q.2) := by
  constructor
  · intro hall
    have hfil : m.filter (fun p => p.1 ≤ k) = [] := by
      refine List.filter_eq_nil_iff.mpr ?_
      intro p hp
      simpa using Nat.not_le.mpr (hall p hp)
    unfold BTreeTopComponent.search
    rcases m with _ | ⟨a, t⟩
    · simp at hne
    · simp [hfil]
  · intro p hp hpk
    set f := m.filter (fun p => p.1 ≤ k) with hf
    have hpf : p ∈ f := by
      rw [hf]; exact List.mem_filter.mpr ⟨hp, by simpa using hpk⟩
    have hfne : f ≠ [] := List.ne_nil_of_mem hpf
    have hfs : MapSorted f := List.Pairwise.filter _ hs
    refine ⟨f.getLast hfne, ?_, ?_, ?_, ?_⟩
    · exact List.mem_of_mem_filter (getLast_mem_of_ne hfne)
    · have := List.mem_filter.mp (getLast_mem_of_ne hfne)
      simpa using this.2
    · intro r hr hrk
      have hrf : r ∈ f := by
        rw [hf]; exact List.mem_filter.mpr ⟨hr, by simpa using hrk⟩
      exact mem_fst_le_getLast hfs hfne r hrf
    · unfold BTreeTopComponent.search
      rcases hm : m with _ | ⟨a, t⟩
      · subst hm; simp at hne
      · have : f.getLast? = some (f.getLast hfne) := List.getLast?_eq_getLast f hfne
        simp only [List.head?_cons]
        rw [← hm, ← hf, this]
        simp

/-- C7 witness: concrete instance of `c7_top_search_glb` on the map
{1 ↦ 10, 5 ↦ 50, 9 ↦ 90} at key 6 (greatest lower bound is key 5). -/
theorem c7_top_search_glb_witness :
    ∃ q ∈ [(1, 10), (5, 50), (9, 90)], q.1 ≤ 6 ∧
      (∀ r ∈ [(1, 10), (5, 50), (9, 90)], r.1 ≤ 6 → r.1 ≤ q.1) ∧
      BTreeTopComponent.search ⟨[(1, 10), (5, 50), (9, 90)]⟩ 6 = some q.2 :=
  (c7_top_search_glb [(1, 10), (5, 50), (9, 90)] 6 (by decide) (by decide)).2
    (5, 50) (by decide) (by decide)

/-- C9: the top component's search is partial at the empty map — the eager
`unwrap()` of the first entry panics when the map holds no entries (modelled
by `none`), while on any non-empty map `search` always produces an address. -/
theorem c9_top_search_empty_panics :
    (∀ k, BTreeTopComponent.search ⟨[]⟩ k = none) ∧
    (∀ (m : List (Nat × Nat)) (k : Nat), m ≠ [] →
      (BTreeTopComponent.search ⟨m⟩ k).isSome) := by
  constructor
  · intro k; rfl
  · intro m k hne
    unfold BTreeTopComponent.search
    rcases m with _ | ⟨a, t⟩
    · simp at hne
    · simp

/-- C9 witness: concrete instance — the search on the singleton map is
defined, on the empty map it panics. -/
theorem c9_top_search_empty_panics_witness :
    BTreeTopComponent.search ⟨[]⟩ 3 = none ∧
    (BTreeTopComponent.search ⟨[(1, 10)]⟩ 3).isSome := by
  refine ⟨c9_top_search_empty_panics.1 3, ?_⟩
  exact c9_top_search_empty_panics.2 [(1, 10)] 3 (by decide)

/-- C6 counterexample: `BTreeTopComponent::insert` applied to the rebuild
(`Replace`) propagation variant does not rebuild the map by walking the
layer below — it hits `unimplemented!()` and panics (result `none`), so on
the concrete one-entry component no rebuilt state is ever returned. -/
theorem c6_rebuild_counterexample :
    BTreeTopComponent.insert ⟨[(0, 0)]⟩ (fun _ => none) .Replace = none := rfl

theorem mapFind_mapInsert_self (m : List (Nat × Nat)) (k v : Nat) :
    mapFind (mapInsert m k v) k = some v := by
  induction m with
  | nil => simp [mapInsert, mapFind]
  | cons a t ih =>
    by_cases h1 : k < a.1
    · simp [mapInsert, mapFind, h1]
    · by_cases h2 : k = a.1
      · simp [mapInsert, mapFind, h1, h2]
      · have : a.1 ≠ k := fun h => h2 h.symm
        simp [mapInsert, mapFind, h1, h2, this, ih]

theorem mapFind_mapInsert_ne (m : List (Nat × Nat)) (k v k' : Nat)
    (hne : k' ≠ k) : mapFind (mapInsert m k v) k' = mapFind m k' := by
  have hkk : k ≠ k' := fun h => hne h.symm
  induction m with
  | nil => simp [mapInsert, mapFind, hkk]
  | cons a t ih =>
    by_cases h1 : k < a.1
    · simp [mapInsert, mapFind, h1, hkk]
    · by_cases h2 : k = a.1
      · subst h2
        simp [mapInsert, mapFind, h1, hkk]
      · simp only [mapInsert, if_neg h1, if_neg h2, mapFind]
        by_cases h3 : a.1 = k'
        · simp [h3]
        · simp [h3, ih]

/-- C6 (amended): the top component's insert applied to the `Single(key,
address, parent)` variant inserts that one routing entry (the new entry is
found under `key`, all other keys are unchanged) and marks the base node's
parent; applied to the rebuild (`Replace`) variant it panics via
`unimplemented!()` (modelled as `none`) instead of rebuilding the map. In
neither case does it propagate further (no propagation value is produced). -/
theorem c6_top_insert_behaviour (m : List (Nat × Nat))
    (base : Nat → Option Unit) (k a : Nat) :
    (∃ res, BTreeTopComponent.insert ⟨m⟩ base (.Single k a ()) = some res ∧
      mapFind res.1.inner k = some a ∧
      (∀ k', k' ≠ k → mapFind res.1.inner k' = mapFind m k') ∧
      res.2 a = some ()) ∧
    BTreeTopComponent.insert ⟨m⟩ base .Replace = none := by
  refine ⟨⟨(⟨mapInsert m k a⟩, Function.update base a (some ())), rfl, ?_, ?_, ?_⟩, rfl⟩
  · exact mapFind_mapInsert_self m k a
  · intro k' hk'; exact mapFind_mapInsert_ne m k a k' hk'
  · simp

/-! ## Persistent store handles (`core/src/common/storage/store.rs`)

`GlobalStore` is modelled by its observable state: the marble disk store
and the write-through cache as page-id → contents association lists
(first match wins, so prepending models `write_batch` overwrite), the set
of live local-store names, the `IDAllocator` as a fresh counter, and the
`name → page id` registry. Catalogs are modelled as `Nat` with `bincode`
serialization as the identity; `C::default()` is `0`. Panics are modelled
as `Except.error` carrying the panic message. -/

namespace Store

/-- `CACHE_SIZE` from store.rs: threshold above which `write_page`
batch-flushes the cache. -/
def cacheSize : Nat := 10000

/-- Insert-or-overwrite for an unordered association list (model of
`HashMap::insert` for the cache). -/
def updateAssoc : List (Nat × Nat) → Nat → Nat → List (Nat × Nat)
  | [], i, c => [(i, c)]
  | (j, d) :: t, i, c => if j = i then (i, c) :: t else (j, d) :: updateAssoc t i c

/-- First-match lookup in an association list (model of `HashMap::get` and
`marble::read`). -/
def lookupAssoc : List (Nat × Nat) → Nat → Option Nat
  | [], _ => none
  | (j, d) :: t, i => if j = i then some d else lookupAssoc t i

/-- Registry lookup (`catalog.registry.get(&ident)`). -/
def lookupRegistry : List (String × Nat) → String → Option Nat
  | [], _ => none
  | (j, d) :: t, i => if j = i then some d else lookupRegistry t i

/-- Observable state of `GlobalStore` / `GlobalStoreInner`. -/
structure GlobalStoreState where
  disk : List (Nat × Nat)
  cache : List (Nat × Nat)
  active : List String
  nextId : Nat
  registry : List (String × Nat)
deriving DecidableEq, Repr

/-- A `LocalStore<C>` handle: its in-memory catalog, its registry page id,
and the name it was opened under. -/
structure LocalStore where
  catalog : Nat
  id : Nat
  ident : String
deriving DecidableEq, Repr

/-- A freshly loaded `GlobalStore` at an empty path: empty disk and cache,
no live local stores, page 0 reserved for the global catalog (so the
allocator hands out ids from 1), empty registry. -/
def freshGlobalStore : GlobalStoreState :=
  { disk := [], cache := [], active := [], nextId := 1, registry := [] }

/-- `ObjectStore::read_page`: cache first, then the backing store. -/
def readPage (s : GlobalStoreState) (id : Nat) : Option Nat :=
  match lookupAssoc s.cache id with
  | some d => some d
  | none => lookupAssoc s.disk id

/-- `ObjectStore::write_page`: write through the cache, batch-flushing the
cache to disk when it exceeds `CACHE_SIZE`. -/
def writePage (s : GlobalStoreState) (content id : Nat) : GlobalStoreState :=
  let c := updateAssoc s.cache id content
  if c.length > cacheSize then { s with disk := c ++ s.disk, cache := [] }
  else { s with cache := c }

/-- Registry resolution step of `load_local_store`: reuse the registered
page id, or allocate a fresh one and register it. -/
def resolveId (s : GlobalStoreState) (ident : String) : Nat × GlobalStoreState :=
  match lookupRegistry s.registry ident with
  | some id => (id, s)
  | none => (s.nextId,
      { s with nextId := s.nextId + 1,
               registry := (ident, s.nextId) :: s.registry })

/-- Catalog loading step of `load_local_store`: read the catalog page, or
initialize it with `C::default()` and write it back. -/
def loadCatalog (s : GlobalStoreState) (id : Nat) : Nat × GlobalStoreState :=
  match readPage s id with
  | some c => (c, s)
  | none => (0, writePage s 0 id)

/-- `GlobalStore::load_local_store`: panics (error) when the name is live;
otherwise resolves or allocates the registry page, loads or initializes the
catalog, marks the name live and returns the scoped handle. -/
def loadLocalStore (s : GlobalStoreState) (ident : String) :
    Except String (GlobalStoreState × LocalStore) :=
  if ident ∈ s.active then
    .error ("Catalog `" ++ ident ++ "` has already been loaded!")
  else
    let p1 := resolveId s ident
    let p2 := loadCatalog p1.2 p1.1
    .ok ({ p2.2 with active := ident :: p2.2.active },
         { catalog := p2.1, id := p1.1, ident := ident })

/-- `Drop for LocalStore`: removes the name from the live set, then flushes
the handle's catalog to its page. -/
def dropLocalStore (s : GlobalStoreState) (h : LocalStore) : GlobalStoreState :=
  writePage { s with active := s.active.erase h.ident } h.catalog h.id

theorem lookupAssoc_updateAssoc_self (l : List (Nat × Nat)) (i c : Nat) :
    lookupAssoc (updateAssoc l i c) i = some c := by
  induction l with
  | nil => simp [updateAssoc, lookupAssoc]
  | cons a t ih =>
    by_cases h : a.1 = i
    · simp [updateAssoc, lookupAssoc, h]
    · simp [updateAssoc, lookupAssoc, h, ih]

theorem lookupAssoc_append_of_some {l : List (Nat × Nat)} {i c : Nat}
    (h : lookupAssoc l i = some c) (l' : List (Nat × Nat)) :
    lookupAssoc (l ++ l') i = some c := by
  induction l with
  | nil => simp [lookupAssoc] at h
  | cons a t ih =>
    by_cases ha : a.1 = i
    · simp_all [lookupAssoc]
    · simp_all [lookupAssoc]

theorem readPage_writePage_self (s : GlobalStoreState) (c i : Nat) :
    readPage (writePage s c i) i = some c := by
  unfold writePage readPage
  by_cases h : (updateAssoc s.cache i c).length > cacheSize
  · simp only [if_pos h]
    simp [lookupAssoc,
      lookupAssoc_append_of_some (lookupAssoc_updateAssoc_self s.cache i c) s.disk]
  · simp [if_neg h, lookupAssoc_updateAssoc_self]

theorem writePage_active (s : GlobalStoreState) (c i : Nat) :
    (writePage s c i).active = s.active := by
  unfold writePage
  by_cases h : (updateAssoc s.cache i c).length > cacheSize
  · rw [if_pos h]
  · rw [if_neg h]

theorem resolveId_active (s : GlobalStoreState) (ident : String) :
    (resolveId s ident).2.active = s.active := by
  unfold resolveId
  rcases lookupRegistry s.registry ident with _ | id <;> rfl

theorem loadCatalog_active (s : GlobalStoreState) (id : Nat) :
    (loadCatalog s id).2.active = s.active := by
  unfold loadCatalog
  rcases h : readPage s id with _ | c
  · simp [writePage_active]
  · rfl

/-- A successful open returns a handle under the requested name and a state
whose live set is exactly the old one with the name pushed in front. -/
theorem loadLocalStore_ok_shape (s : GlobalStoreState) (ident : String)
    (hnl : ¬ ident ∈ s.active) :
    ∃ st h, loadLocalStore s ident = .ok (st, h) ∧
      st.active = ident :: s.active ∧ h.ident = ident := by
  unfold loadLocalStore
  rw [if_neg hnl]
  exact ⟨_, _, rfl, by simp [loadCatalog_active, resolveId_active], rfl⟩

/-- C8: opening a local store under a name that is already live panics with
a message containing "already been loaded"; conversely, whenever an open
succeeded, dropping the returned handle flushes the handle's catalog to its
page and makes a subsequent open of the same name succeed. -/
theorem c8_scoped_local_store (s : GlobalStoreState) (ident : String) :
    (ident ∈ s.active →
      ∃ pre post, loadLocalStore s ident =
        .error (pre ++ ("already been loaded" ++ post))) ∧
    (∀ s' h, loadLocalStore s ident = .ok (s', h) →
      readPage (dropLocalStore s' h) h.id = some h.catalog ∧
      ∃ s'' h', loadLocalStore (dropLocalStore s' h) ident = .ok (s'', h')) := by
  constructor
  · intro hlive
    refine ⟨"Catalog `" ++ ident ++ "` has ", "!", ?_⟩
    unfold loadLocalStore
    rw [if_pos hlive]
    congr 1
    conv_rhs => rw [String.append_assoc]
    congr 1
  · intro s' h hok
    have hnl : ¬ ident ∈ s.active := by
      intro hc
      unfold loadLocalStore at hok
      rw [if_pos hc] at hok
      exact absurd hok (by simp)
    obtain ⟨st, hh, heq, hact, hid⟩ := loadLocalStore_ok_shape s ident hnl
    rw [hok] at heq
    simp only [Except.ok.injEq, Prod.mk.injEq] at heq
    obtain ⟨hst, hhh⟩ := heq
    subst hst; subst hhh
    constructor
    · exact readPage_writePage_self _ h.catalog h.id
    · have herase : (dropLocalStore s' h).active = s.active := by
        unfold dropLocalStore
        rw [writePage_active]
        show (s'.active.erase h.ident) = s.active
        rw [hid, hact, List.erase_cons_head]
      have hni : ¬ ident ∈ (dropLocalStore s' h).active := by
        rw [herase]; exact hnl
      obtain ⟨st2, h2, heq2, _, _⟩ :=
        loadLocalStore_ok_shape (dropLocalStore s' h) ident hni
      exact ⟨st2, h2, heq2⟩

/-- C8 witness: the concrete scenario of test `no_multiple_local_stores` /
`no_multiple_local_stores_with_drop` on a fresh store and the name "test":
the first open succeeds, a second simultaneous open panics with a message
containing "already been loaded", and after dropping the first handle a
re-open succeeds with the dropped catalog flushed. -/
theorem c8_scoped_local_store_witness :
    ∃ s' h, loadLocalStore freshGlobalStore "test" = .ok (s', h) ∧
      (∃ pre post, loadLocalStore s' "test" =
        .error (pre ++ ("already been loaded" ++ post))) ∧
      readPage (dropLocalStore s' h) h.id = some h.catalog ∧
      ∃ s'' h', loadLocalStore (dropLocalStore s' h) "test" = .ok (s'', h') := by
  refine ⟨{ disk := [], cache := [(1, 0)], active := ["test"], nextId := 2,
            registry := [("test", 1)] },
          { catalog := 0, id := 1, ident := "test" }, ?_, ?_, ?_⟩
  · rfl
  · exact (c8_scoped_local_store _ "test").1 (by decide)
  · exact (c8_scoped_local_store freshGlobalStore "test").2 _ _ rfl

end Store

/-! ## Arena-backed linked node list (`common/list/memory.rs`)

`MemoryList<N, PA>` is embedded with the generational arena as a partial
map from arena ids to `(MemoryNode, parent)` slots; ids are handed out by a
fresh counter, which captures the generational-index contract that a freed
or stale id never collides with a fresh one (no id is ever freed by the
operations considered here). Payloads are `Nat`. -/

namespace MemList

/-- `MemoryNode<N>`: payload plus the two sibling links. -/
structure MemoryNode where
  inner : Nat
  next : Option Nat
  previous : Option Nat
deriving DecidableEq, Repr

/-- `MemoryList<N, PA>`: the arena of `(MemoryNode<N>, Option<PA>)` slots
plus the `first`/`last` ids and the fresh-id counter. -/
structure MemoryList where
  arena : Nat → Option (MemoryNode × Option Nat)
  fresh : Nat
  first : Nat
  last : Nat

/-- `MemoryList::new(inner)`: a fresh arena holding the single seed node at
id 0, which is both `first` and `last`. -/
def new (v : Nat) : MemoryList :=
  { arena := fun i =>
      if i = 0 then some ({ inner := v, next := none, previous := none }, none)
      else none,
    fresh := 1, first := 0, last := 0 }

/-- `MemoryList::insert_after(inner, ptr)`: reads `ptr`'s next link, links
the new node between `ptr` and that neighbour (updating the neighbour's
`previous`, or `last` when there is none), and returns the new id.
Dereferencing an absent id panics (modelled as `none`). -/
def insertAfter (s : MemoryList) (v : Nat) (ptr : Nat) :
    Option (MemoryList × Nat) :=
  match s.arena ptr with
  | none => none
  | some (node, par) =>
    let nextPtr := node.next
    let newId := s.fresh
    let newNode : MemoryNode := { inner := v, next := nextPtr, previous := some ptr }
    let arena1 : Nat → Option (MemoryNode × Option Nat) := fun i =>
      if i = newId then some (newNode, none) else s.arena i
    let arena2 : Nat → Option (MemoryNode × Option Nat) := fun i =>
      if i = ptr then some ({ node with next := some newId }, par) else arena1 i
    match nextPtr with
    | some np =>
        some ({ s with
                  arena := fun i =>
                    if i = np then
                      (arena2 np).map (fun q => ({ q.1 with previous := some newId }, q.2))
                    else arena2 i,
                  fresh := s.fresh + 1 }, newId)
    | none =>
        some ({ s with arena := arena2, fresh := s.fresh + 1, last := newId }, newId)

/-- `MemoryList::insert_before(inner, ptr)`: reads `ptr`'s previous link,
links the new node between that neighbour and `ptr` (updating the
neighbour's `next`, or `first` when there is none), and returns the new id. -/
def insertBefore (s : MemoryList) (v : Nat) (ptr : Nat) :
    Option (MemoryList × Nat) :=
  match s.arena ptr with
  | none => none
  | some (node, par) =>
    let prevPtr := node.previous
    let newId := s.fresh
    let newNode : MemoryNode := { inner := v, next := some ptr, previous := prevPtr }
    let arena1 : Nat → Option (MemoryNode × Option Nat) := fun i =>
      if i = newId then some (newNode, none) else s.arena i
    let arena2 : Nat → Option (MemoryNode × Option Nat) := fun i =>
      if i = ptr then some ({ node with previous := some newId }, par) else arena1 i
    match prevPtr with
    | some pp =>
        some ({ s with
                  arena := fun i =>
                    if i = pp then
                      (arena2 pp).map (fun q => ({ q.1 with next := some newId }, q.2))
                    else arena2 i,
                  fresh := s.fresh + 1 }, newId)
    | none =>
        some ({ s with arena := arena2, fresh := s.fresh + 1, first := newId }, newId)

/-- States reachable from a freshly created list by `insert_after` /
`insert_before` at live ids. -/
inductive Reachable : MemoryList → Prop where
  | base (v : Nat) : Reachable (new v)
  | stepAfter {s s' : MemoryList} {v ptr id : Nat} :
      Reachable s → insertAfter s v ptr = some (s', id) → Reachable s'
  | stepBefore {s s' : MemoryList} {v ptr id : Nat} :
      Reachable s → insertBefore s v ptr = some (s', id) → Reachable s'

/-- The id following `id` in a chain listed in forward order. -/
def nextInList : List Nat → Nat → Option Nat
  | a :: b :: t, id => if a = id then some b else nextInList (b :: t) id
  | _, _ => none

/-- The id preceding `id` in a chain listed in forward order. -/
def prevInList : List Nat → Nat → Option Nat
  | a :: b :: t, id => if b = id then some a else prevInList (b :: t) id
  | _, _ => none

/-- The abstract state: a list of distinct ids in forward chain order,
realized as a `MemoryList` whose links are the neighbour relations of the
list (all parent slots empty, as produced by the list mutators). -/
def ofList (L : List Nat) (pay : Nat → Nat) (f : Nat) : MemoryList :=
  { arena := fun i =>
      if i ∈ L then
        some ({ inner := pay i, next := nextInList L i, previous := prevInList L i }, none)
      else none,
    fresh := f, first := L.headD 0, last := L.getLastD 0 }

/-- Forward traversal of the list by following `next` links from `first`,
fuelled by the fresh counter (an upper bound on the number of nodes). -/
def traverseGo (s : MemoryList) : Option Nat → Nat → List Nat
  | none, _ => []
  | some _, 0 => []
  | some i, fuel + 1 =>
      i :: traverseGo s (match s.arena i with
                         | some q => q.1.next
                         | none => none) fuel

def traverse (s : MemoryList) : List Nat :=
  traverseGo s (some s.first) s.fresh

/-- Insert `f` immediately after the first occurrence of `ptr`. -/
def insAfterIds : List Nat → Nat → Nat → List Nat
  | [], _, _ => []
  | a :: t, ptr, f => if a = ptr then a :: f :: t else a :: insAfterIds t ptr f

/-- Insert `f` immediately before the first occurrence of `ptr`. -/
def insBeforeIds : List Nat → Nat → Nat → List Nat
  | [], _, _ => []
  | a :: t, ptr, f => if a = ptr then f :: a :: t else a :: insBeforeIds t ptr f

theorem nextInList_not_mem {L : List Nat} {i : Nat} (h : i ∉ L) :
    nextInList L i = none := by
  induction L with
  | nil => rfl
  | cons a t ih =>
    cases t with
    | nil => rfl
    | cons b t' =>
      have hai : a ≠ i := fun he => h (he ▸ List.mem_cons_self a _)
      rw [nextInList, if_neg hai]
      exact ih (fun hm => h (List.mem_cons_of_mem a hm))

theorem prevInList_not_mem {L : List Nat} {j : Nat} (h : j ∉ L) :
    prevInList L j = none := by
  induction L with
  | nil => rfl
  | cons a t ih =>
    cases t with
    | nil => rfl
    | cons b t' =>
      have hbj : b ≠ j := fun he => h (he ▸ List.mem_cons_of_mem a (List.mem_cons_self b _))
      rw [prevInList, if_neg hbj]
      have : j ∉ b :: t' := fun hm => h (List.mem_cons_of_mem a hm)
      cases t' with
      | nil => rfl
      | cons c t'' =>
        have hcj : c ≠ j := fun he =>
          this (he ▸ List.mem_cons_of_mem b (List.mem_cons_self c _))
        rw [prevInList, if_neg hcj]
        have hrec := ih this
        rw [prevInList, if_neg hcj] at hrec
        exact hrec

theorem nextInList_mem_tail {x : Nat} {M : List Nat} {i j : Nat}
    (h : nextInList (x :: M) i = some j) : j ∈ M := by
  induction M generalizing x with
  | nil => simp [nextInList] at h
  | cons b t ih =>
    rw [nextInList] at h
    by_cases hx : x = i
    · rw [if_pos hx] at h
      exact (Option.some.injEq _ _ ▸ h : b = j) ▸ List.mem_cons_self b t
    · rw [if_neg hx] at h
      exact List.mem_cons_of_mem b (ih h)

theorem nextInList_mem {L : List Nat} {i j : Nat}
    (h : nextInList L i = some j) : j ∈ L := by
  cases L with
  | nil => simp [nextInList] at h
  | cons x M => exact List.mem_cons_of_mem x (nextInList_mem_tail h)

theorem nextInList_src_mem {L : List Nat} {i j : Nat}
    (h : nextInList L i = some j) : i ∈ L := by
  induction L with
  | nil => simp [nextInList] at h
  | cons a t ih =>
    cases t with
    | nil => simp [nextInList] at h
    | cons b t' =>
      rw [nextInList] at h
      by_cases hx : a = i
      · exact hx ▸ List.mem_cons_self a _
      · rw [if_neg hx] at h
        exact List.mem_cons_of_mem a (ih h)

theorem prevInList_src_mem {L : List Nat} {i j : Nat}
    (h : prevInList L j = some i) : i ∈ L := by
  induction L with
  | nil => simp [prevInList] at h
  | cons a t ih =>
    cases t with
    | nil => simp [prevInList] at h
    | cons b t' =>
      rw [prevInList] at h
      by_cases hx : b = j
      · rw [if_pos hx] at h
        exact (Option.some.injEq _ _ ▸ h : a = i) ▸ List.mem_cons_self a _
      · rw [if_neg hx] at h
        exact List.mem_cons_of_mem a (ih h)

/-- In a duplicate-free chain, `next` and `previous` are converse relations:
`next i = some j` exactly when `previous j = some i`. -/
theorem nextInList_iff_prevInList {L : List Nat} (hnd : L.Nodup) (i j : Nat) :
    nextInList L i = some j ↔ prevInList L j = some i := by
  induction L with
  | nil => simp [nextInList, prevInList]
  | cons a t ih =>
    cases t with
    | nil => simp [nextInList, prevInList]
    | cons b t' =>
      have hna : a ∉ b :: t' := (List.nodup_cons.mp hnd).1
      have hndt : (b :: t').Nodup := (List.nodup_cons.mp hnd).2
      rw [nextInList, prevInList]
      by_cases hai : a = i
      · rw [if_pos hai]
        by_cases hbj : b = j
        · simp [hbj, hai, if_pos]
        · rw [if_neg hbj]
          constructor
          · intro h
            exact absurd ((Option.some.injEq _ _ ▸ h : b = j)) hbj
          · intro h
            exact absurd (hai ▸ prevInList_src_mem h) hna
      · rw [if_neg hai]
        by_cases hbj : b = j
        · rw [if_pos hbj]
          constructor
          · intro h
            have hjt : j ∈ t' := nextInList_mem_tail h
            exact absurd (hbj ▸ hjt) (List.nodup_cons.mp hndt).1
          · intro h
            exact absurd ((Option.some.injEq _ _ ▸ h : a = i).symm ▸ rfl) hai
        · rw [if_neg hbj]
          exact ih hndt

theorem nextInList_ne {L : List Nat} (hnd : L.Nodup) {i j : Nat}
    (h : nextInList L i = some j) : i ≠ j := by
  induction L with
  | nil => simp [nextInList] at h
  | cons a t ih =>
    cases t with
    | nil => simp [nextInList] at h
    | cons b t' =>
      rw [nextInList] at h
      by_cases hai : a = i
      · rw [if_pos hai] at h
        have hb : b = j := Option.some.injEq _ _ ▸ h
        intro hij
        exact (List.nodup_cons.mp hnd).1
          (by rw [hai, hij, ← hb]; exact List.mem_cons_self b t')
      · rw [if_neg hai] at h
        exact ih (List.nodup_cons.mp hnd).2 h

theorem prevInList_head {a : Nat} {t : List Nat} (h : a ∉ t) :
    prevInList (a :: t) a = none := by
  cases t with
  | nil => rfl
  | cons b t' =>
    have hba : b ≠ a := fun he => h (he ▸ List.mem_cons_self b t')
    rw [prevInList, if_neg hba]
    exact prevInList_not_mem h

theorem prevInList_none_head {L : List Nat} {ptr : Nat}
    (hm : ptr ∈ L) (hp : prevInList L ptr = none) : L.head? = some ptr := by
  induction L with
  | nil => simp at hm
  | cons a t ih =>
    by_cases ha : a = ptr
    · rw [ha]; rfl
    · have hmt : ptr ∈ t := (List.mem_cons.mp hm).resolve_left (fun h => ha h.symm)
      cases t with
      | nil => simp at hmt
      | cons b t' =>
        rw [prevInList] at hp
        by_cases hb : b = ptr
        · rw [if_pos hb] at hp; exact absurd hp (by simp)
        · rw [if_neg hb] at hp
          have := ih hmt hp
          have : b = ptr := by simpa using this
          exact absurd this hb

theorem nextInList_none_getLast {L : List Nat} {ptr : Nat}
    (hm : ptr ∈ L) (hp : nextInList L ptr = none) : L.getLast? = some ptr := by
  induction L with
  | nil => simp at hm
  | cons a t ih =>
    cases t with
    | nil =>
      have : ptr = a := by simpa using hm
      rw [← this]; rfl
    | cons b t' =>
      rw [nextInList] at hp
      by_cases ha : a = ptr
      · rw [if_pos ha] at hp; exact absurd hp (by simp)
      · rw [if_neg ha] at hp
        have hmt : ptr ∈ b :: t' := (List.mem_cons.mp hm).resolve_left (fun h => ha h.symm)
        rw [List.getLast?_cons_cons]
        exact ih hmt hp

theorem mem_insAfterIds {L : List Nat} {ptr f x : Nat} (hptr : ptr ∈ L) :
    x ∈ insAfterIds L ptr f ↔ x ∈ L ∨ x = f := by
  induction L with
  | nil => simp at hptr
  | cons a t ih =>
    by_cases ha : a = ptr
    · simp only [insAfterIds, if_pos ha]
      simp only [List.mem_cons]
      tauto
    · have hmt : ptr ∈ t := (List.mem_cons.mp hptr).resolve_left (fun h => ha h.symm)
      simp only [insAfterIds, if_neg ha, List.mem_cons, ih hmt]
      tauto

theorem mem_insBeforeIds {L : List Nat} {ptr f x : Nat} (hptr : ptr ∈ L) :
    x ∈ insBeforeIds L ptr f ↔ x ∈ L ∨ x = f := by
  induction L with
  | nil => simp at hptr
  | cons a t ih =>
    by_cases ha : a = ptr
    · simp only [insBeforeIds, if_pos ha]
      simp only [List.mem_cons]
      tauto
    · have hmt : ptr ∈ t := (List.mem_cons.mp hptr).resolve_left (fun h => ha h.symm)
      simp only [insBeforeIds, if_neg ha, List.mem_cons, ih hmt]
      tauto

theorem nodup_insAfterIds {L : List Nat} {ptr f : Nat}
    (hnd : L.Nodup) (hf : f ∉ L) (hptr : ptr ∈ L) :
    (insAfterIds L ptr f).Nodup := by
  induction L with
  | nil => simp at hptr
  | cons a t ih =>
    have hat : a ∉ t := (List.nodup_cons.mp hnd).1
    have hndt : t.Nodup := (List.nodup_cons.mp hnd).2
    have hft : f ∉ t := fun h => hf (List.mem_cons_of_mem a h)
    have haf : a ≠ f := fun he => hf (he ▸ List.mem_cons_self a t)
    by_cases ha : a = ptr
    · simp only [insAfterIds, if_pos ha]
      exact List.nodup_cons.mpr ⟨by simp [haf, hat],
        List.nodup_cons.mpr ⟨hft, hndt⟩⟩
    · have hmt : ptr ∈ t := (List.mem_cons.mp hptr).resolve_left (fun h => ha h.symm)
      simp only [insAfterIds, if_neg ha]
      refine List.nodup_cons.mpr ⟨?_, ih hndt hft hmt⟩
      rw [mem_insAfterIds hmt]
      rintro (h | h)
      · exact hat h
      · exact haf h

theorem nodup_insBeforeIds {L : List Nat} {ptr f : Nat}
    (hnd : L.Nodup) (hf : f ∉ L) (hptr : ptr ∈ L) :
    (insBeforeIds L ptr f).Nodup := by
  induction L with
  | nil => simp at hptr
  | cons a t ih =>
    have hat : a ∉ t := (List.nodup_cons.mp hnd).1
    have hndt : t.Nodup := (List.nodup_cons.mp hnd).2
    have hft : f ∉ t := fun h => hf (List.mem_cons_of_mem a h)
    have haf : a ≠ f := fun he => hf (he ▸ List.mem_cons_self a t)
    by_cases ha : a = ptr
    · simp only [insBeforeIds, if_pos ha]
      refine List.nodup_cons.mpr ⟨?_, List.nodup_cons.mpr ⟨hat, hndt⟩⟩
      rw [List.mem_cons]
      rintro (h | h)
      · exact haf h.symm
      · exact hft h
    · have hmt : ptr ∈ t := (List.mem_cons.mp hptr).resolve_left (fun h => ha h.symm)
      simp only [insBeforeIds, if_neg ha]
      refine List.nodup_cons.mpr ⟨?_, ih hndt hft hmt⟩
      rw [mem_insBeforeIds hmt]
      rintro (h | h)
      · exact hat h
      · exact haf h

theorem headD_insAfterIds (L : List Nat) (ptr f d : Nat) :
    (insAfterIds L ptr f).headD d = L.headD d := by
  cases L with
  | nil => rfl
  | cons a t =>
    by_cases ha : a = ptr <;> simp [insAfterIds, ha]

theorem getLastD_insAfterIds_none {L : List Nat} {ptr f : Nat}
    (hptr : ptr ∈ L) (hn : nextInList L ptr = none) (d : Nat) :
    (insAfterIds L ptr f).getLastD d = f := by
  induction L generalizing d with
  | nil => simp at hptr
  | cons a t ih =>
    by_cases ha : a = ptr
    · cases t with
      | nil => simp [insAfterIds, ha]
      | cons b t' =>
        rw [ha] at hn
        rw [nextInList, if_pos rfl] at hn
        exact absurd hn (by simp)
    · have hmt : ptr ∈ t := (List.mem_cons.mp hptr).resolve_left (fun h => ha h.symm)
      cases t with
      | nil => simp at hmt
      | cons b t' =>
        rw [nextInList, if_neg ha] at hn
        simp only [insAfterIds, if_neg ha]
        rw [List.getLastD_cons]
        exact ih hmt hn a

theorem getLastD_insAfterIds_some {L : List Nat} {ptr f np : Nat}
    (hptr : ptr ∈ L) (hn : nextInList L ptr = some np) (d : Nat) :
    (insAfterIds L ptr f).getLastD d = L.getLastD d := by
  induction L generalizing d with
  | nil => simp at hptr
  | cons a t ih =>
    by_cases ha : a = ptr
    · cases t with
      | nil => simp [nextInList] at hn
      | cons b t' =>
        simp only [insAfterIds, if_pos ha]
        simp only [List.getLastD_cons]
    · have hmt : ptr ∈ t := (List.mem_cons.mp hptr).resolve_left (fun h => ha h.symm)
      cases t with
      | nil => simp at hmt
      | cons b t' =>
        rw [nextInList, if_neg ha] at hn
        simp only [insAfterIds, if_neg ha]
        rw [List.getLastD_cons, List.getLastD_cons]
        exact ih hmt hn a

theorem headD_insBeforeIds_of_head {L : List Nat} {ptr f : Nat}
    (hh : L.head? = some ptr) (d : Nat) :
    (insBeforeIds L ptr f).headD d = f := by
  cases L with
  | nil => simp at hh
  | cons a t =>
    have : a = ptr := by simpa using hh
    simp [insBeforeIds, this]

theorem headD_insBeforeIds_of_ne {L : List Nat} {ptr f : Nat}
    (hh : L.head? ≠ some ptr) (hptr : ptr ∈ L) (d : Nat) :
    (insBeforeIds L ptr f).headD d = L.headD d := by
  cases L with
  | nil => simp at hptr
  | cons a t =>
    have ha : a ≠ ptr := fun he => hh (by rw [he]; rfl)
    simp [insBeforeIds, ha]

theorem getLastD_insBeforeIds {L : List Nat} {ptr f : Nat}
    (hptr : ptr ∈ L) (d : Nat) :
    (insBeforeIds L ptr f).getLastD d = L.getLastD d := by
  induction L generalizing d with
  | nil => simp at hptr
  | cons a t ih =>
    by_cases ha : a = ptr
    · cases t with
      | nil => simp [insBeforeIds, ha]
      | cons b t' =>
        simp only [insBeforeIds, if_pos ha]
        simp only [List.getLastD_cons]
    · have hmt : ptr ∈ t := (List.mem_cons.mp hptr).resolve_left (fun h => ha h.symm)
      cases t with
      | nil => simp at hmt
      | cons b t' =>
        simp only [insBeforeIds, if_neg ha]
        rw [List.getLastD_cons, List.getLastD_cons]
        exact ih hmt a

theorem insAfterIds_ne_nil {L : List Nat} {ptr f : Nat} (hptr : ptr ∈ L) :
    insAfterIds L ptr f ≠ [] := by
  intro h
  have : ptr ∈ insAfterIds L ptr f := (mem_insAfterIds hptr).mpr (Or.inl hptr)
  rw [h] at this
  simp at this

theorem insBeforeIds_ne_nil {L : List Nat} {ptr f : Nat} (hptr : ptr ∈ L) :
    insBeforeIds L ptr f ≠ [] := by
  intro h
  have : ptr ∈ insBeforeIds L ptr f := (mem_insBeforeIds hptr).mpr (Or.inl hptr)
  rw [h] at this
  simp at this

theorem nextInList_insAfterIds_ptr {L : List Nat} {ptr f : Nat}
    (hptr : ptr ∈ L) :
    nextInList (insAfterIds L ptr f) ptr = some f := by
  induction L with
  | nil => simp at hptr
  | cons a t ih =>
    by_cases ha : a = ptr
    · simp [insAfterIds, ha, nextInList]
    · have hmt : ptr ∈ t := (List.mem_cons.mp hptr).resolve_left (fun h => ha h.symm)
      simp only [insAfterIds, if_neg ha]
      rcases hI : insAfterIds t ptr f with _ | ⟨c, cs⟩
      · exact absurd hI (insAfterIds_ne_nil hmt)
      · rw [nextInList, if_neg ha, ← hI]
        exact ih hmt

theorem nextInList_insAfterIds_new {L : List Nat} {ptr f : Nat}
    (hf : f ∉ L) (hptr : ptr ∈ L) :
    nextInList (insAfterIds L ptr f) f = nextInList L ptr := by
  induction L with
  | nil => simp at hptr
  | cons a t ih =>
    have haf : a ≠ f := fun he => hf (he ▸ List.mem_cons_self a t)
    have hft : f ∉ t := fun h => hf (List.mem_cons_of_mem a h)
    by_cases ha : a = ptr
    · simp only [insAfterIds, if_pos ha]
      cases t with
      | nil =>
        rw [nextInList, if_neg haf]
        rfl
      | cons b t' =>
        rw [nextInList, if_neg haf, nextInList, if_pos rfl, ha,
          nextInList, if_pos rfl]
    · have hmt : ptr ∈ t := (List.mem_cons.mp hptr).resolve_left (fun h => ha h.symm)
      simp only [insAfterIds, if_neg ha]
      rcases hI : insAfterIds t ptr f with _ | ⟨c, cs⟩
      · exact absurd hI (insAfterIds_ne_nil hmt)
      · rw [nextInList, if_neg haf, ← hI, ih hft hmt]
        cases t with
        | nil => simp at hmt
        | cons b t' => rw [nextInList, if_neg ha]

theorem nextInList_insAfterIds_other {L : List Nat} {ptr f i : Nat}
    (hptr : ptr ∈ L) (hi1 : i ≠ ptr) (hi2 : i ≠ f) :
    nextInList (insAfterIds L ptr f) i = nextInList L i := by
  induction L with
  | nil => simp at hptr
  | cons a t ih =>
    by_cases ha : a = ptr
    · have hai : a ≠ i := fun he => hi1 (he ▸ ha)
      simp only [insAfterIds, if_pos ha]
      cases t with
      | nil =>
        rw [nextInList, if_neg hai]
        rfl
      | cons b t' =>
        rw [nextInList, if_neg hai, nextInList, if_neg (fun he => hi2 he.symm),
          nextInList, if_neg hai]
    · have hmt : ptr ∈ t := (List.mem_cons.mp hptr).resolve_left (fun h => ha h.symm)
      simp only [insAfterIds, if_neg ha]
      rcases hI : insAfterIds t ptr f with _ | ⟨c, cs⟩
      · exact absurd hI (insAfterIds_ne_nil hmt)
      · cases t with
        | nil => simp at hmt
        | cons b t' =>
          by_cases hai : a = i
          · have hcb : c = b := by
              by_cases hb : b = ptr
              · rw [hb]
                simp [insAfterIds, hb] at hI
                exact hI.1.symm
              · simp only [insAfterIds, if_neg hb] at hI
                exact (List.cons.injEq _ _ _ _ ▸ hI : _ ∧ _).1.symm
            rw [nextInList, if_pos hai, nextInList, if_pos hai, hcb]
          · rw [nextInList, if_neg hai, nextInList, if_neg hai, ← hI]
            exact ih hmt

theorem nextInList_insBeforeIds_new {L : List Nat} {ptr f : Nat}
    (hf : f ∉ L) (hptr : ptr ∈ L) :
    nextInList (insBeforeIds L ptr f) f = some ptr := by
  induction L with
  | nil => simp at hptr
  | cons a t ih =>
    have haf : a ≠ f := fun he => hf (he ▸ List.mem_cons_self a t)
    have hft : f ∉ t := fun h => hf (List.mem_cons_of_mem a h)
    by_cases ha : a = ptr
    · simp [insBeforeIds, ha, nextInList]
    · have hmt : ptr ∈ t := (List.mem_cons.mp hptr).resolve_left (fun h => ha h.symm)
      simp only [insBeforeIds, if_neg ha]
      rcases hI : insBeforeIds t ptr f with _ | ⟨c, cs⟩
      · exact absurd hI (insBeforeIds_ne_nil hmt)
      · rw [nextInList, if_neg haf, ← hI]
        exact ih hft hmt

theorem nextInList_insBeforeIds_pred {L : List Nat} {ptr f i : Nat}
    (hnd : L.Nodup) (hf : f ∉ L)
    (h : nextInList L i = some ptr) :
    nextInList (insBeforeIds L ptr f) i = some f := by
  induction L with
  | nil => simp [nextInList] at h
  | cons a t ih =>
    cases t with
    | nil => simp [nextInList] at h
    | cons b t' =>
      have hat : a ∉ b :: t' := (List.nodup_cons.mp hnd).1
      have hndt : (b :: t').Nodup := (List.nodup_cons.mp hnd).2
      have hft : f ∉ b :: t' := fun hm => hf (List.mem_cons_of_mem a hm)
      rw [nextInList] at h
      by_cases hai : a = i
      · rw [if_pos hai] at h
        have hbp : b = ptr := Option.some.injEq _ _ ▸ h
        have hap : a ≠ ptr := fun he =>
          hat (by rw [he, ← hbp]; exact List.mem_cons_self b t')
        simp only [insBeforeIds, if_neg hap, if_pos hbp]
        rw [nextInList, if_pos hai]
      · rw [if_neg hai] at h
        have hpm : ptr ∈ b :: t' := nextInList_mem h
        have hap : a ≠ ptr := fun he => hat (he ▸ hpm)
        have hunf : insBeforeIds (a :: b :: t') ptr f =
            a :: insBeforeIds (b :: t') ptr f := by
          simp [insBeforeIds, hap]
        rcases hI : insBeforeIds (b :: t') ptr f with _ | ⟨c, cs⟩
        · exact absurd hI (insBeforeIds_ne_nil hpm)
        · rw [hunf, hI, nextInList, if_neg hai, ← hI]
          exact ih hndt hft h

theorem nextInList_insBeforeIds_other {L : List Nat} {ptr f i : Nat}
    (hptr : ptr ∈ L) (hi1 : i ≠ f) (hi2 : nextInList L i ≠ some ptr) :
    nextInList (insBeforeIds L ptr f) i = nextInList L i := by
  induction L with
  | nil => simp at hptr
  | cons a t ih =>
    by_cases ha : a = ptr
    · simp only [insBeforeIds, if_pos ha]
      cases t with
      | nil =>
        rw [nextInList, if_neg (fun he => hi1 he.symm)]
      | cons b t' =>
        rw [nextInList, if_neg (fun he => hi1 he.symm)]
    · have hmt : ptr ∈ t := (List.mem_cons.mp hptr).resolve_left (fun h => ha h.symm)
      simp only [insBeforeIds, if_neg ha]
      rcases hI : insBeforeIds t ptr f with _ | ⟨c, cs⟩
      · exact absurd hI (insBeforeIds_ne_nil hmt)
      · cases t with
        | nil => simp at hmt
        | cons b t' =>
          by_cases hai : a = i
          · have hbp : b ≠ ptr := by
              intro he
              apply hi2
              rw [nextInList, if_pos hai, he]
            have hcb : c = b := by
              simp only [insBeforeIds, if_neg hbp] at hI
              exact (List.cons.injEq _ _ _ _ ▸ hI : _ ∧ _).1.symm
            rw [nextInList, if_pos hai, nextInList, if_pos hai, hcb]
          · have hi2' : nextInList (b :: t') i ≠ some ptr := by
              intro he
              apply hi2
              rw [nextInList, if_neg hai]
              exact he
            rw [nextInList, if_neg hai, nextInList, if_neg hai, ← hI]
            exact ih hmt hi2'

theorem prevInList_insAfterIds_new {L : List Nat} {ptr f : Nat}
    (hnd : L.Nodup) (hf : f ∉ L) (hptr : ptr ∈ L) :
    prevInList (insAfterIds L ptr f) f = some ptr :=
  (nextInList_iff_prevInList (nodup_insAfterIds hnd hf hptr) ptr f).mp
    (nextInList_insAfterIds_ptr hptr)

theorem prevInList_insAfterIds_succ {L : List Nat} {ptr f np : Nat}
    (hnd : L.Nodup) (hf : f ∉ L) (hptr : ptr ∈ L)
    (hnp : nextInList L ptr = some np) :
    prevInList (insAfterIds L ptr f) np = some f :=
  (nextInList_iff_prevInList (nodup_insAfterIds hnd hf hptr) f np).mp
    (by rw [nextInList_insAfterIds_new hf hptr]; exact hnp)

theorem prevInList_insAfterIds_other {L : List Nat} {ptr f j : Nat}
    (hnd : L.Nodup) (hf : f ∉ L) (hptr : ptr ∈ L)
    (hj1 : j ≠ f) (hj2 : nextInList L ptr ≠ some j) :
    prevInList (insAfterIds L ptr f) j = prevInList L j := by
  have hnd' := nodup_insAfterIds hnd hf hptr
  rcases hp : prevInList L j with _ | i
  · rcases hp' : prevInList (insAfterIds L ptr f) j with _ | i
    · rfl
    · exfalso
      have hnext : nextInList (insAfterIds L ptr f) i = some j :=
        (nextInList_iff_prevInList hnd' i j).mpr hp'
      by_cases hiptr : i = ptr
      · rw [hiptr, nextInList_insAfterIds_ptr hptr] at hnext
        exact hj1 (Option.some.injEq _ _ ▸ hnext).symm
      · by_cases hif : i = f
        · rw [hif, nextInList_insAfterIds_new hf hptr] at hnext
          exact hj2 hnext
        · rw [nextInList_insAfterIds_other hptr hiptr hif] at hnext
          have := (nextInList_iff_prevInList hnd i j).mp hnext
          rw [hp] at this
          exact absurd this (by simp)
  · have hnext : nextInList L i = some j :=
      (nextInList_iff_prevInList hnd i j).mpr hp
    have hif : i ≠ f := fun he => hf (he ▸ nextInList_src_mem hnext)
    have hiptr : i ≠ ptr := by
      intro he
      rw [he] at hnext
      exact hj2 hnext
    refine (nextInList_iff_prevInList hnd' i j).mp ?_
    rw [nextInList_insAfterIds_other hptr hiptr hif]
    exact hnext

theorem prevInList_insBeforeIds_ptr {L : List Nat} {ptr f : Nat}
    (hnd : L.Nodup) (hf : f ∉ L) (hptr : ptr ∈ L) :
    prevInList (insBeforeIds L ptr f) ptr = some f :=
  (nextInList_iff_prevInList (nodup_insBeforeIds hnd hf hptr) f ptr).mp
    (nextInList_insBeforeIds_new hf hptr)

theorem prevInList_insBeforeIds_new {L : List Nat} {ptr f : Nat}
    (hnd : L.Nodup) (hf : f ∉ L) (hptr : ptr ∈ L) :
    prevInList (insBeforeIds L ptr f) f = prevInList L ptr := by
  have hnd' := nodup_insBeforeIds hnd hf hptr
  rcases hp : prevInList L ptr with _ | pp
  · have hhead : L.head? = some ptr := prevInList_none_head hptr hp
    rcases L with _ | ⟨a, t⟩
    · simp at hptr
    · have ha : a = ptr := by simpa using hhead
      have hft : f ∉ a :: t := hf
      simp only [insBeforeIds, if_pos ha]
      exact prevInList_head hft
  · have hnext : nextInList L pp = some ptr :=
      (nextInList_iff_prevInList hnd pp ptr).mpr hp
    exact (nextInList_iff_prevInList hnd' pp f).mp
      (nextInList_insBeforeIds_pred hnd hf hnext)

theorem prevInList_insBeforeIds_other {L : List Nat} {ptr f j : Nat}
    (hnd : L.Nodup) (hf : f ∉ L) (hptr : ptr ∈ L)
    (hj1 : j ≠ ptr) (hj2 : j ≠ f) :
    prevInList (insBeforeIds L ptr f) j = prevInList L j := by
  have hnd' := nodup_insBeforeIds hnd hf hptr
  rcases hp : prevInList L j with _ | i
  · rcases hp' : prevInList (insBeforeIds L ptr f) j with _ | i
    · rfl
    · exfalso
      have hnext : nextInList (insBeforeIds L ptr f) i = some j :=
        (nextInList_iff_prevInList hnd' i j).mpr hp'
      by_cases hif : i = f
      · rw [hif, nextInList_insBeforeIds_new hf hptr] at hnext
        exact hj1 (Option.some.injEq _ _ ▸ hnext).symm
      · by_cases hpred : nextInList L i = some ptr
        · rw [nextInList_insBeforeIds_pred hnd hf hpred] at hnext
          exact hj2 (Option.some.injEq _ _ ▸ hnext).symm
        · rw [nextInList_insBeforeIds_other hptr hif hpred] at hnext
          have := (nextInList_iff_prevInList hnd i j).mp hnext
          rw [hp] at this
          exact absurd this (by simp)
  · have hnext : nextInList L i = some j :=
      (nextInList_iff_prevInList hnd i j).mpr hp
    have hif : i ≠ f := fun he => hf (he ▸ nextInList_src_mem hnext)
    have hpred : nextInList L i ≠ some ptr := by
      rw [hnext]
      intro he
      exact hj1 (Option.some.injEq _ _ ▸ he)
    refine (nextInList_iff_prevInList hnd' i j).mp ?_
    rw [nextInList_insBeforeIds_other hptr hif hpred]
    exact hnext

theorem MemoryList.ext' (a b : MemoryList) (h1 : a.arena = b.arena)
    (h2 : a.fresh = b.fresh) (h3 : a.first = b.first) (h4 : a.last = b.last) :
    a = b := by
  cases a; cases b
  simp_all

/-- `insert_after` on the realization of an abstract chain produces exactly
the realization of the chain with the fresh id spliced in after `ptr`. -/
theorem insertAfter_ofList (L : List Nat) (pay : Nat → Nat) (f v ptr : Nat)
    (hnd : L.Nodup) (hb : ∀ x ∈ L, x < f) (hptr : ptr ∈ L) :
    insertAfter (ofList L pay f) v ptr =
      some (ofList (insAfterIds L ptr f) (Function.update pay f v) (f + 1), f) := by
  have hf : f ∉ L := fun h => absurd (hb f h) (lt_irrefl f)
  have hpf : ptr ≠ f := fun he => hf (he ▸ hptr)
  have harena : (ofList L pay f).arena ptr =
      some ({ inner := pay ptr, next := nextInList L ptr,
              previous := prevInList L ptr }, none) := by
    simp [ofList, hptr]
  unfold insertAfter
  rw [harena]
  dsimp only [ofList]
  rcases hnp : nextInList L ptr with _ | np
  · refine congrArg (fun st => some (st, f)) ?_
    refine MemoryList.ext' _ _ ?_ rfl ?_ ?_
    · funext i
      dsimp only
      by_cases hip : i = ptr
      · subst hip
        rw [if_pos rfl, if_pos ((mem_insAfterIds hptr).mpr (Or.inl hptr)),
          nextInList_insAfterIds_ptr hptr,
          prevInList_insAfterIds_other hnd hf hptr hpf (by rw [hnp]; simp),
          Function.update_noteq hpf]
      · rw [if_neg hip]
        by_cases hif : i = f
        · subst hif
          rw [if_pos rfl, if_pos ((mem_insAfterIds hptr).mpr (Or.inr rfl)),
            nextInList_insAfterIds_new hf hptr, hnp,
            prevInList_insAfterIds_new hnd hf hptr, Function.update_same]
        · rw [if_neg hif]
          by_cases hiL : i ∈ L
          · rw [if_pos hiL, if_pos ((mem_insAfterIds hptr).mpr (Or.inl hiL)),
              nextInList_insAfterIds_other hptr hip hif,
              prevInList_insAfterIds_other hnd hf hptr hif (by rw [hnp]; simp),
              Function.update_noteq hif]
          · rw [if_neg hiL, if_neg (show ¬ i ∈ insAfterIds L ptr f by
              rw [mem_insAfterIds hptr]
              push_neg
              exact ⟨hiL, hif⟩)]
    · exact (headD_insAfterIds L ptr f 0).symm
    · exact (getLastD_insAfterIds_none hptr hnp 0).symm
  · have hnpL : np ∈ L := nextInList_mem hnp
    have hnpf : np ≠ f := fun he => hf (he ▸ hnpL)
    have hpnp : ptr ≠ np := nextInList_ne hnd hnp
    refine congrArg (fun st => some (st, f)) ?_
    refine MemoryList.ext' _ _ ?_ rfl ?_ ?_
    · funext i
      dsimp only
      by_cases hinp : i = np
      · subst hinp
        rw [if_pos rfl, if_neg (fun he => hpnp he.symm), if_neg hnpf,
          if_pos hnpL, Option.map_some',
          if_pos ((mem_insAfterIds hptr).mpr (Or.inl hnpL)),
          nextInList_insAfterIds_other hptr (fun he => hpnp he.symm) hnpf,
          prevInList_insAfterIds_succ hnd hf hptr hnp,
          Function.update_noteq hnpf]
      · rw [if_neg hinp]
        by_cases hip : i = ptr
        · subst hip
          rw [if_pos rfl, if_pos ((mem_insAfterIds hptr).mpr (Or.inl hptr)),
            nextInList_insAfterIds_ptr hptr,
            prevInList_insAfterIds_other hnd hf hptr hpf
              (by rw [hnp]; intro he; exact hpnp (Option.some.injEq _ _ ▸ he).symm),
            Function.update_noteq hpf]
        · rw [if_neg hip]
          by_cases hif : i = f
          · subst hif
            rw [if_pos rfl, if_pos ((mem_insAfterIds hptr).mpr (Or.inr rfl)),
              nextInList_insAfterIds_new hf hptr, hnp,
              prevInList_insAfterIds_new hnd hf hptr, Function.update_same]
          · rw [if_neg hif]
            by_cases hiL : i ∈ L
            · rw [if_pos hiL, if_pos ((mem_insAfterIds hptr).mpr (Or.inl hiL)),
                nextInList_insAfterIds_other hptr hip hif,
                prevInList_insAfterIds_other hnd hf hptr hif
                  (by rw [hnp]; intro he; exact hinp (Option.some.injEq _ _ ▸ he).symm),
                Function.update_noteq hif]
            · rw [if_neg hiL, if_neg (show ¬ i ∈ insAfterIds L ptr f by
                rw [mem_insAfterIds hptr]
                push_neg
                exact ⟨hiL, hif⟩)]
    · exact (headD_insAfterIds L ptr f 0).symm
    · exact (getLastD_insAfterIds_some hptr hnp 0).symm

/-- `insert_before` on the realization of an abstract chain produces exactly
the realization of the chain with the fresh id spliced in before `ptr`. -/
theorem insertBefore_ofList (L : List Nat) (pay : Nat → Nat) (f v ptr : Nat)
    (hnd : L.Nodup) (hb : ∀ x ∈ L, x < f) (hptr : ptr ∈ L) :
    insertBefore (ofList L pay f) v ptr =
      some (ofList (insBeforeIds L ptr f) (Function.update pay f v) (f + 1), f) := by
  have hf : f ∉ L := fun h => absurd (hb f h) (lt_irrefl f)
  have hpf : ptr ≠ f := fun he => hf (he ▸ hptr)
  have hnself : nextInList L ptr ≠ some ptr := fun he => (nextInList_ne hnd he) rfl
  have harena : (ofList L pay f).arena ptr =
      some ({ inner := pay ptr, next := nextInList L ptr,
              previous := prevInList L ptr }, none) := by
    simp [ofList, hptr]
  unfold insertBefore
  rw [harena]
  dsimp only [ofList]
  rcases hpp : prevInList L ptr with _ | pp
  · have hhead : L.head? = some ptr := prevInList_none_head hptr hpp
    refine congrArg (fun st => some (st, f)) ?_
    refine MemoryList.ext' _ _ ?_ rfl ?_ ?_
    · funext i
      dsimp only
      by_cases hip : i = ptr
      · subst hip
        rw [if_pos rfl, if_pos ((mem_insBeforeIds hptr).mpr (Or.inl hptr)),
          prevInList_insBeforeIds_ptr hnd hf hptr,
          nextInList_insBeforeIds_other hptr hpf hnself,
          Function.update_noteq hpf]
      · rw [if_neg hip]
        by_cases hif : i = f
        · subst hif
          rw [if_pos rfl, if_pos ((mem_insBeforeIds hptr).mpr (Or.inr rfl)),
            nextInList_insBeforeIds_new hf hptr,
            prevInList_insBeforeIds_new hnd hf hptr, hpp,
            Function.update_same]
        · rw [if_neg hif]
          by_cases hiL : i ∈ L
          · have hnpred : nextInList L i ≠ some ptr := by
              intro he
              have := (nextInList_iff_prevInList hnd i ptr).mp he
              rw [hpp] at this
              exact absurd this (by simp)
            rw [if_pos hiL, if_pos ((mem_insBeforeIds hptr).mpr (Or.inl hiL)),
              nextInList_insBeforeIds_other hptr hif hnpred,
              prevInList_insBeforeIds_other hnd hf hptr hip hif,
              Function.update_noteq hif]
          · rw [if_neg hiL, if_neg (show ¬ i ∈ insBeforeIds L ptr f by
              rw [mem_insBeforeIds hptr]
              push_neg
              exact ⟨hiL, hif⟩)]
    · exact (headD_insBeforeIds_of_head hhead 0).symm
    · exact (getLastD_insBeforeIds hptr 0).symm
  · have hnext : nextInList L pp = some ptr :=
      (nextInList_iff_prevInList hnd pp ptr).mpr hpp
    have hppL : pp ∈ L := nextInList_src_mem hnext
    have hppf : pp ≠ f := fun he => hf (he ▸ hppL)
    have hppptr : pp ≠ ptr := nextInList_ne hnd hnext
    refine congrArg (fun st => some (st, f)) ?_
    refine MemoryList.ext' _ _ ?_ rfl ?_ ?_
    · funext i
      dsimp only
      by_cases hipp : i = pp
      · subst hipp
        rw [if_pos rfl, if_neg hppptr, if_neg hppf, if_pos hppL,
          Option.map_some',
          if_pos ((mem_insBeforeIds hptr).mpr (Or.inl hppL)),
          nextInList_insBeforeIds_pred hnd hf hnext,
          prevInList_insBeforeIds_other hnd hf hptr hppptr hppf,
          Function.update_noteq hppf]
      · rw [if_neg hipp]
        by_cases hip : i = ptr
        · subst hip
          rw [if_pos rfl, if_pos ((mem_insBeforeIds hptr).mpr (Or.inl hptr)),
            prevInList_insBeforeIds_ptr hnd hf hptr,
            nextInList_insBeforeIds_other hptr hpf hnself,
            Function.update_noteq hpf]
        · rw [if_neg hip]
          by_cases hif : i = f
          · subst hif
            rw [if_pos rfl, if_pos ((mem_insBeforeIds hptr).mpr (Or.inr rfl)),
              nextInList_insBeforeIds_new hf hptr,
              prevInList_insBeforeIds_new hnd hf hptr, hpp,
              Function.update_same]
          · rw [if_neg hif]
            by_cases hiL : i ∈ L
            · have hnpred : nextInList L i ≠ some ptr := by
                intro he
                have := (nextInList_iff_prevInList hnd i ptr).mp he
                rw [hpp] at this
                exact hipp (Option.some.injEq _ _ ▸ this.symm)
              rw [if_pos hiL, if_pos ((mem_insBeforeIds hptr).mpr (Or.inl hiL)),
                nextInList_insBeforeIds_other hptr hif hnpred,
                prevInList_insBeforeIds_other hnd hf hptr hip hif,
                Function.update_noteq hif]
            · rw [if_neg hiL, if_neg (show ¬ i ∈ insBeforeIds L ptr f by
                rw [mem_insBeforeIds hptr]
                push_neg
                exact ⟨hiL, hif⟩)]
    · have hhne : L.head? ≠ some ptr := by
        intro hh
        rcases L with _ | ⟨a, t⟩
        · simp at hptr
        · have ha : a = ptr := by simpa using hh
          subst ha
          have hnone : prevInList (a :: t) a = none :=
            prevInList_head (List.nodup_cons.mp hnd).1
          rw [hnone] at hpp
          exact absurd hpp (by simp)
      exact (headD_insBeforeIds_of_ne hhne hptr 0).symm
    · exact (getLastD_insBeforeIds hptr 0).symm

theorem nextInList_append_cons_cons {A : List Nat} {i j : Nat} (B : List Nat)
    (hA : i ∉ A) : nextInList (A ++ i :: j :: B) i = some j := by
  induction A with
  | nil => simp [nextInList]
  | cons a A' ih =>
    have hai : a ≠ i := fun he => hA (he ▸ List.mem_cons_self a A')
    have hA' : i ∉ A' := fun hm => hA (List.mem_cons_of_mem a hm)
    rcases hX : A' ++ i :: j :: B with _ | ⟨c, cs⟩
    · exact absurd hX (by simp)
    · rw [List.cons_append, hX, nextInList, if_neg hai, ← hX]
      exact ih hA'

theorem nextInList_append_last {A : List Nat} {i : Nat}
    (hA : i ∉ A) : nextInList (A ++ [i]) i = none := by
  induction A with
  | nil => rfl
  | cons a A' ih =>
    have hai : a ≠ i := fun he => hA (he ▸ List.mem_cons_self a A')
    have hA' : i ∉ A' := fun hm => hA (List.mem_cons_of_mem a hm)
    rcases hX : A' ++ [i] with _ | ⟨c, cs⟩
    · exact absurd hX (by simp)
    · rw [List.cons_append, hX, nextInList, if_neg hai, ← hX]
      exact ih hA'

theorem insAfterIds_append {A B : List Nat} {ptr f : Nat} (hA : ptr ∉ A) :
    insAfterIds (A ++ ptr :: B) ptr f = A ++ ptr :: f :: B := by
  induction A with
  | nil => simp [insAfterIds]
  | cons a A' ih =>
    have hap : a ≠ ptr := fun he => hA (he ▸ List.mem_cons_self a A')
    have hA' : ptr ∉ A' := fun hm => hA (List.mem_cons_of_mem a hm)
    simp only [List.cons_append, insAfterIds, if_neg hap]
    exact congrArg (List.cons a) (ih hA')

theorem insBeforeIds_append {A B : List Nat} {ptr f : Nat} (hA : ptr ∉ A) :
    insBeforeIds (A ++ ptr :: B) ptr f = A ++ f :: ptr :: B := by
  induction A with
  | nil => simp [insBeforeIds]
  | cons a A' ih =>
    have hap : a ≠ ptr := fun he => hA (he ▸ List.mem_cons_self a A')
    have hA' : ptr ∉ A' := fun hm => hA (List.mem_cons_of_mem a hm)
    simp only [List.cons_append, insBeforeIds, if_neg hap]
    exact congrArg (List.cons a) (ih hA')

theorem traverseGo_ofList {L : List Nat} (pay : Nat → Nat) (f : Nat)
    (hnd : L.Nodup) :
    ∀ (B A : List Nat) (i fuel : Nat), L = A ++ i :: B → fuel ≥ B.length + 1 →
      traverseGo (ofList L pay f) (some i) fuel = i :: B := by
  intro B
  induction B with
  | nil =>
    intro A i fuel hL hfuel
    have hiL : i ∈ L := by rw [hL]; simp
    have hiA : i ∉ A := by
      rw [hL] at hnd
      have := List.nodup_append.mp hnd
      exact fun hm => this.2.2 hm (List.mem_cons_self i [])
    rcases fuel with _ | fu
    · omega
    · rw [traverseGo]
      rw [show (ofList L pay f).arena i =
          some ({ inner := pay i, next := nextInList L i,
                  previous := prevInList L i }, none) by simp [ofList, hiL]]
      dsimp only
      rw [hL, nextInList_append_last hiA]
      simp [traverseGo]
  | cons b B' ih =>
    intro A i fuel hL hfuel
    have hiL : i ∈ L := by rw [hL]; simp
    have hiA : i ∉ A := by
      rw [hL] at hnd
      have := List.nodup_append.mp hnd
      exact fun hm => this.2.2 hm (List.mem_cons_self i _)
    rcases fuel with _ | fu
    · omega
    · rw [traverseGo]
      rw [show (ofList L pay f).arena i =
          some ({ inner := pay i, next := nextInList L i,
                  previous := prevInList L i }, none) by simp [ofList, hiL]]
      dsimp only
      rw [hL, nextInList_append_cons_cons B' hiA, ← hL]
      have hL' : L = (A ++ [i]) ++ b :: B' := by rw [hL]; simp
      rw [ih (A ++ [i]) b fu hL' (by simpa using Nat.lt_succ_iff.mp (Nat.lt_of_lt_of_le (Nat.lt_succ_self _) hfuel))]

theorem length_le_of_nodup_bounded {L : List Nat} {f : Nat}
    (hnd : L.Nodup) (hb : ∀ x ∈ L, x < f) : L.length ≤ f := by
  have h1 : L.toFinset.card = L.length := List.toFinset_card_of_nodup hnd
  have h2 : L.toFinset ⊆ Finset.range f := fun x hx =>
    Finset.mem_range.mpr (hb x (List.mem_toFinset.mp hx))
  have h3 := Finset.card_le_card h2
  rw [h1, Finset.card_range] at h3
  exact h3

/-- The fuelled forward traversal of a realized chain recovers exactly the
abstract id list. -/
theorem traverse_ofList {L : List Nat} (pay : Nat → Nat) {f : Nat}
    (hnd : L.Nodup) (hb : ∀ x ∈ L, x < f) (hne : L ≠ []) :
    traverse (ofList L pay f) = L := by
  rcases L with _ | ⟨a, t⟩
  · simp at hne
  · have hlen : (a :: t).length ≤ f := length_le_of_nodup_bounded hnd hb
    have : traverseGo (ofList (a :: t) pay f) (some a) f = a :: t :=
      traverseGo_ofList pay f hnd t [] a f rfl (by simpa using hlen)
    unfold traverse
    rw [show (ofList (a :: t) pay f).fresh = f from rfl,
      show (ofList (a :: t) pay f).first = a from rfl]
    exact this

/-- Every reachable `MemoryList` is the realization of a non-empty
duplicate-free id chain bounded by the fresh counter. -/
theorem reachable_ofList {s : MemoryList} (hr : Reachable s) :
    ∃ L pay f, s = ofList L pay f ∧ L.Nodup ∧ L ≠ [] ∧ ∀ x ∈ L, x < f := by
  induction hr with
  | base v =>
    refine ⟨[0], fun _ => v, 1, ?_, by simp, by simp, by simp⟩
    refine MemoryList.ext' _ _ ?_ rfl rfl rfl
    funext i
    by_cases h : i = 0
    · subst h
      simp [new, ofList, nextInList, prevInList]
    · simp [new, ofList, h]
  | stepAfter hr hstep ih =>
    rename_i t t' v ptr id
    obtain ⟨L, pay, f, hs, hnd, hne, hb⟩ := ih
    have hf : f ∉ L := fun h => absurd (hb f h) (lt_irrefl f)
    subst hs
    have hptr : ptr ∈ L := by
      by_contra hc
      unfold insertAfter at hstep
      rw [show (ofList L pay f).arena ptr = none by simp [ofList, hc]] at hstep
      exact absurd hstep (by simp)
    rw [insertAfter_ofList L pay f v ptr hnd hb hptr] at hstep
    have hs' : t' = ofList (insAfterIds L ptr f) (Function.update pay f v) (f + 1) := by
      have := Option.some.injEq _ _ ▸ hstep
      exact congrArg Prod.fst this.symm
    refine ⟨insAfterIds L ptr f, Function.update pay f v, f + 1, hs',
      nodup_insAfterIds hnd hf hptr, insAfterIds_ne_nil hptr, ?_⟩
    intro x hx
    rcases (mem_insAfterIds hptr).mp hx with h | h
    · exact Nat.lt_succ_of_lt (hb x h)
    · rw [h]; exact Nat.lt_succ_self f
  | stepBefore hr hstep ih =>
    rename_i t t' v ptr id
    obtain ⟨L, pay, f, hs, hnd, hne, hb⟩ := ih
    have hf : f ∉ L := fun h => absurd (hb f h) (lt_irrefl f)
    subst hs
    have hptr : ptr ∈ L := by
      by_contra hc
      unfold insertBefore at hstep
      rw [show (ofList L pay f).arena ptr = none by simp [ofList, hc]] at hstep
      exact absurd hstep (by simp)
    rw [insertBefore_ofList L pay f v ptr hnd hb hptr] at hstep
    have hs' : t' = ofList (insBeforeIds L ptr f) (Function.update pay f v) (f + 1) := by
      have := Option.some.injEq _ _ ▸ hstep
      exact congrArg Prod.fst this.symm
    refine ⟨insBeforeIds L ptr f, Function.update pay f v, f + 1, hs',
      nodup_insBeforeIds hnd hf hptr, insBeforeIds_ne_nil hptr, ?_⟩
    intro x hx
    rcases (mem_insBeforeIds hptr).mp hx with h | h
    · exact Nat.lt_succ_of_lt (hb x h)
    · rw [h]; exact Nat.lt_succ_self f

theorem exists_append_of_getLast? {L : List Nat} {g : Nat}
    (h : L.getLast? = some g) : ∃ A, L = A ++ [g] := by
  induction L with
  | nil => simp at h
  | cons a t ih =>
    cases t with
    | nil =>
      have : a = g := by simpa using h
      exact ⟨[], by rw [this]; rfl⟩
    | cons b t' =>
      rw [List.getLast?_cons_cons] at h
      obtain ⟨A, hA⟩ := ih h
      exact ⟨a :: A, by rw [List.cons_append, ← hA]⟩

theorem nextInList_getLast_none {L : List Nat} {g : Nat} (hnd : L.Nodup)
    (hg : L.getLast? = some g) : nextInList L g = none := by
  obtain ⟨A, hA⟩ := exists_append_of_getLast? hg
  subst hA
  have hnA : g ∉ A := fun hm =>
    (List.nodup_append.mp hnd).2.2 hm (List.mem_cons_self _ [])
  exact nextInList_append_last hnA

/-- The doubly-linked-chain consistency conditions of the claim: `first` has
no predecessor, `last` has no successor, and the `next`/`previous` links of
live nodes are converse relations. -/
def ChainConsistent (s : MemoryList) : Prop :=
  (∃ q, s.arena s.first = some q ∧ (q.1).previous = none) ∧
  (∃ q, s.arena s.last = some q ∧ (q.1).next = none) ∧
  (∀ i j qi qj, s.arena i = some qi → s.arena j = some qj →
    ((qi.1).next = some j ↔ (qj.1).previous = some i))

theorem chainConsistent_ofList {L : List Nat} (pay : Nat → Nat) (f : Nat)
    (hnd : L.Nodup) (hne : L ≠ []) : ChainConsistent (ofList L pay f) := by
  refine ⟨?_, ?_, ?_⟩
  · rcases L with _ | ⟨a, t⟩
    · simp at hne
    · refine ⟨(⟨pay a, nextInList (a :: t) a, prevInList (a :: t) a⟩, none), ?_, ?_⟩
      · simp [ofList]
      · exact prevInList_head (List.nodup_cons.mp hnd).1
  · obtain ⟨g, hg⟩ : ∃ g, L.getLast? = some g := by
      rcases L with _ | ⟨a, t⟩
      · simp at hne
      · exact ⟨(a :: t).getLast (by simp), List.getLast?_eq_getLast _ _⟩
    have hmem : g ∈ L := by
      obtain ⟨A, hA⟩ := exists_append_of_getLast? hg
      rw [hA]
      simp
    have hlastD : L.getLastD 0 = g := by
      rw [List.getLastD_eq_getLast?, hg]
      rfl
    refine ⟨(⟨pay g, nextInList L g, prevInList L g⟩, none), ?_, ?_⟩
    · show (ofList L pay f).arena (L.getLastD 0) = _
      rw [hlastD]
      simp [ofList, hmem]
    · exact nextInList_getLast_none hnd hg
  · intro i j qi qj hi hj
    have hiL : i ∈ L := by
      by_contra hc
      rw [show (ofList L pay f).arena i = none by simp [ofList, hc]] at hi
      exact absurd hi (by simp)
    have hjL : j ∈ L := by
      by_contra hc
      rw [show (ofList L pay f).arena j = none by simp [ofList, hc]] at hj
      exact absurd hj (by simp)
    have hqi : qi = (⟨pay i, nextInList L i, prevInList L i⟩, none) := by
      rw [show (ofList L pay f).arena i =
          some (⟨pay i, nextInList L i, prevInList L i⟩, none) by
            simp [ofList, hiL]] at hi
      exact (Option.some.injEq _ _ ▸ hi).symm
    have hqj : qj = (⟨pay j, nextInList L j, prevInList L j⟩, none) := by
      rw [show (ofList L pay f).arena j =
          some (⟨pay j, nextInList L j, prevInList L j⟩, none) by
            simp [ofList, hjL]] at hj
      exact (Option.some.injEq _ _ ▸ hj).symm
    rw [hqi, hqj]
    exact nextInList_iff_prevInList hnd i j

/-- C10: after any sequence of `insert_after` / `insert_before` operations
on a freshly created `MemoryList`, the nodes form a consistent doubly-linked
chain — `first` has no predecessor, `last` has no successor, and for live
nodes `n.next = some m` exactly when `m.previous = some n` — and each
mutator, applied at a live id, succeeds and exposes the new node exactly
once in the forward traversal, immediately after (respectively before) its
reference node. -/
theorem c10_memory_list_chain (s : MemoryList) (hr : Reachable s) :
    ChainConsistent s ∧
    ∀ v ptr q, s.arena ptr = some q →
      (∃ s2 newId A B, insertAfter s v ptr = some (s2, newId) ∧
        newId ∉ traverse s ∧ traverse s = A ++ ptr :: B ∧
        traverse s2 = A ++ ptr :: newId :: B) ∧
      (∃ s2 newId A B, insertBefore s v ptr = some (s2, newId) ∧
        newId ∉ traverse s ∧ traverse s = A ++ ptr :: B ∧
        traverse s2 = A ++ newId :: ptr :: B) := by
  obtain ⟨L, pay, f, hs, hnd, hne, hb⟩ := reachable_ofList hr
  subst hs
  have hf : f ∉ L := fun h => absurd (hb f h) (lt_irrefl f)
  refine ⟨chainConsistent_ofList pay f hnd hne, ?_⟩
  intro v ptr q hq
  have hptr : ptr ∈ L := by
    by_contra hc
    rw [show (ofList L pay f).arena ptr = none by simp [ofList, hc]] at hq
    exact absurd hq (by simp)
  obtain ⟨A, B, hdec⟩ := List.append_of_mem hptr
  have hptrA : ptr ∉ A := by
    rw [hdec] at hnd
    have := List.nodup_append.mp hnd
    rw [← hdec] at hnd
    exact fun hm => this.2.2 hm (List.mem_cons_self ptr B)
  have htrav : traverse (ofList L pay f) = L := traverse_ofList pay hnd hb hne
  have hbA : ∀ x ∈ insAfterIds L ptr f, x < f + 1 := by
    intro x hx
    rcases (mem_insAfterIds hptr).mp hx with h | h
    · exact Nat.lt_succ_of_lt (hb x h)
    · rw [h]; exact Nat.lt_succ_self f
  have hbB : ∀ x ∈ insBeforeIds L ptr f, x < f + 1 := by
    intro x hx
    rcases (mem_insBeforeIds hptr).mp hx with h | h
    · exact Nat.lt_succ_of_lt (hb x h)
    · rw [h]; exact Nat.lt_succ_self f
  constructor
  · refine ⟨_, f, A, B, insertAfter_ofList L pay f v ptr hnd hb hptr,
      ?_, ?_, ?_⟩
    · rw [htrav]; exact hf
    · rw [htrav]; exact hdec
    · rw [traverse_ofList (Function.update pay f v)
        (nodup_insAfterIds hnd hf hptr) hbA (insAfterIds_ne_nil hptr),
        hdec, insAfterIds_append hptrA]
  · refine ⟨_, f, A, B, insertBefore_ofList L pay f v ptr hnd hb hptr,
      ?_, ?_, ?_⟩
    · rw [htrav]; exact hf
    · rw [htrav]; exact hdec
    · rw [traverse_ofList (Function.update pay f v)
        (nodup_insBeforeIds hnd hf hptr) hbB (insBeforeIds_ne_nil hptr),
        hdec, insBeforeIds_append hptrA]

/-- C10 witness: the freshly created list with payload 5 is a consistent
chain, and inserting payload 7 after its seed node exposes the new id
right after the seed in the forward traversal. -/
theorem c10_memory_list_chain_witness :
    ChainConsistent (new 5) ∧
    (∃ s2 newId A B, insertAfter (new 5) 7 0 = some (s2, newId) ∧
      newId ∉ traverse (new 5) ∧ traverse (new 5) = A ++ 0 :: B ∧
      traverse s2 = A ++ 0 :: newId :: B) := by
  have h := c10_memory_list_chain (new 5) (Reachable.base 5)
  exact ⟨h.1,
    (h.2 7 0 ({ inner := 5, next := none, previous := none }, none) rfl).1⟩

end MemList

/-! ## PGM (learned) node layer (`learned/pgm/pgm_layer.rs`)

Keys are embedded in `ℚ` and model arithmetic is exact rational
arithmetic; child addresses / payloads are `Nat`. The layer is embedded as
the list of its nodes in sibling-chain order (the sentinel is not
represented; claims quantify over the data-carrying nodes). Fresh arena
addresses are modelled as `freshBase + i`, capturing the generational-index
contract that new addresses never collide with surviving ones. -/

namespace PGM

/-- Modelled from the spec: `LinearModel` together with a PGM node's entry
vector (`pgm_model.rs` / `pgm_inner.rs` are not under src/). A segment is a
linear model `y ≈ slope · key + intercept` plus the exact sorted entries it
covers (§4.3, §4.3.1). -/
structure Segment where
  slope : ℚ
  intercept : ℚ
  entries : List (ℚ × Nat)
deriving DecidableEq, Repr

/-- Modelled from the spec (§4.3.1 step 3): close the current segment by
choosing the cone's bisector as slope (`0` for a one-entry segment, whose
cone is still unbounded) and deriving the intercept from the first point
`(k0, 0)`. -/
def closeSeg (k0 : ℚ) (cur : List (ℚ × Nat)) (cone : Option (ℚ × ℚ)) : Segment :=
  let s : ℚ := match cone with
    | none => 0
    | some (lo, hi) => (lo + hi) / 2
  { slope := s, intercept := -s * k0, entries := cur }

/-- Tighten the feasible slope cone by the half-planes of one entry
(`none` is the initial unbounded cone). -/
def tighten (cone : Option (ℚ × ℚ)) (nlo nhi : ℚ) : ℚ × ℚ :=
  match cone with
  | none => (nlo, nhi)
  | some (l, h) => (max l nlo, min h nhi)

/-- Modelled from the spec (§4.3.1): one step of the shrinking-cone greedy
ε-segmentation. `k0` is the current segment's first key, `cur` its entries
so far, `cone` the feasible slope interval (`none` = still `(-∞, +∞)`).
Each new entry at local index `n` tightens the cone by the two half-planes
`(n − ε)/d ≤ slope ≤ (n + ε)/d` for `d = key − k0`; an empty cone closes
the segment and restarts at the current entry. -/
def segmentGo (ε : ℕ) : ℚ → List (ℚ × Nat) → Option (ℚ × ℚ) →
    List (ℚ × Nat) → List Segment
  | k0, cur, cone, [] => [closeSeg k0 cur cone]
  | k0, cur, cone, e :: rest =>
    let w := tighten cone (((cur.length : ℚ) - ε) / (e.1 - k0))
      (((cur.length : ℚ) + ε) / (e.1 - k0))
    if w.1 ≤ w.2 then segmentGo ε k0 (cur ++ [e]) (some w) rest
    else closeSeg k0 cur cone :: segmentGo ε e.1 [e] none rest

/-- Modelled from the spec (§4.3.1): `LinearModel::make_segmentation` —
greedy ε-segmentation of a sorted entry stream. -/
def makeSegmentation (ε : ℕ) : List (ℚ × Nat) → List Segment
  | [] => []
  | e :: rest => segmentGo ε e.1 [e] none rest

/-- Modelled from the spec (§4.3.2): `approximate(key) → [lo, hi)` with
`p = round(slope·key + intercept)`, `lo = max(0, p − ε)`,
`hi = min(len, p + ε + 1)`. -/
def approximate (ε : ℕ) (seg : Segment) (k : ℚ) : ℤ × ℤ :=
  let p : ℤ := round (seg.slope * k + seg.intercept)
  (max 0 (p - (ε : ℤ)), min (seg.entries.length : ℤ) (p + ε + 1))

/-- An upper-layer PGM node: its arena address and its content
(`PGMInner::from_model_n_vec(model, entries)`). -/
structure UpperNode where
  addr : Nat
  seg : Segment
deriving DecidableEq, Repr

/-- `lower_bound` of a PGM node: its first entry's key (`entries[0].key`). -/
def UpperNode.lb (u : UpperNode) : ℚ :=
  ((u.seg.entries.head?.map Prod.fst).getD 0)

/-- A lower-layer node as seen by `fill_from_beneath` / `replace`: its
address, its `lower_bound` key, and its parent pointer into the upper
layer. -/
structure LowerNode where
  addr : Nat
  key : ℚ
  parent : Option Nat
deriving DecidableEq, Repr

/-- The parent-independent part of a lower node. -/
def stripParent (n : LowerNode) : Nat × ℚ := (n.addr, n.key)

/-- `MemoryPGMLayer::fill`: wipe and rebuild from the ε-segmentation of the
entry stream, materializing one node per segment at a fresh address
(`append_before_sentinel` on a cleared arena). -/
def fill (ε : ℕ) (entries : List (ℚ × Nat)) (freshBase : Nat) : List UpperNode :=
  (makeSegmentation ε entries).enum.map
    (fun p => { addr := freshBase + p.1, seg := p.2 })

/-- `NodeLayer::set_parent` on a lower node. -/
def setPar (a : Nat) (n : LowerNode) : LowerNode := { n with parent := some a }

/-- Second pass of `fill_from_beneath` (pgm_layer.rs lines 66–76): walk the
lower layer with an upper-layer cursor; keep the cursor when there is no
next upper node or the lower key is below its lower bound, otherwise
advance once; set the lower node's parent to the cursor. -/
def walkFill (cur : UpperNode) (rest : List UpperNode) :
    List LowerNode → List LowerNode
  | [] => []
  | n :: ns =>
    match rest with
    | [] => setPar cur.addr n :: walkFill cur [] ns
    | nxt :: rest' =>
      if n.key < nxt.lb then setPar cur.addr n :: walkFill cur (nxt :: rest') ns
      else setPar nxt.addr n :: walkFill nxt rest' ns

/-- `MemoryPGMLayer::fill_from_beneath`: two passes — rebuild this layer
from the `(lower_bound, address)` stream of the lower layer, then re-parent
every lower node by the cursor walk. -/
def fillFromBeneath (ε : ℕ) (lower : List LowerNode) (freshBase : Nat) :
    List UpperNode × List LowerNode :=
  let upper := fill ε (lower.map (fun n => (n.key, n.addr))) freshBase
  match upper with
  | [] => (upper, lower)
  | u :: us => (upper, walkFill u us lower)

/-- The `is_match` test of the `kite` walk in `MemoryPGMLayer::replace`:
the kite is the new tail, or there is no next kite, or the kid's key is
below the next kite's lower bound. -/
def matchCond (tailAddr : Nat) (cur : UpperNode) (rest : List UpperNode)
    (n : LowerNode) : Bool :=
  cur.addr == tailAddr ||
    (match rest with
     | [] => true
     | nxt :: _ => decide (n.key < nxt.lb))

/-- Advancing the kite one step along its chain (a no-op at the end, which
the walk never reaches). -/
def nextCursor (cur : UpperNode) (rest : List UpperNode) :
    UpperNode × List UpperNode :=
  match rest with
  | [] => (cur, [])
  | nxt :: rest' => (nxt, rest')

/-- The `kite` walk of `MemoryPGMLayer::replace` (pgm_layer.rs lines
115–136): when a kid matches, its parent becomes the current kite;
otherwise the kite advances once and the kid's parent becomes the advanced
kite. -/
def walkReplace (tailAddr : Nat) (cur : UpperNode) (rest : List UpperNode) :
    List LowerNode → List LowerNode
  | [] => []
  | n :: ns =>
    if matchCond tailAddr cur rest n then
      setPar cur.addr n :: walkReplace tailAddr cur rest ns
    else
      setPar (nextCursor cur rest).1.addr n ::
        walkReplace tailAddr (nextCursor cur rest).1 (nextCursor cur rest).2 ns

/-- Take the prefix of a chain up to and including the node at address `a`
(the collection loop of `replace`, which breaks after pushing `data_tail`). -/
def takeThroughAddr {β : Type} (f : β → Nat) : List β → Nat → List β
  | [], _ => []
  | x :: xs, a => if f x = a then [x] else x :: takeThroughAddr f xs a

/-- Drop a chain through the node at address `a`, keeping what follows it
(the survivors after the tail of a replaced range). -/
def dropThroughAddr {β : Type} (f : β → Nat) : List β → Nat → List β
  | [], _ => []
  | x :: xs, a => if f x = a then xs else dropThroughAddr f xs a

/-- `MemoryPGMLayer::replace`: collect the `(lower_bound, address)` entries
of the lower range `[dh, dt]`, ε-segment them into new upper nodes at fresh
addresses, splice those in place of the upper range `[ph, pt]` (the arena's
`replace`), and re-parent the lower range by the kite walk from the new
head. -/
def replace (ε : ℕ) (upper : List UpperNode) (lower : List LowerNode)
    (ph pt dh dt : Nat) (freshBase : Nat) : List UpperNode × List LowerNode :=
  let D := takeThroughAddr LowerNode.addr
    (lower.dropWhile (fun n => n.addr != dh)) dt
  let entries := D.map (fun n => (n.key, n.addr))
  let newNodes := fill ε entries freshBase
  let upperResult := (upper.takeWhile (fun u => u.addr != ph)) ++ newNodes ++
    dropThroughAddr UpperNode.addr upper pt
  match newNodes with
  | [] => (upperResult, lower)
  | nh :: ntail =>
    let tailAddr := (ntail.getLastD nh).addr
    let suffix := dropThroughAddr UpperNode.addr upper pt
    let D' := walkReplace tailAddr nh (ntail ++ suffix) D
    (upperResult,
      (lower.takeWhile (fun n => n.addr != dh)) ++ D' ++
        dropThroughAddr LowerNode.addr lower dt)

/-- Group-wise parent assignment: each group of lower nodes parented to its
upper node, in order. -/
def assignGroups : List (List LowerNode) → List UpperNode → List LowerNode
  | g :: gs, u :: us => g.map (setPar u.addr) ++ assignGroups gs us
  | _, _ => []

/-- A group of lower nodes matches an upper node when it is non-empty and
the upper node's lower bound is the group's first key. -/
def GroupMatch (g : List LowerNode) (u : UpperNode) : Prop :=
  g ≠ [] ∧ g.head?.map LowerNode.key = some u.lb

/-- Strictly increasing keys along a lower-layer chain (§3 invariant 1). -/
def KeysSorted (l : List LowerNode) : Prop :=
  List.Pairwise (fun a b => a.key < b.key) l

/-- The ε-accuracy invariant of a segment (§3 invariant 4): every entry's
model prediction is within ε of its local index. -/
def Good (ε : ℕ) (seg : Segment) : Prop :=
  ∀ (i : ℕ) (h : i < seg.entries.length),
    |seg.slope * (seg.entries.get ⟨i, h⟩).1 + seg.intercept - i| ≤ ε

/-- Soundness of the running cone: any slope inside it predicts every entry
collected so far within ε (relative to the anchor `(k0, 0)`). -/
def ConeSound (ε : ℕ) (k0 : ℚ) (cur : List (ℚ × Nat)) :
    Option (ℚ × ℚ) → Prop
  | none => cur.length = 1 ∧ cur.head?.map Prod.fst = some k0
  | some (lo, hi) => lo ≤ hi ∧ cur.head?.map Prod.fst = some k0 ∧
      ∀ s : ℚ, lo ≤ s → s ≤ hi →
        ∀ (i : ℕ) (h : i < cur.length),
          |s * ((cur.get ⟨i, h⟩).1 - k0) - i| ≤ ε

theorem coneSound_head {ε : ℕ} {k0 : ℚ} {cur : List (ℚ × Nat)}
    {cone : Option (ℚ × ℚ)} (h : ConeSound ε k0 cur cone) :
    cur.head?.map Prod.fst = some k0 := by
  rcases cone with _ | ⟨lo, hi⟩
  · exact h.2
  · exact h.2.1

theorem tighten_fst_le {cone : Option (ℚ × ℚ)} {nlo nhi s : ℚ}
    (hs : (tighten cone nlo nhi).1 ≤ s) : nlo ≤ s := by
  rcases cone with _ | ⟨l, h⟩
  · exact hs
  · exact le_trans (le_max_right l nlo) hs

theorem tighten_le_snd {cone : Option (ℚ × ℚ)} {nlo nhi s : ℚ}
    (hs : s ≤ (tighten cone nlo nhi).2) : s ≤ nhi := by
  rcases cone with _ | ⟨l, h⟩
  · exact hs
  · exact le_trans hs (min_le_right h nhi)

theorem tighten_fst_le_some {l h nlo nhi s : ℚ}
    (hs : (tighten (some (l, h)) nlo nhi).1 ≤ s) : l ≤ s :=
  le_trans (le_max_left l nlo) hs

theorem tighten_le_snd_some {l h nlo nhi s : ℚ}
    (hs : s ≤ (tighten (some (l, h)) nlo nhi).2) : s ≤ h :=
  le_trans hs (min_le_left h nhi)

theorem closeSeg_good {ε : ℕ} {k0 : ℚ} {cur : List (ℚ × Nat)}
    {cone : Option (ℚ × ℚ)} (h : ConeSound ε k0 cur cone) :
    Good ε (closeSeg k0 cur cone) := by
  rcases cone with _ | ⟨lo, hi⟩
  · obtain ⟨hlen, _⟩ := h
    intro i hilt
    simp only [closeSeg] at hilt ⊢
    have : i = 0 := by omega
    subst this
    simp
  · obtain ⟨hlh, _, hsound⟩ := h
    intro i hilt
    simp only [closeSeg] at hilt ⊢
    have h1 : lo ≤ (lo + hi) / 2 := by linarith
    have h2 : (lo + hi) / 2 ≤ hi := by linarith
    have := hsound ((lo + hi) / 2) h1 h2 i hilt
    have heq : (lo + hi) / 2 * (cur.get ⟨i, hilt⟩).1 + -((lo + hi) / 2) * k0 - i =
        (lo + hi) / 2 * ((cur.get ⟨i, hilt⟩).1 - k0) - i := by ring
    rw [heq]
    exact this

theorem segmentGo_good (ε : ℕ) :
    ∀ (rest : List (ℚ × Nat)) (k0 : ℚ) (cur : List (ℚ × Nat))
      (cone : Option (ℚ × ℚ)),
      cur ≠ [] → ConeSound ε k0 cur cone →
      List.Pairwise (fun p q : ℚ × Nat => p.1 < q.1) (cur ++ rest) →
      ∀ seg ∈ segmentGo ε k0 cur cone rest, Good ε seg := by
  intro rest
  induction rest with
  | nil =>
    intro k0 cur cone hne hcone hsorted seg hseg
    rw [segmentGo] at hseg
    rw [List.mem_singleton.mp hseg]
    exact closeSeg_good hcone
  | cons e rest' ih =>
    intro k0 cur cone hne hcone hsorted seg hseg
    have hk0 : cur.head?.map Prod.fst = some k0 := coneSound_head hcone
    rcases hcur : cur with _ | ⟨c, cur'⟩
    · exact absurd hcur hne
    · subst hcur
      have hck0 : c.1 = k0 := by simpa using hk0
      have hd : k0 < e.1 := by
        have := (List.pairwise_cons.mp hsorted).1 e (by simp)
        rw [← hck0]
        exact this
      have hdpos : (0 : ℚ) < e.1 - k0 := by linarith
      rw [segmentGo] at hseg
      by_cases hlh : (tighten cone ((((c :: cur').length : ℚ) - ε) / (e.1 - k0))
          ((((c :: cur').length : ℚ) + ε) / (e.1 - k0))).1 ≤
            (tighten cone ((((c :: cur').length : ℚ) - ε) / (e.1 - k0))
              ((((c :: cur').length : ℚ) + ε) / (e.1 - k0))).2
      · rw [if_pos hlh] at hseg
        refine ih k0 ((c :: cur') ++ [e]) _ (by simp) ?_ ?_ seg hseg
        · refine ⟨hlh, by simpa using hck0, ?_⟩
          intro s hs1 hs2 i hilen
          have hslo : (((c :: cur').length : ℚ) - ε) / (e.1 - k0) ≤ s :=
            tighten_fst_le hs1
          have hshi : s ≤ (((c :: cur').length : ℚ) + ε) / (e.1 - k0) :=
            tighten_le_snd hs2
          by_cases hi' : i < (c :: cur').length
          · have hget : ((c :: cur') ++ [e]).get ⟨i, hilen⟩ =
                (c :: cur').get ⟨i, hi'⟩ := List.get_append i hi'
            rw [hget]
            rcases cone with _ | ⟨l, h⟩
            · obtain ⟨hlen1, _⟩ := hcone
              have hi0 : i = 0 := by omega
              subst hi0
              have hc0 : (c :: cur').get ⟨0, hi'⟩ = c := rfl
              rw [hc0, hck0]
              simp
            · obtain ⟨_, _, hsound⟩ := hcone
              exact hsound s (tighten_fst_le_some hs1) (tighten_le_snd_some hs2) i hi'
          · have hieq : i = (c :: cur').length := by
              have := hilen
              simp only [List.length_append, List.length_singleton] at this
              omega
            have hget : ((c :: cur') ++ [e]).get ⟨i, hilen⟩ = e := by
              subst hieq
              simp
            rw [hget, hieq]
            have hb1 : ((c :: cur').length : ℚ) - ε ≤ s * (e.1 - k0) := by
              rw [div_le_iff₀ hdpos] at hslo
              linarith
            have hb2 : s * (e.1 - k0) ≤ ((c :: cur').length : ℚ) + ε := by
              rw [le_div_iff₀ hdpos] at hshi
              linarith
            rw [abs_le]
            constructor <;> [linarith; linarith]
        · rw [List.append_assoc]
          exact hsorted
      · rw [if_neg hlh] at hseg
        rcases List.mem_cons.mp hseg with h | h
        · rw [h]
          exact closeSeg_good hcone
        · refine ih e.1 [e] none (by simp) ⟨rfl, rfl⟩ ?_ seg h
          have hsub : (e :: rest').Sublist ((c :: cur') ++ e :: rest') :=
            List.sublist_append_right _ _
          exact List.Pairwise.sublist hsub hsorted

/-- Every segment produced by the greedy ε-segmentation of a strictly
sorted entry stream satisfies the ε-accuracy invariant. -/
theorem makeSegmentation_good (ε : ℕ) (l : List (ℚ × Nat))
    (hs : List.Pairwise (fun p q : ℚ × Nat => p.1 < q.1) l) :
    ∀ seg ∈ makeSegmentation ε l, Good ε seg := by
  rcases l with _ | ⟨e, rest⟩
  · intro seg hseg; simp [makeSegmentation] at hseg
  · intro seg hseg
    exact segmentGo_good ε rest e.1 [e] none (by simp) ⟨rfl, rfl⟩ hs seg hseg

/-- The segments of the greedy ε-segmentation partition the input stream:
concatenating their entry lists recovers the input. -/
theorem segmentGo_entries (ε : ℕ) :
    ∀ (rest : List (ℚ × Nat)) (k0 : ℚ) (cur : List (ℚ × Nat))
      (cone : Option (ℚ × ℚ)),
      ((segmentGo ε k0 cur cone rest).map Segment.entries).join = cur ++ rest := by
  intro rest
  induction rest with
  | nil =>
    intro k0 cur cone
    simp [segmentGo, closeSeg]
  | cons e rest' ih =>
    intro k0 cur cone
    rw [segmentGo]
    by_cases hlh : (tighten cone ((((cur.length : ℚ)) - ε) / (e.1 - k0))
        ((((cur.length : ℚ)) + ε) / (e.1 - k0))).1 ≤
          (tighten cone ((((cur.length : ℚ)) - ε) / (e.1 - k0))
            ((((cur.length : ℚ)) + ε) / (e.1 - k0))).2
    · rw [if_pos hlh, ih]
      simp
    · rw [if_neg hlh]
      simp [closeSeg, ih]

theorem makeSegmentation_entries (ε : ℕ) (l : List (ℚ × Nat)) :
    ((makeSegmentation ε l).map Segment.entries).join = l := by
  rcases l with _ | ⟨e, rest⟩
  · rfl
  · exact segmentGo_entries ε rest e.1 [e] none

theorem segmentGo_entries_ne (ε : ℕ) :
    ∀ (rest : List (ℚ × Nat)) (k0 : ℚ) (cur : List (ℚ × Nat))
      (cone : Option (ℚ × ℚ)), cur ≠ [] →
      ∀ seg ∈ segmentGo ε k0 cur cone rest, seg.entries ≠ [] := by
  intro rest
  induction rest with
  | nil =>
    intro k0 cur cone hne seg hseg
    rw [segmentGo] at hseg
    rw [List.mem_singleton.mp hseg]
    exact hne
  | cons e rest' ih =>
    intro k0 cur cone hne seg hseg
    rw [segmentGo] at hseg
    by_cases hlh : (tighten cone ((((cur.length : ℚ)) - ε) / (e.1 - k0))
        ((((cur.length : ℚ)) + ε) / (e.1 - k0))).1 ≤
          (tighten cone ((((cur.length : ℚ)) - ε) / (e.1 - k0))
            ((((cur.length : ℚ)) + ε) / (e.1 - k0))).2
    · rw [if_pos hlh] at hseg
      exact ih k0 (cur ++ [e]) _ (by simp) seg hseg
    · rw [if_neg hlh] at hseg
      rcases List.mem_cons.mp hseg with h | h
      · rw [h]
        exact hne
      · exact ih e.1 [e] none (by simp) seg h

theorem makeSegmentation_entries_ne (ε : ℕ) (l : List (ℚ × Nat)) :
    ∀ seg ∈ makeSegmentation ε l, seg.entries ≠ [] := by
  rcases l with _ | ⟨e, rest⟩
  · intro seg hseg; simp [makeSegmentation] at hseg
  · intro seg hseg
    exact segmentGo_entries_ne ε rest e.1 [e] none (by simp) seg hseg

/-- From ε-accuracy of the model at an entry, the `approximate` window
contains the entry's local index. -/
theorem approximate_window (ε : ℕ) (seg : Segment) (i : ℕ)
    (h : i < seg.entries.length)
    (hacc : |seg.slope * (seg.entries.get ⟨i, h⟩).1 + seg.intercept - i| ≤ ε) :
    (approximate ε seg (seg.entries.get ⟨i, h⟩).1).1 ≤ (i : ℤ) ∧
    (i : ℤ) < (approximate ε seg (seg.entries.get ⟨i, h⟩).1).2 := by
  set k := (seg.entries.get ⟨i, h⟩).1 with hk
  set pred := seg.slope * k + seg.intercept with hpred
  set p : ℤ := round pred with hp
  have h1 : |(p : ℚ) - pred| ≤ 1 / 2 := by
    rw [abs_sub_comm]
    exact abs_sub_round pred
  have h2 : |(p : ℚ) - i| ≤ (ε : ℚ) + 1 / 2 := by
    have h3 := abs_sub_le ((p : ℚ)) pred i
    have h4 : |pred - i| ≤ ε := hacc
    linarith
  have h5 : |p - (i : ℤ)| ≤ (ε : ℤ) := by
    have h6 : ((|p - (i : ℤ)| : ℤ) : ℚ) ≤ (ε : ℚ) + 1 / 2 := by
      push_cast
      rw [abs_sub_comm] at h2
      rw [abs_sub_comm]
      exact h2
    have h7 : ((|p - (i : ℤ)| : ℤ) : ℚ) < ((ε : ℤ) : ℚ) + 1 := by
      push_cast
      push_cast at h6
      linarith
    have h8 : |p - (i : ℤ)| < (ε : ℤ) + 1 := by exact_mod_cast h7
    omega
  obtain ⟨h5a, h5b⟩ := abs_le.mp h5
  constructor
  · show max 0 (p - (ε : ℤ)) ≤ (i : ℤ)
    rw [max_le_iff]
    constructor
    · exact Int.ofNat_nonneg i
    · omega
  · show (i : ℤ) < min (seg.entries.length : ℤ) (p + ε + 1)
    rw [lt_min_iff]
    constructor
    · exact_mod_cast h
    · omega

/-- C4: every PGM node produced by the ε-segmentation that underlies
`fill`, `fill_from_beneath` and `replace` satisfies, for its entry at each
local index i, |slope·key + intercept − i| ≤ ε; equivalently
`approximate(entry.key)` returns a window [lo, hi) with lo ≤ i < hi, where
lo = max(0, p−ε), hi = min(len, p+ε+1) and p = round(slope·key +
intercept). -/
theorem c4_pgm_model_accuracy (ε : ℕ) (l : List (ℚ × Nat))
    (hs : List.Pairwise (fun p q : ℚ × Nat => p.1 < q.1) l) :
    ∀ seg ∈ makeSegmentation ε l, ∀ (i : ℕ) (h : i < seg.entries.length),
      |seg.slope * (seg.entries.get ⟨i, h⟩).1 + seg.intercept - i| ≤ ε ∧
      (approximate ε seg (seg.entries.get ⟨i, h⟩).1).1 ≤ (i : ℤ) ∧
      (i : ℤ) < (approximate ε seg (seg.entries.get ⟨i, h⟩).1).2 := by
  intro seg hseg i h
  have hacc := makeSegmentation_good ε l hs seg hseg i h
  exact ⟨hacc, approximate_window ε seg i h hacc⟩

/-- C4 witness: the segmentation of the one-entry stream (5, 42) with
ε = 1, checked at local index 0 of its single segment. -/
theorem c4_pgm_model_accuracy_witness :
    ∃ seg ∈ makeSegmentation 1 [((5 : ℚ), 42)],
      ∃ h : 0 < seg.entries.length,
        |seg.slope * (seg.entries.get ⟨0, h⟩).1 + seg.intercept - 0| ≤ 1 ∧
        (approximate 1 seg (seg.entries.get ⟨0, h⟩).1).1 ≤ (0 : ℤ) ∧
        (0 : ℤ) < (approximate 1 seg (seg.entries.get ⟨0, h⟩).1).2 := by
  have hs : List.Pairwise (fun p q : ℚ × Nat => p.1 < q.1) [((5 : ℚ), 42)] := by
    simp
  refine ⟨(makeSegmentation 1 [((5 : ℚ), 42)]).head ?hne,
    List.head_mem _, ?hlen, ?_⟩
  case hne => simp [makeSegmentation, segmentGo]
  case hlen => simp [makeSegmentation, segmentGo, closeSeg]
  exact c4_pgm_model_accuracy 1 _ hs _ (List.head_mem _) 0 _

theorem assignGroups_strip :
    ∀ {gs : List (List LowerNode)} {ups : List UpperNode},
      List.Forall₂ GroupMatch gs ups →
      (assignGroups gs ups).map stripParent = gs.join.map stripParent := by
  intro gs ups hm
  induction hm with
  | nil => rfl
  | cons hgu hm' ih =>
    simp only [assignGroups, List.join, List.map_append, ih]
    simp [stripParent, setPar]

theorem groupMatch_head_mem {gs : List (List LowerNode)} {ups : List UpperNode}
    (hm : List.Forall₂ GroupMatch gs ups) {nxt : UpperNode}
    (hh : ups.head? = some nxt) : ∃ m ∈ gs.join, m.key = nxt.lb := by
  rcases hm with _ | ⟨hgu, hm'⟩
  · simp at hh
  · rename_i g u gs' ups'
    have hu : u = nxt := by simpa using hh
    obtain ⟨hgne, hghead⟩ := hgu
    rcases g with _ | ⟨m, g'⟩
    · exact absurd rfl hgne
    · refine ⟨m, by simp, ?_⟩
      rw [← hu]
      simpa using hghead

theorem pairwise_append_key {A B : List LowerNode}
    (hs : KeysSorted (A ++ B)) : ∀ a ∈ A, ∀ b ∈ B, a.key < b.key := by
  have := (List.pairwise_append.mp hs).2.2
  intro a ha b hb
  exact this a ha b hb

theorem walkFill_stay (cur : UpperNode) (rest : List UpperNode) :
    ∀ (ks more : List LowerNode),
      (∀ n ∈ ks, ∀ nxt, rest.head? = some nxt → n.key < nxt.lb) →
      walkFill cur rest (ks ++ more) =
        ks.map (setPar cur.addr) ++ walkFill cur rest more := by
  intro ks
  induction ks with
  | nil => intro more h; rfl
  | cons n ks' ih =>
    intro more h
    rcases rest with _ | ⟨nxt, rest'⟩
    · rw [List.cons_append, walkFill, ih more (fun m hm v hv => h m (by simp [hm]) v hv)]
      rfl
    · rw [List.cons_append, walkFill]
      have hlt : n.key < nxt.lb := h n (by simp) nxt rfl
      rw [if_pos hlt, ih more (fun m hm v hv => h m (by simp [hm]) v hv)]
      rfl

theorem walkFill_groups :
    ∀ {gs : List (List LowerNode)} {ups : List UpperNode},
      List.Forall₂ GroupMatch gs ups →
      ∀ (cur : UpperNode) (g0 : List LowerNode),
        (∀ n ∈ g0, ∀ nxt, ups.head? = some nxt → n.key < nxt.lb) →
        KeysSorted (g0 ++ gs.join) →
        walkFill cur ups (g0 ++ gs.join) =
          g0.map (setPar cur.addr) ++ assignGroups gs ups := by
  intro gs ups hm
  induction hm with
  | nil =>
    intro cur g0 hg0 hs
    rw [show (([] : List (List LowerNode))).join = [] from rfl,
      walkFill_stay cur [] g0 [] hg0]
    rfl
  | cons hgu hm' ih =>
    rename_i g u gs' ups'
    intro cur g0 hg0 hs
    obtain ⟨hgne, hghead⟩ := hgu
    rcases hg : g with _ | ⟨n1, g'⟩
    · exact absurd hg hgne
    · subst hg
      have hjoin : ((n1 :: g') :: gs').join = n1 :: (g' ++ gs'.join) := by
        simp
      rw [hjoin]
      have hstep : walkFill cur (u :: ups') (g0 ++ n1 :: (g' ++ gs'.join)) =
          g0.map (setPar cur.addr) ++
            walkFill cur (u :: ups') (n1 :: (g' ++ gs'.join)) :=
        walkFill_stay cur (u :: ups') g0 _ hg0
      rw [hstep, walkFill]
      have hn1 : n1.key = u.lb := by simpa using hghead
      rw [if_neg (by rw [hn1]; exact lt_irrefl u.lb)]
      have hjoin2 : ((n1 :: g') :: gs').join = (n1 :: g') ++ gs'.join := by simp
      rw [hjoin2] at hs
      have hsfull : KeysSorted ((n1 :: g') ++ gs'.join) :=
        List.Pairwise.sublist (List.sublist_append_right g0 _) hs
      have hstail : KeysSorted (g' ++ gs'.join) :=
        List.Pairwise.sublist
          ((List.sublist_cons_self n1 g').append_right gs'.join) hsfull
      have hg0' : ∀ n ∈ g', ∀ nxt, ups'.head? = some nxt → n.key < nxt.lb := by
        intro n hn nxt hnxt
        obtain ⟨m, hmmem, hmkey⟩ := groupMatch_head_mem hm' hnxt
        rw [← hmkey]
        exact pairwise_append_key hstail n hn m hmmem
      rw [ih u g' hg0' hstail]
      simp [assignGroups, setPar]

theorem assignGroups_parent_spec :
    ∀ {gs : List (List LowerNode)} {ups : List UpperNode},
      List.Forall₂ GroupMatch gs ups →
      KeysSorted gs.join →
      ∀ n ∈ assignGroups gs ups, ∃ A u B, ups = A ++ u :: B ∧
        n.parent = some u.addr ∧ u.lb ≤ n.key ∧
        ∀ v, B.head? = some v → n.key < v.lb := by
  intro gs ups hm
  induction hm with
  | nil => intro hs n hn; simp [assignGroups] at hn
  | cons hgu hm' ih =>
    rename_i g u gs' ups'
    intro hs n hn
    obtain ⟨hgne, hghead⟩ := hgu
    have hjoin : (g :: gs').join = g ++ gs'.join := by simp
    rw [hjoin] at hs
    rw [assignGroups, List.mem_append] at hn
    rcases hn with hn | hn
    · obtain ⟨m, hmmem, hmeq⟩ := List.mem_map.mp hn
      refine ⟨[], u, ups', rfl, ?_, ?_, ?_⟩
      · rw [← hmeq]; rfl
      · rcases hg : g with _ | ⟨n1, g'⟩
        · exact absurd hg hgne
        · subst hg
          have hu : u.lb = n1.key := by
            have := hghead; simp at this; exact this.symm
          rw [hu, ← hmeq]
          show n1.key ≤ m.key
          rcases List.mem_cons.mp hmmem with h | h
          · rw [h]
          · exact le_of_lt ((List.pairwise_cons.mp
              ((List.pairwise_append.mp hs).1)).1 m h)
      · intro v hv
        obtain ⟨m2, hm2mem, hm2key⟩ := groupMatch_head_mem hm' hv
        rw [← hm2key, ← hmeq]
        show m.key < m2.key
        exact pairwise_append_key hs m hmmem m2 hm2mem
    · have hs' : KeysSorted gs'.join :=
        List.Pairwise.sublist (List.sublist_append_right g _) hs
      obtain ⟨A, u', B, hups, hpar, hlb, hnext⟩ := ih hs' n hn
      exact ⟨u :: A, u', B, by rw [hups]; rfl, hpar, hlb, hnext⟩

theorem exists_partition_of_map_join :
    ∀ (parts : List (List (ℚ × Nat))) (l : List LowerNode),
      l.map (fun n => (n.key, n.addr)) = parts.join →
      ∃ gs : List (List LowerNode), gs.join = l ∧
        List.Forall₂ (fun g p => g.map (fun n => (n.key, n.addr)) = p) gs parts := by
  intro parts
  induction parts with
  | nil =>
    intro l h
    have hl : l = [] := by
      have := h
      simp only [List.join] at this
      exact List.map_eq_nil.mp this
    exact ⟨[], by simp [hl], List.Forall₂.nil⟩
  | cons p parts' ih =>
    intro l h
    have h' : l.map (fun n => (n.key, n.addr)) = p ++ parts'.join := by
      simpa using h
    obtain ⟨l1, l2, hl, h1, h2⟩ := List.map_eq_append_iff.mp h'
    obtain ⟨gs', hgs, hf⟩ := ih l2 h2
    exact ⟨l1 :: gs', by simp [hl, hgs], List.Forall₂.cons h1 hf⟩

theorem forall₂_groupMatch_fill_aux :
    ∀ {gsL : List (List LowerNode)} {segs : List Segment},
      List.Forall₂ (fun g seg =>
        g.map (fun n => (n.key, n.addr)) = seg.entries) gsL segs →
      (∀ seg ∈ segs, seg.entries ≠ []) →
      ∀ (n0 freshBase : ℕ),
        List.Forall₂ GroupMatch gsL
          ((segs.enumFrom n0).map
            (fun p => ({ addr := freshBase + p.1, seg := p.2 } : UpperNode))) := by
  intro gsL segs hm
  induction hm with
  | nil =>
    intro _ n0 fb
    exact List.Forall₂.nil
  | cons hgs hm' ih =>
    rename_i g seg gsL' segs'
    intro hne n0 fb
    show List.Forall₂ GroupMatch (g :: gsL') _
    rw [show (seg :: segs').enumFrom n0 = (n0, seg) :: segs'.enumFrom (n0 + 1)
      from rfl, List.map_cons]
    refine List.Forall₂.cons ?_
      (ih (fun s hs => hne s (List.mem_cons_of_mem seg hs)) (n0 + 1) fb)
    have hsegne : seg.entries ≠ [] := hne seg (List.mem_cons_self seg segs')
    rcases hg : g with _ | ⟨m, g'⟩
    · exfalso
      rw [hg] at hgs
      exact hsegne hgs.symm
    · refine ⟨by simp, ?_⟩
      rw [hg] at hgs
      show Option.map LowerNode.key (m :: g').head? =
        some (UpperNode.lb { addr := fb + n0, seg := seg })
      rw [show UpperNode.lb { addr := fb + n0, seg := seg } =
        ((seg.entries.head?.map Prod.fst).getD 0) from rfl, ← hgs]
      simp

/-- C5: after `fill_from_beneath`, every node of the lower layer has a
non-null parent among the freshly built upper nodes, the parent's lower
bound is ≤ the node's lower bound, and the parent's next sibling (when one
exists) has a strictly greater lower bound; lower-layer addresses and keys
are untouched. -/
theorem c5_fill_from_beneath_parents (ε freshBase : ℕ) (lower : List LowerNode)
    (hs : KeysSorted lower) (hne : lower ≠ []) :
    ∃ upper lower', fillFromBeneath ε lower freshBase = (upper, lower') ∧
      lower'.map stripParent = lower.map stripParent ∧
      ∀ n ∈ lower', ∃ A u B, upper = A ++ u :: B ∧
        n.parent = some u.addr ∧ u.lb ≤ n.key ∧
        ∀ v, B.head? = some v → n.key < v.lb := by
  have hlf : lower.map (fun n => (n.key, n.addr)) =
      ((makeSegmentation ε (lower.map (fun n => (n.key, n.addr)))).map
        Segment.entries).join :=
    (makeSegmentation_entries ε _).symm
  obtain ⟨gsL, hgsjoin, hforall⟩ := exists_partition_of_map_join _ lower hlf
  have hfm : List.Forall₂ (fun g seg =>
      g.map (fun n => (n.key, n.addr)) = seg.entries) gsL
        (makeSegmentation ε (lower.map (fun n => (n.key, n.addr)))) :=
    List.forall₂_map_right_iff.mp hforall
  have hGM : List.Forall₂ GroupMatch gsL
      (fill ε (lower.map (fun n => (n.key, n.addr))) freshBase) :=
    forall₂_groupMatch_fill_aux hfm (makeSegmentation_entries_ne ε _) 0 freshBase
  rcases hfill : fill ε (lower.map (fun n => (n.key, n.addr))) freshBase
    with _ | ⟨u1, urest⟩
  · rw [hfill] at hGM
    rcases hGM with _ | _
    exact absurd (by rw [← hgsjoin]; rfl) hne
  · rw [hfill] at hGM
    rcases hGM with _ | ⟨hGM1, hGMrest⟩
    rename_i g1 gs''
    have hlower : lower = g1 ++ gs''.join := by
      rw [← hgsjoin]; simp
    have hsorted' : KeysSorted (g1 ++ gs''.join) := hlower ▸ hs
    have hg0 : ∀ n ∈ g1, ∀ nxt, urest.head? = some nxt → n.key < nxt.lb := by
      intro n hn nxt hnxt
      obtain ⟨m, hmm, hmk⟩ := groupMatch_head_mem hGMrest hnxt
      rw [← hmk]
      exact pairwise_append_key hsorted' n hn m hmm
    have hwalk : walkFill u1 urest lower =
        assignGroups (g1 :: gs'') (u1 :: urest) := by
      rw [hlower, walkFill_groups hGMrest u1 g1 hg0 hsorted']
      rfl
    have hffb : fillFromBeneath ε lower freshBase =
        (u1 :: urest, walkFill u1 urest lower) := by
      unfold fillFromBeneath
      rw [hfill]
    refine ⟨u1 :: urest, walkFill u1 urest lower, hffb, ?_, ?_⟩
    · rw [hwalk, assignGroups_strip (List.Forall₂.cons hGM1 hGMrest), hgsjoin]
    · intro n hn
      rw [hwalk] at hn
      refine assignGroups_parent_spec (List.Forall₂.cons hGM1 hGMrest) ?_ n hn
      rw [hgsjoin]
      exact hs

/-- C5 witness: `fill_from_beneath` over the two-node lower layer with keys
3 and 7 at fresh base address 10. -/
theorem c5_fill_from_beneath_parents_witness :
    ∃ upper lower',
      fillFromBeneath 4
        [⟨0, (3 : ℚ), none⟩, ⟨1, (7 : ℚ), none⟩] 10 = (upper, lower') ∧
      lower'.map stripParent =
        ([⟨0, (3 : ℚ), none⟩, ⟨1, (7 : ℚ), none⟩] :
          List LowerNode).map stripParent ∧
      ∀ n ∈ lower', ∃ A u B, upper = A ++ u :: B ∧
        n.parent = some u.addr ∧ u.lb ≤ n.key ∧
        ∀ v, B.head? = some v → n.key < v.lb := by
  refine c5_fill_from_beneath_parents 4 10
    [⟨0, (3 : ℚ), none⟩, ⟨1, (7 : ℚ), none⟩] ?_ ?_
  · refine List.pairwise_cons.mpr ⟨?_, ?_⟩
    · intro b hb
      rw [List.mem_singleton.mp hb]
      norm_num
    · simp
  · simp

theorem walkReplace_strip (tailAddr : Nat) :
    ∀ (ks : List LowerNode) (cur : UpperNode) (rest : List UpperNode),
      (walkReplace tailAddr cur rest ks).map stripParent = ks.map stripParent := by
  intro ks
  induction ks with
  | nil => intro cur rest; rfl
  | cons n ks' ih =>
    intro cur rest
    rw [walkReplace]
    by_cases hc : matchCond tailAddr cur rest n = true
    · rw [if_pos hc]
      simp only [List.map_cons, ih]
      rfl
    · rw [if_neg hc]
      simp only [List.map_cons, ih]
      rfl

theorem walkReplace_stay (tailAddr : Nat) (cur : UpperNode)
    (rest : List UpperNode) :
    ∀ (ks more : List LowerNode),
      (∀ n ∈ ks, cur.addr = tailAddr ∨
        ∀ nxt, rest.head? = some nxt → n.key < nxt.lb) →
      walkReplace tailAddr cur rest (ks ++ more) =
        ks.map (setPar cur.addr) ++ walkReplace tailAddr cur rest more := by
  intro ks
  induction ks with
  | nil => intro more h; rfl
  | cons n ks' ih =>
    intro more h
    have hc : matchCond tailAddr cur rest n = true := by
      rcases h n (by simp) with hc | hc
      · simp [matchCond, hc]
      · rcases rest with _ | ⟨nxt, rest'⟩
        · simp [matchCond]
        · simp [matchCond, hc nxt rfl]
    rw [List.cons_append, walkReplace, if_pos hc,
      ih more (fun m hm => h m (by simp [hm]))]
    rfl

theorem walkReplace_groups :
    ∀ {gs : List (List LowerNode)} {ups : List UpperNode},
      List.Forall₂ GroupMatch gs ups →
      ∀ (cur : UpperNode) (g0 : List LowerNode) (suffix : List UpperNode)
        (tailAddr : Nat),
        (ups.getLastD cur).addr = tailAddr →
        ((cur :: ups).map UpperNode.addr).Nodup →
        (∀ n ∈ g0, ∀ nxt, ups.head? = some nxt → n.key < nxt.lb) →
        KeysSorted (g0 ++ gs.join) →
        walkReplace tailAddr cur (ups ++ suffix) (g0 ++ gs.join) =
          g0.map (setPar cur.addr) ++ assignGroups gs ups := by
  intro gs ups hm
  induction hm with
  | nil =>
    intro cur g0 suffix tailAddr htail hnodup hg0 hs
    have hcur : cur.addr = tailAddr := htail
    calc walkReplace tailAddr cur ([] ++ suffix)
          (g0 ++ ([] : List (List LowerNode)).join)
        = walkReplace tailAddr cur suffix (g0 ++ []) := by
          rw [List.nil_append]
          rfl
      _ = g0.map (setPar cur.addr) ++ walkReplace tailAddr cur suffix [] :=
          walkReplace_stay tailAddr cur suffix g0 [] (fun n _ => Or.inl hcur)
      _ = g0.map (setPar cur.addr) ++ assignGroups [] [] := rfl
  | cons hgu hm' ih =>
    rename_i g u gs' ups'
    intro cur g0 suffix tailAddr htail hnodup hg0 hs
    obtain ⟨hgne, hghead⟩ := hgu
    rcases hg : g with _ | ⟨n1, g'⟩
    · exact absurd hg hgne
    · subst hg
      have htail' : (ups'.getLastD u).addr = tailAddr := by
        rw [← htail, List.getLastD_cons]
      have htmem : ups'.getLastD u ∈ u :: ups' := List.getLastD_mem_cons ups' u
      have hcurne : ¬ cur.addr = tailAddr := by
        intro he
        have : cur.addr ∈ (u :: ups').map UpperNode.addr :=
          List.mem_map.mpr ⟨ups'.getLastD u, htmem, by rw [htail']; exact he.symm⟩
        exact (List.nodup_cons.mp hnodup).1 this
      have hjoin2 : ((n1 :: g') :: gs').join = (n1 :: g') ++ gs'.join := by simp
      rw [hjoin2] at hs
      have hsfull : KeysSorted ((n1 :: g') ++ gs'.join) :=
        List.Pairwise.sublist (List.sublist_append_right g0 _) hs
      have hstail : KeysSorted (g' ++ gs'.join) :=
        List.Pairwise.sublist
          ((List.sublist_cons_self n1 g').append_right gs'.join) hsfull
      have hn1 : n1.key = u.lb := by simpa using hghead
      have hstep :
          walkReplace tailAddr cur ((u :: ups') ++ suffix)
              (g0 ++ ((n1 :: g') ++ gs'.join)) =
            g0.map (setPar cur.addr) ++
              walkReplace tailAddr cur ((u :: ups') ++ suffix)
                ((n1 :: g') ++ gs'.join) := by
      -- the head of (u :: ups') ++ suffix is u, so g0's keys stay below it
        refine walkReplace_stay tailAddr cur ((u :: ups') ++ suffix) g0 _ ?_
        intro n hn
        refine Or.inr ?_
        intro nxt hnxt
        have hun : nxt = u := by
          rw [List.cons_append] at hnxt
          exact (by simpa using hnxt : u = nxt).symm
        rw [hun]
        exact hg0 n hn u rfl
      rw [hjoin2, hstep]
      have hcond : matchCond tailAddr cur ((u :: ups') ++ suffix) n1 = false := by
        rw [show ((u :: ups') ++ suffix : List UpperNode) =
          u :: (ups' ++ suffix) from rfl]
        simp [matchCond, hcurne, hn1]
      rw [show ((n1 :: g') ++ gs'.join : List LowerNode) =
        n1 :: (g' ++ gs'.join) from rfl]
      rw [walkReplace, if_neg (by rw [hcond]; simp)]
      rw [show ((u :: ups') ++ suffix : List UpperNode) =
        u :: (ups' ++ suffix) from rfl,
        show nextCursor cur (u :: (ups' ++ suffix)) = (u, ups' ++ suffix)
          from rfl]
      have hg0' : ∀ n ∈ g', ∀ nxt, ups'.head? = some nxt → n.key < nxt.lb := by
        intro n hn nxt hnxt
        obtain ⟨m, hmm, hmk⟩ := groupMatch_head_mem hm' hnxt
        rw [← hmk]
        exact pairwise_append_key hstail n hn m hmm
      have hnodup' : ((u :: ups').map UpperNode.addr).Nodup :=
        (List.nodup_cons.mp hnodup).2
      rw [ih u g' suffix tailAddr htail' hnodup' hg0' hstail]
      simp [assignGroups, setPar]

theorem takeWhile_bne_eq {β : Type} (f : β → Nat) (a : ℕ) :
    ∀ (P D : List β), (∀ x ∈ P, f x ≠ a) → D.head?.map f = some a →
      ((P ++ D).takeWhile (fun x => f x != a)) = P := by
  intro P
  induction P with
  | nil =>
    intro D hP hD
    rcases D with _ | ⟨d, D'⟩
    · simp at hD
    · have : f d = a := by simpa using hD
      simp [List.takeWhile, this]
  | cons p P' ih =>
    intro D hP hD
    have hp : f p ≠ a := hP p (by simp)
    rw [List.cons_append, List.takeWhile_cons]
    simp only [bne_iff_ne, ne_eq, hp, not_false_eq_true, decide_True, if_true]
    rw [ih D (fun x hx => hP x (by simp [hx])) hD]

theorem dropWhile_bne_eq {β : Type} (f : β → Nat) (a : ℕ) :
    ∀ (P D : List β), (∀ x ∈ P, f x ≠ a) → D.head?.map f = some a →
      ((P ++ D).dropWhile (fun x => f x != a)) = D := by
  intro P
  induction P with
  | nil =>
    intro D hP hD
    rcases D with _ | ⟨d, D'⟩
    · simp at hD
    · have : f d = a := by simpa using hD
      simp [List.dropWhile, this]
  | cons p P' ih =>
    intro D hP hD
    have hp : f p ≠ a := hP p (by simp)
    rw [List.cons_append, List.dropWhile_cons]
    simp only [bne_iff_ne, ne_eq, hp, not_false_eq_true, decide_True, if_true]
    exact ih D (fun x hx => hP x (by simp [hx])) hD

theorem takeThrough_eq {β : Type} (f : β → Nat) (dt : ℕ) :
    ∀ (D S : List β), D.getLast?.map f = some dt →
      (∀ x ∈ D.dropLast, f x ≠ dt) →
      takeThroughAddr f (D ++ S) dt = D := by
  intro D
  induction D with
  | nil => intro S hlast _; simp at hlast
  | cons d D' ih =>
    intro S hlast hmid
    rcases hD' : D' with _ | ⟨e, D''⟩
    · subst hD'
      have : f d = dt := by simpa using hlast
      simp [takeThroughAddr, this]
    · subst hD'
      have hd : f d ≠ dt := hmid d (by simp)
      rw [List.cons_append, takeThroughAddr, if_neg hd]
      rw [List.getLast?_cons_cons] at hlast
      rw [show (e :: D'' ++ S : List β) = (e :: D'') ++ S from rfl,
        ih S hlast (fun x hx => hmid x (by simp [hx]))]

theorem dropThrough_eq {β : Type} (f : β → Nat) (dt : ℕ) :
    ∀ (A S : List β), A.getLast?.map f = some dt →
      (∀ x ∈ A.dropLast, f x ≠ dt) →
      dropThroughAddr f (A ++ S) dt = S := by
  intro A
  induction A with
  | nil => intro S hlast _; simp at hlast
  | cons d A' ih =>
    intro S hlast hmid
    rcases hA' : A' with _ | ⟨e, A''⟩
    · subst hA'
      have : f d = dt := by simpa using hlast
      simp [dropThroughAddr, this]
    · subst hA'
      have hd : f d ≠ dt := hmid d (by simp)
      rw [List.cons_append, dropThroughAddr, if_neg hd]
      rw [List.getLast?_cons_cons] at hlast
      rw [show (e :: A'' ++ S : List β) = (e :: A'') ++ S from rfl,
        ih S hlast (fun x hx => hmid x (by simp [hx]))]

theorem enumFrom_fst_ge {β : Type} :
    ∀ (l : List β) (n0 : ℕ), ∀ p ∈ l.enumFrom n0, n0 ≤ p.1 := by
  intro l
  induction l with
  | nil => intro n0 p hp; simp [List.enumFrom] at hp
  | cons x xs ih =>
    intro n0 p hp
    rw [show (x :: xs).enumFrom n0 = (n0, x) :: xs.enumFrom (n0 + 1) from rfl]
      at hp
    rcases List.mem_cons.mp hp with h | h
    · rw [h]
    · exact le_trans (Nat.le_succ n0) (ih (n0 + 1) p h)

theorem fill_addr_nodup (ε freshBase : ℕ) (entries : List (ℚ × Nat)) :
    ((fill ε entries freshBase).map UpperNode.addr).Nodup := by
  show ((((makeSegmentation ε entries).enumFrom 0).map
    (fun p => ({ addr := freshBase + p.1, seg := p.2 } : UpperNode))).map
      UpperNode.addr).Nodup
  rw [List.map_map]
  have : ∀ (segs : List Segment) (n0 : ℕ),
      List.Pairwise (· < ·)
        ((segs.enumFrom n0).map (UpperNode.addr ∘
          (fun p => ({ addr := freshBase + p.1, seg := p.2 } : UpperNode)))) := by
    intro segs
    induction segs with
    | nil => intro n0; simp [List.enumFrom]
    | cons s ss ih =>
      intro n0
      rw [show (s :: ss).enumFrom n0 = (n0, s) :: ss.enumFrom (n0 + 1) from rfl,
        List.map_cons]
      refine List.pairwise_cons.mpr ⟨?_, ih (n0 + 1)⟩
      intro b hb
      obtain ⟨p, hp, hpb⟩ := List.mem_map.mp hb
      rw [← hpb]
      show freshBase + n0 < freshBase + p.1
      have := enumFrom_fst_ge ss (n0 + 1) p hp
      omega
  exact List.Pairwise.imp ne_of_lt (this _ 0)

theorem head?_map_append {β : Type} {f : β → Nat} {a : ℕ} (D S : List β)
    (h : D.head?.map f = some a) : (D ++ S).head?.map f = some a := by
  rcases D with _ | ⟨d, D'⟩
  · simp at h
  · simpa using h

theorem fill_ne_nil (ε freshBase : ℕ) {entries : List (ℚ × Nat)}
    (hne : entries ≠ []) : fill ε entries freshBase ≠ [] := by
  intro h
  have hsegs : makeSegmentation ε entries = [] := by
    have := congrArg List.length h
    rw [show (fill ε entries freshBase).length =
      (makeSegmentation ε entries).length by
        show ((makeSegmentation ε entries).enum.map _).length = _
        rw [List.length_map, List.enum_length]] at this
    exact List.length_eq_zero.mp this
  have := makeSegmentation_entries ε entries
  rw [hsegs] at this
  exact hne (by simpa using this.symm)

/-- Unfolding of `MemoryPGMLayer::replace` under the range-decomposition
preconditions: the upper layer splits as `U1 ++ M ++ U2` with the poisoned
range `M` delimited by `ph`/`pt`, the lower layer as `P ++ D ++ S` with the
data range `D` delimited by `dh`/`dt`. -/
theorem replace_eq (ε freshBase : ℕ)
    (U1 M U2 : List UpperNode) (P D S : List LowerNode)
    (ph pt dh dt : ℕ) {nh : UpperNode} {ntail : List UpperNode}
    (hMne : M ≠ []) (hDne : D ≠ [])
    (hph : M.head?.map UpperNode.addr = some ph)
    (hpt : M.getLast?.map UpperNode.addr = some pt)
    (hU1ph : ∀ x ∈ U1, x.addr ≠ ph)
    (hU1pt : ∀ x ∈ U1, x.addr ≠ pt)
    (hMpt : ∀ x ∈ M.dropLast, x.addr ≠ pt)
    (hdh : D.head?.map LowerNode.addr = some dh)
    (hdt : D.getLast?.map LowerNode.addr = some dt)
    (hPdh : ∀ x ∈ P, x.addr ≠ dh)
    (hPdt : ∀ x ∈ P, x.addr ≠ dt)
    (hDdt : ∀ x ∈ D.dropLast, x.addr ≠ dt)
    (hnew : fill ε (D.map (fun n => (n.key, n.addr))) freshBase = nh :: ntail) :
    replace ε (U1 ++ M ++ U2) (P ++ D ++ S) ph pt dh dt freshBase =
      (U1 ++ (nh :: ntail) ++ U2,
       P ++ walkReplace (ntail.getLastD nh).addr nh (ntail ++ U2) D ++ S) := by
  have hdrop : ((P ++ D ++ S).dropWhile (fun n => n.addr != dh)) = D ++ S := by
    rw [List.append_assoc]
    exact dropWhile_bne_eq LowerNode.addr dh P (D ++ S)
      hPdh (head?_map_append D S hdh)
  have htake : takeThroughAddr LowerNode.addr (D ++ S) dt = D :=
    takeThrough_eq LowerNode.addr dt D S hdt hDdt
  have htakeU : ((U1 ++ M ++ U2).takeWhile (fun u => u.addr != ph)) = U1 := by
    rw [List.append_assoc]
    exact takeWhile_bne_eq UpperNode.addr ph U1 (M ++ U2)
      hU1ph (head?_map_append M U2 hph)
  have hlastPM : (U1 ++ M).getLast?.map UpperNode.addr = some pt := by
    rw [List.getLast?_append_of_ne_nil _ hMne]
    exact hpt
  have hmidPM : ∀ x ∈ (U1 ++ M).dropLast, x.addr ≠ pt := by
    intro x hx
    rw [List.dropLast_append_of_ne_nil _ hMne] at hx
    rcases List.mem_append.mp hx with h | h
    · exact hU1pt x h
    · exact hMpt x h
  have hdropU : dropThroughAddr UpperNode.addr (U1 ++ M ++ U2) pt = U2 :=
    dropThrough_eq UpperNode.addr pt (U1 ++ M) U2 hlastPM hmidPM
  have htakeL : ((P ++ D ++ S).takeWhile (fun n => n.addr != dh)) = P := by
    rw [List.append_assoc]
    exact takeWhile_bne_eq LowerNode.addr dh P (D ++ S)
      hPdh (head?_map_append D S hdh)
  have hlastPD : (P ++ D).getLast?.map LowerNode.addr = some dt := by
    rw [List.getLast?_append_of_ne_nil _ hDne]
    exact hdt
  have hmidPD : ∀ x ∈ (P ++ D).dropLast, x.addr ≠ dt := by
    intro x hx
    rw [List.dropLast_append_of_ne_nil _ hDne] at hx
    rcases List.mem_append.mp hx with h | h
    · exact hPdt x h
    · exact hDdt x h
  have hdropL : dropThroughAddr LowerNode.addr (P ++ D ++ S) dt = S :=
    dropThrough_eq LowerNode.addr dt (P ++ D) S hlastPD hmidPD
  unfold replace
  rw [hdrop, htake]
  simp only [hnew, htakeU, hdropU, htakeL, hdropL]

/-- C3: `replace(ph, pt, dh, dt)` is a frame-respecting splice.  With the
upper layer decomposed as `U1 ++ M ++ U2` (the poisoned range `M` running
from address `ph` to `pt`) and the lower layer as `P ++ D ++ S` (the data
range `D` running from address `dh` to `dt`), the result keeps the
surviving upper nodes `U1` and `U2` — addresses included — verbatim around
the freshly built nodes, keeps the lower nodes outside the data range (`P`
and `S`) verbatim, parent pointers included, and inside the data range
changes only parent pointers: addresses and keys survive `stripParent`
unchanged. -/
theorem c3_replace_frame (ε freshBase : ℕ)
    (U1 M U2 : List UpperNode) (P D S : List LowerNode) (ph pt dh dt : ℕ)
    (hMne : M ≠ []) (hDne : D ≠ [])
    (hph : M.head?.map UpperNode.addr = some ph)
    (hpt : M.getLast?.map UpperNode.addr = some pt)
    (hU1ph : ∀ x ∈ U1, x.addr ≠ ph)
    (hU1pt : ∀ x ∈ U1, x.addr ≠ pt)
    (hMpt : ∀ x ∈ M.dropLast, x.addr ≠ pt)
    (hdh : D.head?.map LowerNode.addr = some dh)
    (hdt : D.getLast?.map LowerNode.addr = some dt)
    (hPdh : ∀ x ∈ P, x.addr ≠ dh)
    (hPdt : ∀ x ∈ P, x.addr ≠ dt)
    (hDdt : ∀ x ∈ D.dropLast, x.addr ≠ dt) :
    ∃ D', replace ε (U1 ++ M ++ U2) (P ++ D ++ S) ph pt dh dt freshBase =
        (U1 ++ fill ε (D.map (fun n => (n.key, n.addr))) freshBase ++ U2,
         P ++ D' ++ S) ∧
      D'.map stripParent = D.map stripParent := by
  have hDm : D.map (fun n => (n.key, n.addr)) ≠ [] := by
    intro h
    exact hDne (List.map_eq_nil.mp h)
  rcases hnew : fill ε (D.map (fun n => (n.key, n.addr))) freshBase
    with _ | ⟨nh, ntail⟩
  · exact absurd hnew (fill_ne_nil ε freshBase hDm)
  · refine ⟨walkReplace (ntail.getLastD nh).addr nh (ntail ++ U2) D, ?_,
      walkReplace_strip _ D nh _⟩
    rw [replace_eq ε freshBase U1 M U2 P D S ph pt dh dt hMne hDne hph hpt
      hU1ph hU1pt hMpt hdh hdt hPdh hPdt hDdt hnew, hnew]

/-- C3 witness: a concrete `replace` on a three-node upper layer (poisoned
range = the middle node, address 100) over a four-node lower layer (data
range = addresses 5 and 6). -/
theorem c3_replace_frame_witness :
    ∃ D', replace 4
        ([⟨90, ⟨0, 0, []⟩⟩] ++ [⟨100, ⟨0, 0, []⟩⟩] ++ [⟨101, ⟨0, 0, []⟩⟩])
        ([⟨1, (1 : ℚ), some 90⟩] ++
          [⟨5, (3 : ℚ), some 100⟩, ⟨6, (7 : ℚ), some 100⟩] ++
          [⟨9, (9 : ℚ), some 101⟩]) 100 100 5 6 200 =
      (([⟨90, ⟨0, 0, []⟩⟩] : List UpperNode) ++
        fill 4 (([⟨5, (3 : ℚ), some 100⟩, ⟨6, (7 : ℚ), some 100⟩] :
          List LowerNode).map (fun n => (n.key, n.addr))) 200 ++
        [⟨101, ⟨0, 0, []⟩⟩],
       ([⟨1, (1 : ℚ), some 90⟩] : List LowerNode) ++ D' ++
        [⟨9, (9 : ℚ), some 101⟩]) ∧
      D'.map stripParent =
        ([⟨5, (3 : ℚ), some 100⟩, ⟨6, (7 : ℚ), some 100⟩] :
          List LowerNode).map stripParent := by
  refine c3_replace_frame 4 200
    [⟨90, ⟨0, 0, []⟩⟩] [⟨100, ⟨0, 0, []⟩⟩] [⟨101, ⟨0, 0, []⟩⟩]
    [⟨1, (1 : ℚ), some 90⟩]
    [⟨5, (3 : ℚ), some 100⟩, ⟨6, (7 : ℚ), some 100⟩]
    [⟨9, (9 : ℚ), some 101⟩] 100 100 5 6
    ?_ ?_ rfl rfl ?_ ?_ ?_ rfl ?_ ?_ ?_ ?_
  · simp
  · simp
  · intro x hx
    rw [List.mem_singleton.mp hx]
    decide
  · intro x hx
    rw [List.mem_singleton.mp hx]
    decide
  · intro x hx
    simp at hx
  · rfl
  · intro x hx
    rw [List.mem_singleton.mp hx]
    decide
  · intro x hx
    rw [List.mem_singleton.mp hx]
    decide
  · intro x hx
    simp at hx
    rw [hx]
    decide

/-- C2: after `replace(ph, pt, dh, dt)`, every lower node in the replaced
data range `D` is re-parented by the kite walk onto one of the freshly
spliced upper nodes: its parent is the address of some new node `u` with
`u.lb ≤ key`, and the next sibling after `u` — the next new node, or the
head of the surviving suffix `U2` when `u` is the new tail — has a strictly
greater lower bound.  Addresses and keys of the range survive unchanged. -/
theorem c2_replace_reparent (ε freshBase : ℕ)
    (U1 M U2 : List UpperNode) (P D S : List LowerNode) (ph pt dh dt : ℕ)
    (hMne : M ≠ []) (hDne : D ≠ [])
    (hph : M.head?.map UpperNode.addr = some ph)
    (hpt : M.getLast?.map UpperNode.addr = some pt)
    (hU1ph : ∀ x ∈ U1, x.addr ≠ ph)
    (hU1pt : ∀ x ∈ U1, x.addr ≠ pt)
    (hMpt : ∀ x ∈ M.dropLast, x.addr ≠ pt)
    (hdh : D.head?.map LowerNode.addr = some dh)
    (hdt : D.getLast?.map LowerNode.addr = some dt)
    (hPdh : ∀ x ∈ P, x.addr ≠ dh)
    (hPdt : ∀ x ∈ P, x.addr ≠ dt)
    (hDdt : ∀ x ∈ D.dropLast, x.addr ≠ dt)
    (hsD : KeysSorted D)
    (hU2 : ∀ n ∈ D, ∀ v, U2.head? = some v → n.key < v.lb) :
    ∃ newNodes D',
      fill ε (D.map (fun n => (n.key, n.addr))) freshBase = newNodes ∧
      replace ε (U1 ++ M ++ U2) (P ++ D ++ S) ph pt dh dt freshBase =
        (U1 ++ newNodes ++ U2, P ++ D' ++ S) ∧
      D'.map stripParent = D.map stripParent ∧
      ∀ n ∈ D', ∃ A u B, newNodes = A ++ u :: B ∧
        n.parent = some u.addr ∧ u.lb ≤ n.key ∧
        ∀ v, (B ++ U2).head? = some v → n.key < v.lb := by
  have hlf : D.map (fun n => (n.key, n.addr)) =
      ((makeSegmentation ε (D.map (fun n => (n.key, n.addr)))).map
        Segment.entries).join :=
    (makeSegmentation_entries ε _).symm
  obtain ⟨gsL, hgsjoin, hforall⟩ := exists_partition_of_map_join _ D hlf
  have hfm : List.Forall₂ (fun g seg =>
      g.map (fun n => (n.key, n.addr)) = seg.entries) gsL
        (makeSegmentation ε (D.map (fun n => (n.key, n.addr)))) :=
    List.forall₂_map_right_iff.mp hforall
  have hGM : List.Forall₂ GroupMatch gsL
      (fill ε (D.map (fun n => (n.key, n.addr))) freshBase) :=
    forall₂_groupMatch_fill_aux hfm (makeSegmentation_entries_ne ε _) 0 freshBase
  have hDm : D.map (fun n => (n.key, n.addr)) ≠ [] := by
    intro h
    exact hDne (List.map_eq_nil.mp h)
  rcases hfill : fill ε (D.map (fun n => (n.key, n.addr))) freshBase
    with _ | ⟨nh, ntail⟩
  · exact absurd hfill (fill_ne_nil ε freshBase hDm)
  · rw [hfill] at hGM
    rcases hGM with _ | ⟨hGM1, hGMrest⟩
    rename_i g1 gs''
    have hD : D = g1 ++ gs''.join := by
      rw [← hgsjoin]
      simp
    have hsorted' : KeysSorted (g1 ++ gs''.join) := hD ▸ hsD
    have hg0 : ∀ n ∈ g1, ∀ nxt, ntail.head? = some nxt → n.key < nxt.lb := by
      intro n hn nxt hnxt
      obtain ⟨m, hmm, hmk⟩ := groupMatch_head_mem hGMrest hnxt
      rw [← hmk]
      exact pairwise_append_key hsorted' n hn m hmm
    have hnodup : ((nh :: ntail).map UpperNode.addr).Nodup := by
      have := fill_addr_nodup ε freshBase (D.map (fun n => (n.key, n.addr)))
      rw [hfill] at this
      exact this
    have hwalk : walkReplace (ntail.getLastD nh).addr nh (ntail ++ U2) D =
        assignGroups (g1 :: gs'') (nh :: ntail) := by
      conv_lhs => rw [hD]
      rw [walkReplace_groups hGMrest nh g1 U2 (ntail.getLastD nh).addr rfl
        hnodup hg0 hsorted']
      simp [assignGroups]
    refine ⟨nh :: ntail,
      walkReplace (ntail.getLastD nh).addr nh (ntail ++ U2) D, hfill,
      replace_eq ε freshBase U1 M U2 P D S ph pt dh dt hMne hDne hph hpt
        hU1ph hU1pt hMpt hdh hdt hPdh hPdt hDdt hfill, ?_, ?_⟩
    · exact walkReplace_strip _ D nh _
    · intro n hn0
      have hn : n ∈ assignGroups (g1 :: gs'') (nh :: ntail) := by
        rw [← hwalk]
        exact hn0
      obtain ⟨A, u, B, hAB, hpar, hlb, hnext⟩ :=
        assignGroups_parent_spec (List.Forall₂.cons hGM1 hGMrest)
          (by rw [hgsjoin]; exact hsD) n hn
      refine ⟨A, u, B, hAB, hpar, hlb, ?_⟩
      intro v hv
      rcases B with _ | ⟨b, B'⟩
      · have hv2 : U2.head? = some v := by simpa using hv
        have hmemD : stripParent n ∈ D.map stripParent := by
          rw [← walkReplace_strip (ntail.getLastD nh).addr D nh (ntail ++ U2)]
          exact List.mem_map_of_mem stripParent hn0
        obtain ⟨m, hm, hms⟩ := List.mem_map.mp hmemD
        have hkeys : m.key = n.key := congrArg Prod.snd hms
        rw [← hkeys]
        exact hU2 m hm v hv2
      · have hvb : b = v := by simpa using hv
        rw [← hvb]
        exact hnext b rfl

/-- C2 witness: the same concrete splice as the C3 witness, with the
surviving suffix node carrying lower bound 9 so the key-range side
conditions hold. -/
theorem c2_replace_reparent_witness :
    ∃ newNodes D',
      fill 4 (([⟨5, (3 : ℚ), some 100⟩, ⟨6, (7 : ℚ), some 100⟩] :
        List LowerNode).map (fun n => (n.key, n.addr))) 200 = newNodes ∧
      replace 4
        ([⟨90, ⟨0, 0, []⟩⟩] ++ [⟨100, ⟨0, 0, []⟩⟩] ++
          [⟨101, ⟨0, 0, [((9 : ℚ), 9)]⟩⟩])
        ([⟨1, (1 : ℚ), some 90⟩] ++
          [⟨5, (3 : ℚ), some 100⟩, ⟨6, (7 : ℚ), some 100⟩] ++
          [⟨9, (9 : ℚ), some 101⟩]) 100 100 5 6 200 =
        (([⟨90, ⟨0, 0, []⟩⟩] : List UpperNode) ++ newNodes ++
          [⟨101, ⟨0, 0, [((9 : ℚ), 9)]⟩⟩],
         ([⟨1, (1 : ℚ), some 90⟩] : List LowerNode) ++ D' ++
          [⟨9, (9 : ℚ), some 101⟩]) ∧
      D'.map stripParent =
        ([⟨5, (3 : ℚ), some 100⟩, ⟨6, (7 : ℚ), some 100⟩] :
          List LowerNode).map stripParent ∧
      ∀ n ∈ D', ∃ A u B, newNodes = A ++ u :: B ∧
        n.parent = some u.addr ∧ u.lb ≤ n.key ∧
        ∀ v, (B ++ ([⟨101, ⟨0, 0, [((9 : ℚ), 9)]⟩⟩] :
            List UpperNode)).head? = some v →
          n.key < v.lb := by
  refine c2_replace_reparent 4 200
    [⟨90, ⟨0, 0, []⟩⟩] [⟨100, ⟨0, 0, []⟩⟩] [⟨101, ⟨0, 0, [((9 : ℚ), 9)]⟩⟩]
    [⟨1, (1 : ℚ), some 90⟩]
    [⟨5, (3 : ℚ), some 100⟩, ⟨6, (7 : ℚ), some 100⟩]
    [⟨9, (9 : ℚ), some 101⟩] 100 100 5 6
    ?_ ?_ rfl rfl ?_ ?_ ?_ rfl ?_ ?_ ?_ ?_ ?_ ?_
  · simp
  · simp
  · intro x hx
    rw [List.mem_singleton.mp hx]
    decide
  · intro x hx
    rw [List.mem_singleton.mp hx]
    decide
  · intro x hx
    simp at hx
  · rfl
  · intro x hx
    rw [List.mem_singleton.mp hx]
    decide
  · intro x hx
    rw [List.mem_singleton.mp hx]
    decide
  · intro x hx
    simp at hx
    rw [hx]
    decide
  · refine List.pairwise_cons.mpr ⟨?_, ?_⟩
    · intro b hb
      rw [List.mem_singleton.mp hb]
      norm_num
    · simp
  · intro n hn v hv
    have hveq : (⟨101, ⟨0, 0, [((9 : ℚ), 9)]⟩⟩ : UpperNode) = v := by
      simpa using hv
    rw [← hveq]
    rcases List.mem_cons.mp hn with h | h
    · rw [h]
      norm_num [UpperNode.lb]
    · rw [List.mem_singleton.mp h]
      norm_num [UpperNode.lb]

end PGM

namespace BTreeIdx

/-- Modelled from the spec: the B-tree-based index built from
`BTreeTopComponent` over a `MemoryBTreeLayer` base (layer.rs is not in the
sources).  The top is the ordered map from split keys to node addresses
(spec §4.4); `nodes` is the arena of base nodes, each a sorted array of
`(key, value)` entries (spec §4.2); `fresh` is the next stable address. -/
structure IndexState where
  top : List (Nat × Nat)
  nodes : Nat → List (Nat × Nat)
  fresh : Nat

/-- Top-component routing: greatest lower bound, defaulting to the first
entry — exactly `BTreeTopComponent::search` on the given map. -/
def topSearch (top : List (Nat × Nat)) (key : Nat) : Option Nat :=
  BTreeTopComponent.search ⟨top⟩ key

/-- Modelled from the spec: `empty()` seeds the base layer with a single
empty node, and the top maps the minimal key (0 for `Nat`) to it. -/
def emptyIndex : IndexState where
  top := [(0, 0)]
  nodes := fun _ => []
  fresh := 1

/-- Modelled from the spec (§4.2, §4.5): descend through the top to the
base node, insert sorted; if the node's entry count exceeds the fanout `F`,
split into ⌈F/2⌉ and ⌊F/2⌋+1 entries, give the right sibling a fresh
address, and propagate `Single(split_key, new_addr)` into the top, where
`split_key` is the new node's lower bound. -/
def idxInsert (F : Nat) (s : IndexState) (k v : Nat) : IndexState :=
  let addr := (topSearch s.top k).getD 0
  let e := mapInsert (s.nodes addr) k v
  if e.length ≤ F then
    { s with nodes := Function.update s.nodes addr e }
  else
    let left := e.take ((F + 1) / 2)
    let right := e.drop ((F + 1) / 2)
    let splitKey := ((right.head?.map Prod.fst).getD 0)
    { top := mapInsert s.top splitKey s.fresh
      nodes := Function.update (Function.update s.nodes addr left) s.fresh right
      fresh := s.fresh + 1 }

/-- Modelled from the spec (§4.5): `Index::search` descends through the top
and finishes with `search_exact` on the base node. -/
def idxSearch (s : IndexState) (k : Nat) : Option Nat :=
  mapFind (s.nodes ((topSearch s.top k).getD 0)) k

/-- The index grown from the empty index by a sequence of inserts. -/
def buildIndex (F : Nat) (ops : List (Nat × Nat)) : IndexState :=
  ops.foldl (fun s p => idxInsert F s p.1 p.2) emptyIndex

/-- The specification-level answer: the most recent value inserted for the
key, `none` if the key was never inserted. -/
def specLookup (ops : List (Nat × Nat)) (k : Nat) : Option Nat :=
  ((ops.filter (fun p => p.1 == k)).getLast?).map Prod.snd

/-- Flattening of the index into one association list, in top order. -/
def abstr (s : IndexState) : List (Nat × Nat) :=
  (s.top.map (fun p => s.nodes p.2)).join

/-- Layout invariant tying the top map to the node contents: each node is
sorted, its keys are ≥ its routing key, and < the next routing key. -/
def NodesOk (nodes : Nat → List (Nat × Nat)) : List (Nat × Nat) → Prop
  | [] => True
  | q :: rest =>
      MapSorted (nodes q.2) ∧
      (∀ p ∈ nodes q.2, q.1 ≤ p.1) ∧
      (∀ p ∈ nodes q.2, ∀ r, rest.head? = some r → p.1 < r.1) ∧
      NodesOk nodes rest

/-- Full index invariant: the top starts at the minimal key, is sorted,
addresses are distinct and below the fresh counter, and node contents
respect the routing keys. -/
def Inv (s : IndexState) : Prop :=
  s.top.head?.map Prod.fst = some 0 ∧
  MapSorted s.top ∧
  (∀ p ∈ s.top, p.2 < s.fresh) ∧
  (s.top.map Prod.snd).Nodup ∧
  NodesOk s.nodes s.top

theorem mapInsert_append_gt (k v : Nat) :
    ∀ (X Y : List (Nat × Nat)), (∀ p ∈ X, p.1 < k) →
      mapInsert (X ++ Y) k v = X ++ mapInsert Y k v := by
  intro X
  induction X with
  | nil => intro Y _; rfl
  | cons q t ih =>
    intro Y hX
    have hq : q.1 < k := hX q (by simp)
    obtain ⟨a, w⟩ := q
    rw [List.cons_append, mapInsert, if_neg (by omega), if_neg (by omega),
      ih Y (fun p hp => hX p (by simp [hp])), List.cons_append]

theorem mapInsert_append_lt (k v : Nat) :
    ∀ (X Y : List (Nat × Nat)), (∀ p ∈ Y, k < p.1) →
      mapInsert (X ++ Y) k v = mapInsert X k v ++ Y := by
  intro X
  induction X with
  | nil =>
    intro Y hY
    rcases Y with _ | ⟨⟨a, w⟩, t⟩
    · rfl
    · have : k < a := hY (a, w) (by simp)
      rw [show mapInsert ([] : List (Nat × Nat)) k v = [(k, v)] from rfl,
        List.nil_append, mapInsert, if_pos this]
      rfl
  | cons q t ih =>
    intro Y hY
    obtain ⟨a, w⟩ := q
    by_cases h1 : k < a
    · rw [List.cons_append, mapInsert, if_pos h1, mapInsert, if_pos h1]
      rfl
    · by_cases h2 : k = a
      · rw [List.cons_append, mapInsert, if_neg h1, if_pos h2,
          mapInsert, if_neg h1, if_pos h2]
        rfl
      · rw [List.cons_append, mapInsert, if_neg h1, if_neg h2,
          mapInsert, if_neg h1, if_neg h2, ih Y hY, List.cons_append]

theorem mapInsert_mem (k v : Nat) :
    ∀ (X : List (Nat × Nat)) (p : Nat × Nat), p ∈ mapInsert X k v →
      p = (k, v) ∨ p ∈ X := by
  intro X
  induction X with
  | nil =>
    intro p hp
    rw [mapInsert] at hp
    exact Or.inl (List.mem_singleton.mp hp)
  | cons q t ih =>
    intro p hp
    obtain ⟨a, w⟩ := q
    by_cases h1 : k < a
    · rw [mapInsert, if_pos h1] at hp
      rcases List.mem_cons.mp hp with h | h
      · exact Or.inl h
      · exact Or.inr h
    · by_cases h2 : k = a
      · rw [mapInsert, if_neg h1, if_pos h2] at hp
        rcases List.mem_cons.mp hp with h | h
        · exact Or.inl h
        · exact Or.inr (by simp [h])
      · rw [mapInsert, if_neg h1, if_neg h2] at hp
        rcases List.mem_cons.mp hp with h | h
        · exact Or.inr (by simp [h])
        · rcases ih p h with h' | h'
          · exact Or.inl h'
          · exact Or.inr (by simp [h'])

theorem mapInsert_sorted (k v : Nat) :
    ∀ {X : List (Nat × Nat)}, MapSorted X → MapSorted (mapInsert X k v) := by
  intro X
  induction X with
  | nil => intro _; simp [mapInsert, MapSorted]
  | cons q t ih =>
    intro hs
    obtain ⟨a, w⟩ := q
    obtain ⟨hhead, htail⟩ := List.pairwise_cons.mp hs
    by_cases h1 : k < a
    · rw [mapInsert, if_pos h1]
      refine List.pairwise_cons.mpr ⟨?_, hs⟩
      intro p hp
      rcases List.mem_cons.mp hp with h | h
      · rw [h]; exact h1
      · exact lt_trans h1 (hhead p h)
    · by_cases h2 : k = a
      · rw [mapInsert, if_neg h1, if_pos h2]
        refine List.pairwise_cons.mpr ⟨?_, htail⟩
        intro p hp
        rw [h2]
        exact hhead p hp
      · rw [mapInsert, if_neg h1, if_neg h2]
        refine List.pairwise_cons.mpr ⟨?_, ih htail⟩
        intro p hp
        rcases mapInsert_mem k v t p hp with h | h
        · rw [h]; show a < k; omega
        · exact hhead p h

theorem mapFind_eq_none (k : Nat) :
    ∀ (X : List (Nat × Nat)), (∀ p ∈ X, p.1 ≠ k) → mapFind X k = none := by
  intro X
  induction X with
  | nil => intro _; rfl
  | cons q t ih =>
    intro hX
    obtain ⟨a, w⟩ := q
    have : a ≠ k := hX (a, w) (by simp)
    rw [mapFind, if_neg this, ih (fun p hp => hX p (by simp [hp]))]

theorem mapFind_append_left_none (k : Nat) :
    ∀ (X Y : List (Nat × Nat)), (∀ p ∈ X, p.1 ≠ k) →
      mapFind (X ++ Y) k = mapFind Y k := by
  intro X
  induction X with
  | nil => intro Y _; rfl
  | cons q t ih =>
    intro Y hX
    obtain ⟨a, w⟩ := q
    have : a ≠ k := hX (a, w) (by simp)
    rw [List.cons_append, mapFind, if_neg this,
      ih Y (fun p hp => hX p (by simp [hp]))]

theorem mapFind_append_right_none (k : Nat) :
    ∀ (X Y : List (Nat × Nat)), (∀ p ∈ Y, p.1 ≠ k) →
      mapFind (X ++ Y) k = mapFind X k := by
  intro X
  induction X with
  | nil => intro Y hY; rw [List.nil_append, mapFind_eq_none k Y hY]; rfl
  | cons q t ih =>
    intro Y hY
    obtain ⟨a, w⟩ := q
    by_cases h : a = k
    · rw [List.cons_append, mapFind, if_pos h, mapFind, if_pos h]
    · rw [List.cons_append, mapFind, if_neg h, mapFind, if_neg h, ih Y hY]

theorem getLast?_cons_ne {α : Type} (x : α) {X : List α} (h : X ≠ []) :
    (x :: X).getLast? = X.getLast? := by
  rcases X with _ | ⟨y, t⟩
  · exact absurd rfl h
  · rw [List.getLast?_cons_cons]

theorem glb_decomp (k : Nat) :
    ∀ (top : List (Nat × Nat)), MapSorted top →
      ∀ p0 ∈ top, p0.1 ≤ k →
      ∃ T1 kc ac T2, top = T1 ++ (kc, ac) :: T2 ∧
        (top.filter (fun p => p.1 ≤ k)).getLast? = some (kc, ac) ∧
        kc ≤ k ∧ ∀ p ∈ T2, k < p.1 := by
  intro top
  induction top with
  | nil => intro _ p0 hp0; simp at hp0
  | cons q t ih =>
    intro hs p0 hp0 hp0k
    obtain ⟨hhead, htail⟩ := List.pairwise_cons.mp hs
    by_cases hft : t.filter (fun p => p.1 ≤ k) = []
    · have htgt : ∀ p ∈ t, k < p.1 := by
        intro p hp
        have := List.filter_eq_nil_iff.mp hft p hp
        simpa using this
      have hqk : q.1 ≤ k := by
        rcases List.mem_cons.mp hp0 with h | h
        · rw [← h]; exact hp0k
        · exact absurd hp0k (not_le.mpr (htgt p0 h))
      refine ⟨[], q.1, q.2, t, by simp, ?_, hqk, htgt⟩
      rw [List.filter_cons_of_pos (by simpa using hqk), hft]
      rfl
    · obtain ⟨q0, hq0t, hq0k⟩ : ∃ q0 ∈ t, q0.1 ≤ k := by
        rcases hne : t.filter (fun p => p.1 ≤ k) with _ | ⟨x, xs⟩
        · exact absurd hne hft
        · have hx : x ∈ t.filter (fun p => p.1 ≤ k) := by
            rw [hne]
            simp
          have := List.mem_filter.mp hx
          exact ⟨x, this.1, by simpa using this.2⟩
      obtain ⟨T1, kc, ac, T2, hteq, hlast, hkc, hT2⟩ := ih htail q0 hq0t hq0k
      have hqk : q.1 ≤ k := le_trans (le_of_lt (hhead q0 hq0t)) hq0k
      refine ⟨q :: T1, kc, ac, T2, by rw [hteq]; rfl, ?_, hkc, hT2⟩
      rw [List.filter_cons_of_pos (by simpa using hqk),
        getLast?_cons_ne _ hft, hlast]

theorem topSearch_decomp (top : List (Nat × Nat)) (k : Nat)
    (hs : MapSorted top) (h0 : top.head?.map Prod.fst = some 0) :
    ∃ T1 kc ac T2, top = T1 ++ (kc, ac) :: T2 ∧
      topSearch top k = some ac ∧ kc ≤ k ∧ ∀ p ∈ T2, k < p.1 := by
  rcases top with _ | ⟨q, t⟩
  · simp at h0
  · have hq1 : q.1 = 0 := by simpa using h0
    obtain ⟨T1, kc, ac, T2, hteq, hlast, hkc, hT2⟩ :=
      glb_decomp k (q :: t) hs q (by simp) (by rw [hq1]; exact Nat.zero_le k)
    refine ⟨T1, kc, ac, T2, hteq, ?_, hkc, hT2⟩
    show some ((((q :: t).filter (fun p => p.1 ≤ k)).getLast?.getD q).2) =
      some ac
    rw [hlast]
    rfl

theorem nodesOk_congr :
    ∀ {top : List (Nat × Nat)} {nodes nodes' : Nat → List (Nat × Nat)},
      (∀ q ∈ top, nodes' q.2 = nodes q.2) → NodesOk nodes top →
      NodesOk nodes' top := by
  intro top
  induction top with
  | nil => intro _ _ _ _; trivial
  | cons q t ih =>
    intro nodes nodes' heq hok
    obtain ⟨h1, h2, h3, h4⟩ := hok
    refine ⟨?_, ?_, ?_, ih (fun r hr => heq r (by simp [hr])) h4⟩
    · rw [heq q (by simp)]; exact h1
    · rw [heq q (by simp)]; exact h2
    · rw [heq q (by simp)]; exact h3

theorem nodesOk_lo :
    ∀ {top : List (Nat × Nat)} {nodes : Nat → List (Nat × Nat)},
      NodesOk nodes top → ∀ q ∈ top, ∀ p ∈ nodes q.2, q.1 ≤ p.1 := by
  intro top
  induction top with
  | nil => intro _ _ q hq; simp at hq
  | cons r t ih =>
    intro nodes hok q hq p hp
    obtain ⟨_, h2, _, h4⟩ := hok
    rcases List.mem_cons.mp hq with h | h
    · subst h
      exact h2 p hp
    · exact ih h4 q h p hp

theorem nodesOk_middle :
    ∀ (T1 : List (Nat × Nat)) {kc ac : Nat} {T2 : List (Nat × Nat)}
      {nodes : Nat → List (Nat × Nat)},
      NodesOk nodes (T1 ++ (kc, ac) :: T2) →
      MapSorted (nodes ac) ∧ (∀ p ∈ nodes ac, kc ≤ p.1) ∧
        ∀ p ∈ nodes ac, ∀ r, T2.head? = some r → p.1 < r.1 := by
  intro T1
  induction T1 with
  | nil =>
    intro kc ac T2 nodes hok
    obtain ⟨h1, h2, h3, _⟩ := hok
    exact ⟨h1, h2, h3⟩
  | cons q t ih =>
    intro kc ac T2 nodes hok
    obtain ⟨_, _, _, h4⟩ := hok
    exact ih h4

theorem nodesOk_upper_bound :
    ∀ (T1 : List (Nat × Nat)) {kc ac : Nat} {T2 : List (Nat × Nat)}
      {nodes : Nat → List (Nat × Nat)},
      MapSorted (T1 ++ (kc, ac) :: T2) →
      NodesOk nodes (T1 ++ (kc, ac) :: T2) →
      ∀ q ∈ T1, ∀ p ∈ nodes q.2, p.1 < kc := by
  intro T1
  induction T1 with
  | nil => intro _ _ _ _ _ _ q hq; simp at hq
  | cons q0 t ih =>
    intro kc ac T2 nodes hs hok q hq p hp
    obtain ⟨_, _, h3, h4⟩ := hok
    obtain ⟨hhead, htail⟩ := List.pairwise_cons.mp hs
    rcases List.mem_cons.mp hq with h | h
    · subst h
      rcases ht : t with _ | ⟨r, t'⟩
      · have := h3 p hp (kc, ac) (by rw [ht]; rfl)
        exact this
      · have hr : p.1 < r.1 := h3 p hp r (by rw [ht]; rfl)
        have hcross := (List.pairwise_append.mp htail).2.2
        have : r.1 < kc := hcross r (by rw [ht]; simp) (kc, ac) (by simp)
        omega
    · exact ih htail h4 q h p hp

theorem sorted_head_le {l : List (Nat × Nat)} (hs : MapSorted l)
    {q : Nat × Nat} (hq : l.head? = some q) : ∀ p ∈ l, q.1 ≤ p.1 := by
  rcases l with _ | ⟨x, t⟩
  · simp at hq
  · have hx : x = q := by simpa using hq
    subst hx
    intro p hp
    rcases List.mem_cons.mp hp with h | h
    · rw [h]
    · exact le_of_lt ((List.pairwise_cons.mp hs).1 p h)

theorem sorted_take_drop_lt {l : List (Nat × Nat)} (hs : MapSorted l)
    (m : Nat) : ∀ p ∈ l.take m, ∀ r ∈ l.drop m, p.1 < r.1 := by
  have h2 := hs
  rw [← List.take_append_drop m l] at h2
  exact (List.pairwise_append.mp h2).2.2

theorem head_mem_take {l : List (Nat × Nat)} {x : Nat × Nat}
    (h : l.head? = some x) {m : Nat} (hm : 1 ≤ m) : x ∈ l.take m := by
  rcases l with _ | ⟨y, t⟩
  · simp at h
  · rcases m with _ | m'
    · omega
    · have hy : y = x := by simpa using h
      rw [List.take_succ_cons, ← hy]
      simp

theorem mapSorted_insert_middle {A B : List (Nat × Nat)} {b c : Nat × Nat}
    (hs : MapSorted (A ++ b :: B)) (hbc : b.1 < c.1)
    (hcB : ∀ p ∈ B, c.1 < p.1) : MapSorted (A ++ b :: c :: B) := by
  obtain ⟨hA, hmid, hcross⟩ := List.pairwise_append.mp hs
  refine List.pairwise_append.mpr ⟨hA, ?_, ?_⟩
  · obtain ⟨hbB, hB⟩ := List.pairwise_cons.mp hmid
    refine List.pairwise_cons.mpr ⟨?_, List.pairwise_cons.mpr ⟨hcB, hB⟩⟩
    intro p hp
    rcases List.mem_cons.mp hp with h | h
    · rw [h]; exact hbc
    · exact hbB p h
  · intro x hx y hy
    rcases List.mem_cons.mp hy with h | h
    · rw [h]; exact hcross x hx b (by simp)
    · rcases List.mem_cons.mp h with h' | h'
      · rw [h']; exact lt_trans (hcross x hx b (by simp)) hbc
      · exact hcross x hx y (by simp [h'])

theorem nodup_insert_middle {A B : List Nat} {a f : Nat}
    (h : (A ++ a :: B).Nodup) (hf : ∀ x ∈ A ++ a :: B, x ≠ f) :
    (A ++ a :: f :: B).Nodup := by
  rw [List.nodup_append] at h ⊢
  obtain ⟨hA, hmid, hdisj⟩ := h
  obtain ⟨haB, hB⟩ := List.nodup_cons.mp hmid
  refine ⟨hA, ?_, ?_⟩
  · refine List.nodup_cons.mpr ⟨?_, List.nodup_cons.mpr ⟨?_, hB⟩⟩
    · intro hmem
      rcases List.mem_cons.mp hmem with h' | h'
      · exact hf a (by simp) h'
      · exact haB h'
    · intro hmem
      exact hf f (by simp [hmem]) rfl
  · intro x hx hmem
    rcases List.mem_cons.mp hmem with h' | h'
    · exact hdisj hx (by simp [h'])
    · rcases List.mem_cons.mp h' with h'' | h''
      · exact hf x (by simp [hx]) h''
      · exact hdisj hx (by simp [h''])

theorem head?_append_cons {α : Type} (A : List α) (b : α) (X Y : List α) :
    (A ++ b :: X).head? = (A ++ b :: Y).head? := by
  cases A <;> rfl

theorem nodesOk_update_here :
    ∀ (T1 : List (Nat × Nat)) {kc ac : Nat} {T2 : List (Nat × Nat)}
      {nodes : Nat → List (Nat × Nat)} {E' : List (Nat × Nat)},
      NodesOk nodes (T1 ++ (kc, ac) :: T2) →
      (∀ q ∈ T1, q.2 ≠ ac) → (∀ q ∈ T2, q.2 ≠ ac) →
      MapSorted E' → (∀ p ∈ E', kc ≤ p.1) →
      (∀ p ∈ E', ∀ r, T2.head? = some r → p.1 < r.1) →
      NodesOk (Function.update nodes ac E') (T1 ++ (kc, ac) :: T2) := by
  intro T1
  induction T1 with
  | nil =>
    intro kc ac T2 nodes E' hok h1 h2 hs hlo hhi
    obtain ⟨_, _, _, h4⟩ := hok
    have hval : Function.update nodes ac E' ac = E' := Function.update_same ac E' nodes
    refine ⟨?_, ?_, ?_,
      nodesOk_congr (fun q hq => Function.update_noteq (h2 q hq) E' nodes) h4⟩
    · show MapSorted (Function.update nodes ac E' ac)
      rw [hval]; exact hs
    · show ∀ p ∈ Function.update nodes ac E' ac, kc ≤ p.1
      rw [hval]; exact hlo
    · show ∀ p ∈ Function.update nodes ac E' ac, ∀ r, T2.head? = some r → p.1 < r.1
      rw [hval]; exact hhi
  | cons q0 t ih =>
    intro kc ac T2 nodes E' hok h1 h2 hs hlo hhi
    obtain ⟨g1, g2, g3, g4⟩ := hok
    have hq0 : q0.2 ≠ ac := h1 q0 (by simp)
    have hval : Function.update nodes ac E' q0.2 = nodes q0.2 :=
      Function.update_noteq hq0 E' nodes
    refine ⟨?_, ?_, ?_, ih g4 (fun q hq => h1 q (by simp [hq])) h2 hs hlo hhi⟩
    · rw [hval]; exact g1
    · rw [hval]; exact g2
    · rw [hval]; exact g3

theorem nodesOk_split_update :
    ∀ (T1 : List (Nat × Nat)) {kc ac sk f : Nat} {T2 : List (Nat × Nat)}
      {nodes : Nat → List (Nat × Nat)} {L R : List (Nat × Nat)},
      NodesOk nodes (T1 ++ (kc, ac) :: T2) →
      (∀ q ∈ T1, q.2 ≠ ac) → (∀ q ∈ T2, q.2 ≠ ac) →
      (∀ q ∈ T1, q.2 ≠ f) → (∀ q ∈ T2, q.2 ≠ f) → ac ≠ f →
      MapSorted L → (∀ p ∈ L, kc ≤ p.1) → (∀ p ∈ L, p.1 < sk) →
      MapSorted R → (∀ p ∈ R, sk ≤ p.1) →
      (∀ p ∈ R, ∀ r, T2.head? = some r → p.1 < r.1) →
      NodesOk (Function.update (Function.update nodes ac L) f R)
        (T1 ++ (kc, ac) :: (sk, f) :: T2) := by
  intro T1
  induction T1 with
  | nil =>
    intro kc ac sk f T2 nodes L R hok hT1ac hT2ac hT1f hT2f hacf hLs hLlo
      hLhi hRs hRlo hRhi
    obtain ⟨_, _, _, h4⟩ := hok
    have hval_ac : Function.update (Function.update nodes ac L) f R ac = L := by
      rw [Function.update_noteq hacf, Function.update_same]
    have hval_f : Function.update (Function.update nodes ac L) f R f = R := by
      rw [Function.update_same]
    refine ⟨?_, ?_, ?_, ?_, ?_, ?_, ?_⟩
    · show MapSorted (Function.update (Function.update nodes ac L) f R ac)
      rw [hval_ac]; exact hLs
    · show ∀ p ∈ Function.update (Function.update nodes ac L) f R ac, kc ≤ p.1
      rw [hval_ac]; exact hLlo
    · show ∀ p ∈ Function.update (Function.update nodes ac L) f R ac,
        ∀ r, ((sk, f) :: T2).head? = some r → p.1 < r.1
      rw [hval_ac]
      intro p hp r hr
      have : r = (sk, f) := by simpa using hr.symm
      rw [this]
      exact hLhi p hp
    · show MapSorted (Function.update (Function.update nodes ac L) f R f)
      rw [hval_f]; exact hRs
    · show ∀ p ∈ Function.update (Function.update nodes ac L) f R f, sk ≤ p.1
      rw [hval_f]; exact hRlo
    · show ∀ p ∈ Function.update (Function.update nodes ac L) f R f,
        ∀ r, T2.head? = some r → p.1 < r.1
      rw [hval_f]; exact hRhi
    · refine nodesOk_congr (fun q hq => ?_) h4
      rw [Function.update_noteq (hT2f q hq), Function.update_noteq (hT2ac q hq)]
  | cons q0 t ih =>
    intro kc ac sk f T2 nodes L R hok hT1ac hT2ac hT1f hT2f hacf hLs hLlo
      hLhi hRs hRlo hRhi
    obtain ⟨g1, g2, g3, g4⟩ := hok
    have hq0ac : q0.2 ≠ ac := hT1ac q0 (by simp)
    have hq0f : q0.2 ≠ f := hT1f q0 (by simp)
    have hval : Function.update (Function.update nodes ac L) f R q0.2 =
        nodes q0.2 := by
      rw [Function.update_noteq hq0f, Function.update_noteq hq0ac]
    refine ⟨?_, ?_, ?_,
      ih g4 (fun q hq => hT1ac q (by simp [hq])) hT2ac
        (fun q hq => hT1f q (by simp [hq])) hT2f hacf hLs hLlo hLhi hRs
        hRlo hRhi⟩
    · rw [hval]; exact g1
    · rw [hval]; exact g2
    · rw [hval]
      intro p hp r hr
      refine g3 p hp r ?_
      rw [← hr]
      exact head?_append_cons t (kc, ac) T2 ((sk, f) :: T2)

theorem idxInsert_no_split (F : Nat) (s : IndexState) (k v : Nat) {ac : Nat}
    (hts : topSearch s.top k = some ac)
    (hlen : (mapInsert (s.nodes ac) k v).length ≤ F) :
    idxInsert F s k v =
      { s with nodes :=
          Function.update s.nodes ac (mapInsert (s.nodes ac) k v) } := by
  unfold idxInsert
  rw [hts]
  simp only [Option.getD_some]
  rw [if_pos hlen]

theorem idxInsert_split (F : Nat) (s : IndexState) (k v : Nat) {ac : Nat}
    (hts : topSearch s.top k = some ac)
    (hlen : ¬ (mapInsert (s.nodes ac) k v).length ≤ F) :
    idxInsert F s k v =
      { top := mapInsert s.top
          ((((mapInsert (s.nodes ac) k v).drop ((F + 1) / 2)).head?.map
            Prod.fst).getD 0) s.fresh,
        nodes := Function.update
          (Function.update s.nodes ac
            ((mapInsert (s.nodes ac) k v).take ((F + 1) / 2))) s.fresh
          ((mapInsert (s.nodes ac) k v).drop ((F + 1) / 2)),
        fresh := s.fresh + 1 } := by
  unfold idxInsert
  rw [hts]
  simp only [Option.getD_some]
  rw [if_neg hlen]

theorem abstr_decomp (s : IndexState) {T1 T2 : List (Nat × Nat)}
    {kc ac : Nat} (h : s.top = T1 ++ (kc, ac) :: T2) :
    abstr s = (T1.map (fun q => s.nodes q.2)).join ++ s.nodes ac ++
      (T2.map (fun q => s.nodes q.2)).join := by
  rw [abstr, h]
  simp [List.append_assoc]

/-- `Index::search` agrees with lookup in the flattened index. -/
theorem idxSearch_abstr {s : IndexState} (h : Inv s) (k : Nat) :
    idxSearch s k = mapFind (abstr s) k := by
  obtain ⟨h0, hsort, hlt, hnd, hok⟩ := h
  obtain ⟨T1, kc, ac, T2, htop, hts, hkck, hT2⟩ :=
    topSearch_decomp s.top k hsort h0
  have hub := nodesOk_upper_bound T1 (htop ▸ hsort) (htop ▸ hok)
  have hloT2 : ∀ q ∈ T2, ∀ p ∈ s.nodes q.2, q.1 ≤ p.1 := fun q hq =>
    nodesOk_lo hok q (by rw [htop]; simp [hq])
  have hJ1 : ∀ p ∈ (T1.map (fun q => s.nodes q.2)).join, p.1 ≠ k := by
    intro p hp
    obtain ⟨l, hl, hpl⟩ := List.mem_join.mp hp
    obtain ⟨q, hq, hql⟩ := List.mem_map.mp hl
    have : p.1 < kc := hub q hq p (by rw [hql]; exact hpl)
    omega
  have hJ2 : ∀ p ∈ (T2.map (fun q => s.nodes q.2)).join, p.1 ≠ k := by
    intro p hp
    obtain ⟨l, hl, hpl⟩ := List.mem_join.mp hp
    obtain ⟨q, hq, hql⟩ := List.mem_map.mp hl
    have h1 : q.1 ≤ p.1 := hloT2 q hq p (by rw [hql]; exact hpl)
    have h2 : k < q.1 := hT2 q hq
    omega
  rw [idxSearch, hts, Option.getD_some, abstr_decomp s htop,
    mapFind_append_right_none k _ _ hJ2, mapFind_append_left_none k _ _ hJ1]

/-- One `Index::insert` step preserves the layout invariant and acts on the
flattened index as a plain sorted insert-or-overwrite. -/
theorem idxInsert_abstr (F : Nat) (hF : 1 ≤ F) {s : IndexState} (h : Inv s)
    (k v : Nat) :
    Inv (idxInsert F s k v) ∧
      abstr (idxInsert F s k v) = mapInsert (abstr s) k v := by
  obtain ⟨h0, hsort, hlt, hnd, hok⟩ := h
  obtain ⟨T1, kc, ac, T2, htop, hts, hkck, hT2⟩ :=
    topSearch_decomp s.top k hsort h0
  obtain ⟨hEs, hElo, hEhi⟩ := nodesOk_middle T1 (htop ▸ hok)
  have hub := nodesOk_upper_bound T1 (htop ▸ hsort) (htop ▸ hok)
  have hloT2 : ∀ q ∈ T2, ∀ p ∈ s.nodes q.2, q.1 ≤ p.1 := fun q hq =>
    nodesOk_lo hok q (by rw [htop]; simp [hq])
  have hndT : (T1.map Prod.snd ++ ac :: T2.map Prod.snd).Nodup := by
    have h' := hnd
    rw [htop] at h'
    simpa using h'
  have hacT1 : ∀ q ∈ T1, q.2 ≠ ac := by
    intro q hq he
    have hmem : ac ∈ T1.map Prod.snd := by
      rw [← he]
      exact List.mem_map_of_mem Prod.snd hq
    exact (List.nodup_append.mp hndT).2.2 hmem (by simp)
  have hacT2 : ∀ q ∈ T2, q.2 ≠ ac := by
    intro q hq he
    have hmem : ac ∈ T2.map Prod.snd := by
      rw [← he]
      exact List.mem_map_of_mem Prod.snd hq
    exact (List.nodup_cons.mp (List.nodup_append.mp hndT).2.1).1 hmem
  have hfT1 : ∀ q ∈ T1, q.2 ≠ s.fresh := by
    intro q hq
    have := hlt q (by rw [htop]; simp [hq])
    omega
  have hfT2 : ∀ q ∈ T2, q.2 ≠ s.fresh := by
    intro q hq
    have := hlt q (by rw [htop]; simp [hq])
    omega
  have hacf : ac ≠ s.fresh := by
    have := hlt (kc, ac) (by rw [htop]; simp)
    exact Nat.ne_of_lt this
  have he's : MapSorted (mapInsert (s.nodes ac) k v) := mapInsert_sorted k v hEs
  have he'lo : ∀ p ∈ mapInsert (s.nodes ac) k v, kc ≤ p.1 := by
    intro p hp
    rcases mapInsert_mem k v (s.nodes ac) p hp with h | h
    · rw [h]; exact hkck
    · exact hElo p h
  have he'hi : ∀ p ∈ mapInsert (s.nodes ac) k v, ∀ r, T2.head? = some r →
      p.1 < r.1 := by
    intro p hp r hr
    rcases mapInsert_mem k v (s.nodes ac) p hp with h | h
    · rw [h]; exact hT2 r (List.mem_of_mem_head? hr)
    · exact hEhi p h r hr
  have hJ1lt : ∀ p ∈ (T1.map (fun q => s.nodes q.2)).join, p.1 < k := by
    intro p hp
    obtain ⟨l, hl, hpl⟩ := List.mem_join.mp hp
    obtain ⟨q, hq, hql⟩ := List.mem_map.mp hl
    have : p.1 < kc := hub q hq p (by rw [hql]; exact hpl)
    omega
  have hJ2gt : ∀ p ∈ (T2.map (fun q => s.nodes q.2)).join, k < p.1 := by
    intro p hp
    obtain ⟨l, hl, hpl⟩ := List.mem_join.mp hp
    obtain ⟨q, hq, hql⟩ := List.mem_map.mp hl
    have h1 : q.1 ≤ p.1 := hloT2 q hq p (by rw [hql]; exact hpl)
    have h2 : k < q.1 := hT2 q hq
    omega
  have hrhs : mapInsert (abstr s) k v =
      (T1.map (fun q => s.nodes q.2)).join ++ mapInsert (s.nodes ac) k v ++
        (T2.map (fun q => s.nodes q.2)).join := by
    rw [abstr_decomp s htop, List.append_assoc,
      mapInsert_append_gt k v _ _ hJ1lt,
      mapInsert_append_lt k v _ _ hJ2gt, ← List.append_assoc]
  by_cases hlen : (mapInsert (s.nodes ac) k v).length ≤ F
  · rw [idxInsert_no_split F s k v hts hlen]
    constructor
    · refine ⟨h0, hsort, hlt, hnd, ?_⟩
      show NodesOk
        (Function.update s.nodes ac (mapInsert (s.nodes ac) k v)) s.top
      rw [htop]
      exact nodesOk_update_here T1 (htop ▸ hok) hacT1 hacT2 he's he'lo he'hi
    · rw [hrhs, abstr_decomp
        { s with nodes :=
            Function.update s.nodes ac (mapInsert (s.nodes ac) k v) } htop]
      dsimp only
      have e1 : T1.map (fun q =>
            Function.update s.nodes ac (mapInsert (s.nodes ac) k v) q.2) =
          T1.map (fun q => s.nodes q.2) :=
        List.map_congr_left (fun q hq =>
          Function.update_noteq (hacT1 q hq) _ _)
      have e2 : T2.map (fun q =>
            Function.update s.nodes ac (mapInsert (s.nodes ac) k v) q.2) =
          T2.map (fun q => s.nodes q.2) :=
        List.map_congr_left (fun q hq =>
          Function.update_noteq (hacT2 q hq) _ _)
      rw [e1, e2, Function.update_same ac (mapInsert (s.nodes ac) k v) s.nodes]
  · have hlen' : F < (mapInsert (s.nodes ac) k v).length := not_le.mp hlen
    have hm1 : 1 ≤ (F + 1) / 2 := by omega
    have hmlt : (F + 1) / 2 < (mapInsert (s.nodes ac) k v).length := by omega
    obtain ⟨r0, hr0⟩ : ∃ r0,
        ((mapInsert (s.nodes ac) k v).drop ((F + 1) / 2)).head? = some r0 := by
      rcases hh : ((mapInsert (s.nodes ac) k v).drop ((F + 1) / 2)).head?
        with _ | r0
      · exfalso
        have hnil := List.head?_eq_none_iff.mp hh
        have := congrArg List.length hnil
        rw [List.length_drop] at this
        simp at this
        omega
      · exact ⟨r0, rfl⟩
    have hskeq : ((((mapInsert (s.nodes ac) k v).drop ((F + 1) / 2)).head?.map
        Prod.fst).getD 0) = r0.1 := by
      rw [hr0]
      rfl
    have hr0drop : r0 ∈ (mapInsert (s.nodes ac) k v).drop ((F + 1) / 2) :=
      List.mem_of_mem_head? hr0
    have hr0mem : r0 ∈ mapInsert (s.nodes ac) k v :=
      List.mem_of_mem_drop hr0drop
    obtain ⟨x0, hx0⟩ : ∃ x0, (mapInsert (s.nodes ac) k v).head? = some x0 := by
      rcases hh : (mapInsert (s.nodes ac) k v).head? with _ | x0
      · exfalso
        have hnil := List.head?_eq_none_iff.mp hh
        rw [hnil] at hlen'
        simp at hlen'
      · exact ⟨x0, rfl⟩
    have hx0take : x0 ∈ (mapInsert (s.nodes ac) k v).take ((F + 1) / 2) :=
      head_mem_take hx0 hm1
    have hkcsk : kc < r0.1 := by
      have h1 : kc ≤ x0.1 := he'lo x0 (List.mem_of_mem_head? hx0)
      have h2 : x0.1 < r0.1 :=
        sorted_take_drop_lt he's ((F + 1) / 2) x0 hx0take r0 hr0drop
      omega
    have hT2sorted : MapSorted T2 := by
      have hsub : List.Sublist T2 (T1 ++ (kc, ac) :: T2) :=
        (List.sublist_cons_self (kc, ac) T2).trans
          (List.sublist_append_right T1 _)
      exact List.Pairwise.sublist hsub (htop ▸ hsort)
    have hskT2 : ∀ q ∈ T2, r0.1 < q.1 := by
      intro q hq
      rcases hh2 : T2.head? with _ | r2
      · rw [List.head?_eq_none_iff.mp hh2] at hq
        simp at hq
      · have h1 : r0.1 < r2.1 := he'hi r0 hr0mem r2 hh2
        have h2 : r2.1 ≤ q.1 := sorted_head_le hT2sorted hh2 q hq
        omega
    have hT1kc : ∀ q ∈ T1, q.1 < kc := by
      intro q hq
      exact (List.pairwise_append.mp (htop ▸ hsort)).2.2 q hq (kc, ac) (by simp)
    have htop' : mapInsert s.top r0.1 s.fresh =
        T1 ++ (kc, ac) :: (r0.1, s.fresh) :: T2 := by
      rw [htop, mapInsert_append_gt r0.1 s.fresh T1 _
        (fun q hq => lt_trans (hT1kc q hq) hkcsk)]
      congr 1
      rw [mapInsert, if_neg (by omega), if_neg (by omega)]
      congr 1
      have := mapInsert_append_lt r0.1 s.fresh [] T2 hskT2
      simpa using this
    have hLs : MapSorted ((mapInsert (s.nodes ac) k v).take ((F + 1) / 2)) :=
      List.Pairwise.sublist (List.take_sublist _ _) he's
    have hLlo : ∀ p ∈ (mapInsert (s.nodes ac) k v).take ((F + 1) / 2),
        kc ≤ p.1 := fun p hp => he'lo p ((List.take_sublist _ _).subset hp)
    have hLhi : ∀ p ∈ (mapInsert (s.nodes ac) k v).take ((F + 1) / 2),
        p.1 < r0.1 := fun p hp =>
      sorted_take_drop_lt he's ((F + 1) / 2) p hp r0 hr0drop
    have hRs : MapSorted ((mapInsert (s.nodes ac) k v).drop ((F + 1) / 2)) :=
      List.Pairwise.sublist (List.drop_sublist _ _) he's
    have hRlo : ∀ p ∈ (mapInsert (s.nodes ac) k v).drop ((F + 1) / 2),
        r0.1 ≤ p.1 := fun p hp => sorted_head_le hRs hr0 p hp
    have hRhi : ∀ p ∈ (mapInsert (s.nodes ac) k v).drop ((F + 1) / 2),
        ∀ r, T2.head? = some r → p.1 < r.1 := fun p hp =>
      he'hi p ((List.drop_sublist _ _).subset hp)
    rw [idxInsert_split F s k v hts hlen, hskeq]
    constructor
    · refine ⟨?_, ?_, ?_, ?_, ?_⟩
      · show (mapInsert s.top r0.1 s.fresh).head?.map Prod.fst = some 0
        rw [htop', head?_append_cons T1 (kc, ac) ((r0.1, s.fresh) :: T2) T2]
        have h0' := h0
        rw [htop] at h0'
        exact h0'
      · show MapSorted (mapInsert s.top r0.1 s.fresh)
        rw [htop']
        exact mapSorted_insert_middle (htop ▸ hsort) hkcsk hskT2
      · show ∀ p ∈ mapInsert s.top r0.1 s.fresh, p.2 < s.fresh + 1
        rw [htop']
        intro p hp
        rcases List.mem_append.mp hp with h | h
        · have := hlt p (by rw [htop]; exact List.mem_append_left _ h)
          omega
        · rcases List.mem_cons.mp h with h1 | h1
          · have h2 : ac < s.fresh := hlt (kc, ac) (by rw [htop]; simp)
            rw [h1]
            show ac < s.fresh + 1
            omega
          · rcases List.mem_cons.mp h1 with h2 | h2
            · rw [h2]
              show s.fresh < s.fresh + 1
              omega
            · have := hlt p (by rw [htop]; simp [h2])
              omega
      · show ((mapInsert s.top r0.1 s.fresh).map Prod.snd).Nodup
        rw [htop']
        have hf' : ∀ x ∈ T1.map Prod.snd ++ ac :: T2.map Prod.snd,
            x ≠ s.fresh := by
          intro x hx
          have hx' : x ∈ s.top.map Prod.snd := by
            rw [htop]
            simpa using hx
          obtain ⟨q, hq, hq2⟩ := List.mem_map.mp hx'
          rw [← hq2]
          exact Nat.ne_of_lt (hlt q hq)
        have := nodup_insert_middle hndT hf'
        simpa using this
      · show NodesOk
          (Function.update
            (Function.update s.nodes ac
              ((mapInsert (s.nodes ac) k v).take ((F + 1) / 2))) s.fresh
            ((mapInsert (s.nodes ac) k v).drop ((F + 1) / 2)))
          (mapInsert s.top r0.1 s.fresh)
        rw [htop']
        exact nodesOk_split_update T1 (htop ▸ hok) hacT1 hacT2 hfT1 hfT2
          hacf hLs hLlo hLhi hRs hRlo hRhi
    · rw [hrhs, abstr_decomp
        { top := mapInsert s.top r0.1 s.fresh,
          nodes := Function.update
            (Function.update s.nodes ac
              ((mapInsert (s.nodes ac) k v).take ((F + 1) / 2))) s.fresh
            ((mapInsert (s.nodes ac) k v).drop ((F + 1) / 2)),
          fresh := s.fresh + 1 } htop']
      dsimp only
      have e1 : T1.map (fun q =>
            Function.update
              (Function.update s.nodes ac
                ((mapInsert (s.nodes ac) k v).take ((F + 1) / 2))) s.fresh
              ((mapInsert (s.nodes ac) k v).drop ((F + 1) / 2)) q.2) =
          T1.map (fun q => s.nodes q.2) :=
        List.map_congr_left (fun q hq => by
          rw [Function.update_noteq (hfT1 q hq),
            Function.update_noteq (hacT1 q hq)])
      have e2 : T2.map (fun q =>
            Function.update
              (Function.update s.nodes ac
                ((mapInsert (s.nodes ac) k v).take ((F + 1) / 2))) s.fresh
              ((mapInsert (s.nodes ac) k v).drop ((F + 1) / 2)) q.2) =
          T2.map (fun q => s.nodes q.2) :=
        List.map_congr_left (fun q hq => by
          rw [Function.update_noteq (hfT2 q hq),
            Function.update_noteq (hacT2 q hq)])
      have e3 : (((r0.1, s.fresh) :: T2).map (fun q =>
            Function.update
              (Function.update s.nodes ac
                ((mapInsert (s.nodes ac) k v).take ((F + 1) / 2))) s.fresh
              ((mapInsert (s.nodes ac) k v).drop ((F + 1) / 2)) q.2)).join =
          (mapInsert (s.nodes ac) k v).drop ((F + 1) / 2) ++
            (T2.map (fun q => s.nodes q.2)).join := by
        rw [List.map_cons]
        have hug : Function.update
            (Function.update s.nodes ac
              ((mapInsert (s.nodes ac) k v).take ((F + 1) / 2))) s.fresh
            ((mapInsert (s.nodes ac) k v).drop ((F + 1) / 2)) s.fresh =
            (mapInsert (s.nodes ac) k v).drop ((F + 1) / 2) :=
          Function.update_same _ _ _
        simp only [e2]
        show Function.update
            (Function.update s.nodes ac
              ((mapInsert (s.nodes ac) k v).take ((F + 1) / 2))) s.fresh
            ((mapInsert (s.nodes ac) k v).drop ((F + 1) / 2)) s.fresh ++
            (T2.map (fun q => s.nodes q.2)).join = _
        rw [hug]
      have e4 : Function.update
          (Function.update s.nodes ac
            ((mapInsert (s.nodes ac) k v).take ((F + 1) / 2))) s.fresh
          ((mapInsert (s.nodes ac) k v).drop ((F + 1) / 2)) ac =
          (mapInsert (s.nodes ac) k v).take ((F + 1) / 2) := by
        rw [Function.update_noteq hacf, Function.update_same]
      rw [e1, e3, e4, List.append_assoc, List.append_assoc,
        show (mapInsert (s.nodes ac) k v).take ((F + 1) / 2) ++
            ((mapInsert (s.nodes ac) k v).drop ((F + 1) / 2) ++
              (T2.map (fun q => s.nodes q.2)).join) =
          mapInsert (s.nodes ac) k v ++
            (T2.map (fun q => s.nodes q.2)).join from by
            rw [← List.append_assoc, List.take_append_drop]]

theorem mapFind_foldl (ops : List (Nat × Nat)) (k : Nat) :
    mapFind (ops.foldl (fun l p => mapInsert l p.1 p.2) []) k =
      specLookup ops k := by
  induction ops using List.reverseRecOn with
  | nil => rfl
  | append_singleton ops p ih =>
    rw [List.foldl_append]
    show mapFind
      (mapInsert (ops.foldl (fun l p => mapInsert l p.1 p.2) []) p.1 p.2) k = _
    by_cases hk : k = p.1
    · rw [hk, mapFind_mapInsert_self, specLookup, List.filter_append,
        show List.filter (fun q => q.1 == p.1) [p] = [p] from by simp,
        List.getLast?_concat]
      rfl
    · rw [mapFind_mapInsert_ne _ _ _ _ hk, ih, specLookup, specLookup,
        List.filter_append]
      have hne : (p.1 == k) = false := by
        simp only [beq_eq_false_iff_ne, ne_eq]
        exact fun h => hk h.symm
      rw [show List.filter (fun q => q.1 == k) [p] = [] from by simp [hne]]
      simp

theorem inv_emptyIndex : Inv emptyIndex := by
  refine ⟨rfl, ?_, ?_, ?_, ?_⟩
  · simp [MapSorted, emptyIndex]
  · intro p hp
    have : p = (0, 0) := by simpa [emptyIndex] using hp
    rw [this]
    exact Nat.zero_lt_one
  · simp [emptyIndex]
  · exact ⟨List.Pairwise.nil, by simp [emptyIndex], by simp [emptyIndex],
      trivial⟩

theorem buildIndex_inv_abstr (F : Nat) (hF : 1 ≤ F)
    (ops : List (Nat × Nat)) :
    Inv (buildIndex F ops) ∧
      abstr (buildIndex F ops) =
        ops.foldl (fun l p => mapInsert l p.1 p.2) [] := by
  induction ops using List.reverseRecOn with
  | nil => exact ⟨inv_emptyIndex, rfl⟩
  | append_singleton ops p ih =>
    obtain ⟨h1, h2⟩ := ih
    have hstep : buildIndex F (ops ++ [p]) =
        idxInsert F (buildIndex F ops) p.1 p.2 := by
      rw [buildIndex, buildIndex, List.foldl_append]
      rfl
    obtain ⟨hi, he⟩ := idxInsert_abstr F hF h1 p.1 p.2
    refine ⟨hstep ▸ hi, ?_⟩
    rw [hstep, he, h2, List.foldl_append]
    rfl

/-- C1: for any sequence of `insert(key, value)` calls into the empty
index (fanout F ≥ 1), a subsequent `search(k)` returns `some` of the most
recent value inserted for `k`, and `none` for every key never inserted. -/
theorem c1_index_insert_search (F : Nat) (hF : 1 ≤ F)
    (ops : List (Nat × Nat)) (k : Nat) :
    idxSearch (buildIndex F ops) k = specLookup ops k := by
  obtain ⟨hinv, habs⟩ := buildIndex_inv_abstr F hF ops
  rw [idxSearch_abstr hinv k, habs, mapFind_foldl]

/-- C1 witness: four inserts (one an overwrite of key 1) into an empty
fanout-2 index, which forces node splits; searching key 1 yields the most
recent value 99. -/
theorem c1_index_insert_search_witness :
    1 ≤ 2 ∧ idxSearch (buildIndex 2 [(1, 10), (2, 20), (3, 30), (1, 99)]) 1 =
      specLookup [(1, 10), (2, 20), (3, 30), (1, 99)] 1 :=
  ⟨by decide, c1_index_insert_search 2 (by decide)
    [(1, 10), (2, 20), (3, 30), (1, 99)] 1⟩

end BTreeIdx

end Limousine
